import Mathlib

/-!
# Sensitive-word checker: Aho–Corasick automaton and detection pipeline

A shallow embedding of `ac.go` and `detector.go`.

* A Go `string` is read as its sequence of code points (`Str`), the view the
  program itself takes (`for _, ch := range w`, `[]rune(s)`,
  `utf8.RuneCountInString`); strings are taken to be valid UTF-8, so a string
  and its code-point sequence determine each other.
* `*acNode` pointers are indices into a heap (`List acNode`); `nil` is `none`.
* A Go `map` is an association list with unique keys.  The order in which
  `range` visits a map is unspecified in Go; it is supplied by a `MapOrder`,
  an arbitrary rearrangement of the entries.
* Functions return `none` where the Go code would dereference `nil` or loop
  forever (loops that follow pointers carry fuel).
-/

namespace SensitiveChecker

/-- A Go string as its sequence of code points. -/
abbrev Str := List Char

/-- The order in which `range` enumerates the entries of a map. -/
structure MapOrder (α : Type) where
  order : List α → List α
  perm : ∀ l, (order l).Perm l

/-- Enumeration in storage order. -/
def MapOrder.stored (α : Type) : MapOrder α := ⟨fun l => l, fun l => List.Perm.refl l⟩

/-- Map read `m[k]` (`none` when the key is absent). -/
def mapGet {κ ν : Type} [DecidableEq κ] : List (κ × ν) → κ → Option ν
  | [], _ => none
  | (k1, v) :: rest, k => if k1 = k then some v else mapGet rest k

/-- Map write `m[k] = v`. -/
def mapSet {κ ν : Type} [DecidableEq κ] : List (κ × ν) → κ → ν → List (κ × ν)
  | [], k, v => [(k, v)]
  | (k1, v1) :: rest, k, v => if k1 = k then (k, v) :: rest else (k1, v1) :: mapSet rest k v

/-! ## ac.go -/

structure acNode where
  next : List (Char × Nat)
  fail : Option Nat
  out : List Str
deriving DecidableEq

structure Match where
  Start : Int
  End : Int
  Word : Str
deriving DecidableEq

structure ACAutomaton where
  heap : List acNode
  root : Option Nat
  numWords : Nat

/-- A freshly allocated `&acNode{next: make(map[rune]*acNode)}`. -/
def newNode : acNode := { next := [], fail := none, out := [] }

def NewAC : ACAutomaton := { heap := [newNode], root := some 0, numWords := 0 }

/-- The inner loop of the trie phase of `Build`: walk (and extend) the trie along the
code points of a word, returning the heap and the node reached. -/
def trieWalk (h : List acNode) (cur : Nat) : Str → Option (List acNode × Nat)
  | [] => some (h, cur)
  | ch :: rest =>
    match h[cur]? with
    | none => none
    | some n =>
      match mapGet n.next ch with
      | some nxt => trieWalk h nxt rest
      | none =>
        trieWalk (h.set cur { n with next := mapSet n.next ch h.length } ++ [newNode])
          h.length rest

/-- One iteration of the trie loop of `Build` for a non-empty word. -/
def addWord (h : List acNode) (root : Nat) (w : Str) : Option (List acNode) :=
  match trieWalk h root w with
  | none => none
  | some (h1, cur) =>
    match h1[cur]? with
    | none => none
    | some n =>
      if n.out.length = 0 ∨ n.out.getLast? ≠ some w then
        some (h1.set cur { n with out := n.out ++ [w] })
      else some h1

/-- The trie loop of `Build` (`for _, w := range words`). -/
def buildTrie (root : Nat) : List acNode → Nat → List Str → Option (List acNode × Nat)
  | h, nw, [] => some (h, nw)
  | h, nw, w :: ws =>
    if w = [] then buildTrie root h nw ws
    else
      match addWord h root w with
      | none => none
      | some h1 => buildTrie root h1 (nw + 1) ws

/-- The loop `for _, nxt := range ac.root.next` of `Build`. -/
def initQueue (root : Nat) : List acNode → List Nat → List (Char × Nat) →
    Option (List acNode × List Nat)
  | h, q, [] => some (h, q)
  | h, q, (_, nxt) :: rest =>
    match h[nxt]? with
    | none => none
    | some n => initQueue root (h.set nxt { n with fail := some root }) (q ++ [nxt]) rest

/-- The loop `for f != nil && f.next[ch] == nil { f = f.fail }` of `Build`. -/
def failWalk (h : List acNode) (ch : Char) : Nat → Option Nat → Option (Option Nat)
  | 0, _ => none
  | _ + 1, none => some none
  | fuel + 1, some f =>
    match h[f]? with
    | none => none
    | some n =>
      match mapGet n.next ch with
      | some _ => some (some f)
      | none => failWalk h ch fuel n.fail

/-- The loop `for ch, v := range u.next` of `Build`. -/
def linkChildren (root u : Nat) : List acNode → List Nat → List (Char × Nat) →
    Option (List acNode × List Nat)
  | h, q, [] => some (h, q)
  | h, q, (ch, v) :: rest =>
    match h[u]? with
    | none => none
    | some nu =>
      match failWalk h ch (h.length + 1) nu.fail with
      | none => none
      | some none =>
        match h[v]? with
        | none => none
        | some nv => linkChildren root u (h.set v { nv with fail := some root }) (q ++ [v]) rest
      | some (some f) =>
        match h[f]? with
        | none => none
        | some nf =>
          match mapGet nf.next ch with
          | none => none
          | some t =>
            match h[v]?, h[t]? with
            | some nv, some nt =>
              let nv1 : acNode := { nv with fail := some t }
              let nv2 : acNode :=
                if nt.out.length > 0 then { nv1 with out := nv1.out ++ nt.out } else nv1
              linkChildren root u (h.set v nv2) (q ++ [v]) rest
            | _, _ => none

/-- The loop `for q.Len() > 0` of `Build`. -/
def bfsLoop (mo : MapOrder (Char × Nat)) (root : Nat) :
    Nat → List acNode → List Nat → Option (List acNode)
  | _, h, [] => some h
  | 0, _, _ :: _ => none
  | fuel + 1, h, u :: q =>
    match h[u]? with
    | none => none
    | some nu =>
      match linkChildren root u h q (mo.order nu.next) with
      | none => none
      | some (h1, q1) => bfsLoop mo root fuel h1 q1

def Build (mo : MapOrder (Char × Nat)) (ac : ACAutomaton) (words : List Str) :
    Option ACAutomaton :=
  match ac.root with
  | none => none
  | some r =>
    match buildTrie r ac.heap ac.numWords words with
    | none => none
    | some (h1, nw) =>
      match h1[r]? with
      | none => none
      | some nr =>
        match initQueue r h1 [] (mo.order nr.next) with
        | none => none
        | some (h2, q) =>
          match bfsLoop mo r h2.length h2 q with
          | none => none
          | some h3 => some { heap := h3, root := some r, numWords := nw }

/-- The loop `for cur != ac.root && cur.next[ch] == nil { cur = cur.fail }` of `Search`. -/
def searchWalk (h : List acNode) (root : Nat) (ch : Char) : Nat → Option Nat → Option Nat
  | 0, _ => none
  | _ + 1, none => none
  | fuel + 1, some cur =>
    if cur = root then some cur
    else
      match h[cur]? with
      | none => none
      | some n =>
        match mapGet n.next ch with
        | some _ => some cur
        | none => searchWalk h root ch fuel n.fail

/-- The matches appended for the state reached at index `i`. -/
def emit (i : Nat) (out : List Str) : List Match :=
  out.map fun w => { Start := (i : Int) - (w.length : Int) + 1, End := (i : Int) + 1, Word := w }

/-- The loop `for i, ch := range runes` of `Search`, from index `i` in state `cur`. -/
def searchLoop (h : List acNode) (root : Nat) : Nat → Nat → Str → Option (List Match)
  | _, _, [] => some []
  | i, cur, ch :: rest =>
    match searchWalk h root ch (h.length + 1) (some cur) with
    | none => none
    | some c1 =>
      match h[c1]? with
      | none => none
      | some n1 =>
        let c2 := match mapGet n1.next ch with
          | some nxt => nxt
          | none => c1
        match h[c2]? with
        | none => none
        | some n2 =>
          match searchLoop h root (i + 1) c2 rest with
          | none => none
          | some ms => some (emit i n2.out ++ ms)

def Search (ac : ACAutomaton) (s : Str) : Option (List Match) :=
  match ac.root with
  | none => some []
  | some r => searchLoop ac.heap r 0 r s

/-- The comparison function handed to `sort.Slice` in `Mask`. -/
def maskLess (a b : Match) : Bool :=
  if a.Start = b.Start then decide (a.End > b.End) else decide (a.Start < b.Start)

/-- The relation `sort.Slice` orders by: `b` is not less than `a`. -/
def maskLE (a b : Match) : Prop := maskLess b a = false

instance : DecidableRel maskLE := fun a b => by unfold maskLE; infer_instance

/-- The inner loop `for i := m.Start; i < m.End && i < len(cover); i++` of `Mask`. -/
def markLoop (stop : Int) : Nat → Nat → List Bool → List Bool
  | 0, _, cover => cover
  | fuel + 1, i, cover =>
    if (i : Int) < stop ∧ i < cover.length then markLoop stop fuel (i + 1) (cover.set i true)
    else cover

/-- The loop `for _, m := range matches` of `Mask`. -/
def markAll : List Match → List Bool → List Bool
  | [], cover => cover
  | m :: ms, cover =>
    if m.Start < 0 then markAll ms cover
    else markAll ms (markLoop m.End cover.length m.Start.toNat cover)

/-- The loop `for i, c := range cover` of `Mask`. -/
def applyCover (mask : Char) : List Bool → Str → Str
  | c :: cs, r :: rs => (if c then mask else r) :: applyCover mask cs rs
  | _, rs => rs

def Mask (ac : ACAutomaton) (s : Str) (mask : Char) : Option (Str × List Match) :=
  match Search ac s with
  | none => none
  | some ms =>
    if ms.length = 0 then some (s, [])
    else
      let sorted := ms.insertionSort maskLE
      some (applyCover mask (markAll sorted (List.replicate s.length false)) s, sorted)

/-! ## detector.go -/

def PoliticalHigh : Str := "political_high".toList
def PoliticalLow : Str := "political_low".toList
def PoliticalPerson : Str := "political_person".toList
def PoliticalBanned : Str := "political_banned_books".toList
def PoliticalProhib : Str := "political_prohibited".toList
def ViolentHigh : Str := "violent_high".toList
def ViolentLow : Str := "violent_low".toList
def ViolentChemical : Str := "violent_chemical".toList
def PornHigh : Str := "pornographic_high".toList
def PornLow : Str := "pornographic_low".toList
def AbusiveHigh : Str := "abusive_high".toList
def AbusiveLow : Str := "abusive_low".toList
def AdvertisingHigh : Str := "advertising_high".toList
def AdvertisingLow : Str := "advertising_low".toList

def CategoryDisplay : List (Str × Str) :=
  [ (PoliticalHigh, "政治高敏感".toList),
    (PoliticalLow, "政治低敏感".toList),
    (PoliticalPerson, "政治敏感人物".toList),
    (PoliticalBanned, "禁书".toList),
    (PoliticalProhib, "政治违禁词".toList),
    (ViolentHigh, "暴恐高敏感".toList),
    (ViolentLow, "暴恐低敏感".toList),
    (ViolentChemical, "化学药剂".toList),
    (PornHigh, "涉黄高敏感".toList),
    (PornLow, "涉黄低敏感".toList),
    (AbusiveHigh, "辱骂高敏感".toList),
    (AbusiveLow, "辱骂低敏感".toList),
    (AdvertisingHigh, "广告高敏感".toList),
    (AdvertisingLow, "广告低敏感".toList) ]

/-- The Unicode general categories the expression of `reNoSymbol` refers to
(tables of Go's `unicode` package). -/
structure UnicodeTables where
  isLetter : Char → Bool
  isNumber : Char → Bool

/-- The code points matched by the expression `[^\p{L}\p{N}_，。]`. -/
def reNoSymbolClass (uc : UnicodeTables) (c : Char) : Bool :=
  !(uc.isLetter c || uc.isNumber c || c == '_' || c == '，' || c == '。')

/-- The call `re.ReplaceAllString(text, "")` for an expression matching single code points. -/
def replaceAllEmpty (re : Char → Bool) (text : Str) : Str := text.filter fun c => !re c

structure agg where
  countRaw : Nat
  countNoSymbol : Nat
  posRaw : List Int
  posNoSymbol : List Int
deriving DecidableEq

structure WordHit where
  Word : Str
  CountRaw : Nat
  CountNoSymbol : Nat
  TotalCount : Nat
  Level : Str
  OriginalLevel : Str
  PositionsRaw : List Int
  PositionsNoSymbol : List Int
deriving DecidableEq

structure CategoryResult where
  Count : Nat
  Words : List WordHit
  Stats : List (Str × Nat)
deriving DecidableEq

structure DetectResponse where
  HasSensitive : Bool
  TotalCount : Nat
  Categories : List (Str × CategoryResult)
  DetectedWords : List WordHit
  RiskLevel : Str
  CategorySummary : List (Str × List (Str × Nat))
  SimilarWords : List Unit
  SimilarSensitive : Bool
deriving DecidableEq

/-- The detector.  `sensitiveWords` maps a category to its word set (a duplicate-free
list); `reNoSymbol` is the set of code points its compiled expression matches. -/
structure Detector where
  sensitiveWords : List (Str × List Str)
  automata : List (Str × Option ACAutomaton)
  reNoSymbol : Char → Bool

/-- The enumeration orders of the maps the detector ranges over. -/
structure RangeOrders where
  nodes : MapOrder (Char × Nat)
  categories : MapOrder (Str × List Str)
  wordSet : MapOrder Str
  automata : MapOrder (Str × Option ACAutomaton)
  aggs : MapOrder (Str × agg)
  results : MapOrder (Str × CategoryResult)

def RangeOrders.stored : RangeOrders :=
  ⟨MapOrder.stored _, MapOrder.stored _, MapOrder.stored _, MapOrder.stored _,
    MapOrder.stored _, MapOrder.stored _⟩

/-- The function `strings.Contains`. -/
def Contains (s sub : Str) : Bool := decide (sub <:+: s)

/-- The function `sort.Strings`: ascending lexicographic order. -/
def sortStrings (l : List Str) : List Str := l.insertionSort fun a b => ¬ b < a

/-- The loop `for cat, set := range d.sensitiveWords` of `buildAutomata`. -/
def buildAutomataLoop (ro : RangeOrders) :
    List (Str × Option ACAutomaton) → List (Str × List Str) →
    Option (List (Str × Option ACAutomaton))
  | automata, [] => some automata
  | automata, (cat, set) :: rest =>
    let words := sortStrings (ro.wordSet.order set)
    match Build ro.nodes NewAC words with
    | none => none
    | some ac => buildAutomataLoop ro (mapSet automata cat (some ac)) rest

/-- The constructor `NewDetector`, from the point where `loadSensitiveWords` has filled the word sets
(`loaded` is the content of `d.sensitiveWords` read from the word-list files). -/
def NewDetector (uc : UnicodeTables) (ro : RangeOrders) (loaded : List (Str × List Str)) :
    Option Detector :=
  match buildAutomataLoop ro [] (ro.categories.order loaded) with
  | none => none
  | some automata =>
    some { sensitiveWords := loaded, automata := automata, reNoSymbol := reNoSymbolClass uc }

def runeCount (s : Str) : Nat := s.length

def levelOf (category word : Str) : Str × Str :=
  let original : Str :=
    if Contains category "high".toList || Contains category "banned_books".toList ||
        Contains category "prohibited".toList || Contains category "person".toList
    then "high".toList else "low".toList
  if runeCount word = 1 then ("low".toList, original)
  else if original = "high".toList then ("high".toList, original)
  else ("low".toList, original)

/-- The loop over `A.Search(text)` in `Detect`. -/
def aggRaw : List (Str × agg) → List Match → List (Str × agg)
  | aggm, [] => aggm
  | aggm, m :: ms =>
    let a : agg := match mapGet aggm m.Word with
      | some a => a
      | none => { countRaw := 0, countNoSymbol := 0, posRaw := [], posNoSymbol := [] }
    aggRaw (mapSet aggm m.Word { a with countRaw := a.countRaw + 1, posRaw := a.posRaw ++ [m.Start] })
      ms

/-- The loop over `A.Search(textNoSymbol)` in `Detect`. -/
def aggNoSymbol : List (Str × agg) → List Match → List (Str × agg)
  | aggm, [] => aggm
  | aggm, m :: ms =>
    let a : agg := match mapGet aggm m.Word with
      | some a => a
      | none => { countRaw := 0, countNoSymbol := 0, posRaw := [], posNoSymbol := [] }
    aggNoSymbol
      (mapSet aggm m.Word
        { a with countNoSymbol := a.countNoSymbol + 1, posNoSymbol := a.posNoSymbol ++ [m.Start] })
      ms

/-- Map read `m[k]` of a `map[string]int` (zero when the key is absent). -/
def statGet (m : List (Str × Nat)) (k : Str) : Nat :=
  match mapGet m k with
  | some n => n
  | none => 0

/-- The loop `for w, a := range aggm` of `Detect`. -/
def wordLoop (cat : Str) :
    CategoryResult → List WordHit → List (Str × agg) → CategoryResult × List WordHit
  | cr, dw, [] => (cr, dw)
  | cr, dw, (w, a) :: rest =>
    let total := a.countRaw + a.countNoSymbol
    if total = 0 then wordLoop cat cr dw rest
    else
      let lo := levelOf cat w
      let h : WordHit :=
        { Word := w, CountRaw := a.countRaw, CountNoSymbol := a.countNoSymbol,
          TotalCount := total, Level := lo.1, OriginalLevel := lo.2,
          PositionsRaw := a.posRaw, PositionsNoSymbol := a.posNoSymbol }
      wordLoop cat
        { cr with Stats := mapSet cr.Stats lo.1 (statGet cr.Stats lo.1 + 1),
                  Words := cr.Words ++ [h] }
        (dw ++ [h]) rest

/-- One iteration of the loop `for _, cat := range categories` of `Detect`. -/
def categoryBody (ro : RangeOrders) (d : Detector) (text textNoSymbol : Str)
    (resp : DetectResponse) (cat : Str) : Option DetectResponse :=
  match mapGet d.automata cat with
  | none => some resp
  | some none => some resp
  | some (some A) =>
    match Search A text with
    | none => none
    | some ms1 =>
      match Search A textNoSymbol with
      | none => none
      | some ms2 =>
        let aggm := aggNoSymbol (aggRaw [] ms1) ms2
        if aggm.length = 0 then some resp
        else
          let r := wordLoop cat
            { Count := 0, Words := [], Stats := [("high".toList, 0), ("low".toList, 0)] }
            resp.DetectedWords (ro.aggs.order aggm)
          let cr : CategoryResult := { r.1 with Count := r.1.Words.length }
          some { resp with
            Categories := mapSet resp.Categories cat cr,
            DetectedWords := r.2,
            TotalCount := resp.TotalCount + cr.Count }

/-- The loop `for _, cat := range categories` of `Detect`. -/
def categoryLoop (ro : RangeOrders) (d : Detector) (text textNoSymbol : Str) :
    DetectResponse → List Str → Option DetectResponse
  | resp, [] => some resp
  | resp, cat :: rest =>
    match categoryBody ro d text textNoSymbol resp cat with
    | none => none
    | some resp1 => categoryLoop ro d text textNoSymbol resp1 rest

/-- The loop `for _, w := range resp.DetectedWords` counting the high-level words. -/
def countHigh : Nat → List WordHit → Nat
  | n, [] => n
  | n, w :: ws => if w.Level = "high".toList then countHigh (n + 1) ws else countHigh n ws

/-- The loop `for cat, data := range resp.Categories` of `Detect`. -/
def summaryLoop : List (Str × List (Str × Nat)) → List (Str × CategoryResult) →
    List (Str × List (Str × Nat))
  | summary, [] => summary
  | summary, (cat, data) :: rest =>
    summaryLoop
      (mapSet summary cat
        [("total".toList, data.Count), ("high".toList, statGet data.Stats "high".toList),
          ("low".toList, statGet data.Stats "low".toList)])
      rest

def Detect (ro : RangeOrders) (d : Detector) (text : Str) (categories : List Str) :
    Option DetectResponse :=
  let categories :=
    if categories.length = 0 then (ro.automata.order d.automata).map Prod.fst else categories
  let textNoSymbol := replaceAllEmpty d.reNoSymbol text
  let resp0 : DetectResponse :=
    { HasSensitive := false, TotalCount := 0, Categories := [], DetectedWords := [],
      RiskLevel := "safe".toList, CategorySummary := [], SimilarWords := [],
      SimilarSensitive := true }
  match categoryLoop ro d text textNoSymbol resp0 categories with
  | none => none
  | some resp =>
    let resp1 : DetectResponse :=
      if resp.TotalCount > 0 then
        { resp with
          RiskLevel := if countHigh 0 resp.DetectedWords > 0 then "high".toList else "low".toList,
          HasSensitive := true }
      else resp
    some { resp1 with
      CategorySummary := summaryLoop resp1.CategorySummary (ro.results.order resp1.Categories) }

/-- The size `len(d.sensitiveWords[cat])` of a word set. -/
def setSize (sw : List (Str × List Str)) (cat : Str) : Nat :=
  match mapGet sw cat with
  | some set => set.length
  | none => 0

/-- The loop `for cat, set := range d.sensitiveWords` of `Statistics`. -/
def statisticsLoop : List (Str × Nat) → Nat → List (Str × List Str) → List (Str × Nat) × Nat
  | stats, total, [] => (stats, total)
  | stats, total, (cat, set) :: rest =>
    statisticsLoop (mapSet stats cat set.length) (total + set.length) rest

def Statistics (ro : RangeOrders) (d : Detector) : List (Str × Nat) :=
  let sw := d.sensitiveWords
  let stats : List (Str × Nat) := []
  let stats := mapSet stats "political".toList
    (setSize sw PoliticalHigh + setSize sw PoliticalLow + setSize sw PoliticalPerson +
      setSize sw PoliticalBanned + setSize sw PoliticalProhib)
  let stats := mapSet stats "violent".toList
    (setSize sw ViolentHigh + setSize sw ViolentLow + setSize sw ViolentChemical)
  let stats := mapSet stats "pornographic".toList (setSize sw PornHigh + setSize sw PornLow)
  let stats := mapSet stats "abusive".toList (setSize sw AbusiveHigh + setSize sw AbusiveLow)
  let stats := mapSet stats "advertising".toList
    (setSize sw AdvertisingHigh + setSize sw AdvertisingLow)
  let r := statisticsLoop stats 0 (ro.categories.order sw)
  mapSet r.1 "total".toList r.2

/-! ## Specification-level notions for the automaton -/

/-- The trie structure of a heap, with `path v` the word spelled from the root to `v`. -/
structure TrieShape (h : List acNode) (path : Nat → Str) : Prop where
  root : path 0 = []
  pos : 0 < h.length
  child : ∀ (u : Nat) (n : acNode) (c : Char) (v : Nat), h[u]? = some n → (c, v) ∈ n.next → v < h.length ∧ path v = path u ++ [c]
  parent : ∀ (v : Nat) (p : Str) (c : Char), v < h.length → path v = p ++ [c] →
    ∃ (u : Nat) (n : acNode), h[u]? = some n ∧ path u = p ∧ (c, v) ∈ n.next
  inj : ∀ (u v : Nat), u < h.length → v < h.length → path u = path v → u = v
  keys : ∀ (u : Nat) (n : acNode), h[u]? = some n → (n.next.map Prod.fst).Nodup
  depth : ∀ (v : Nat), v < h.length → (path v).length ≤ v

/-- The prefixes of the words of `W`: the paths of the trie built from `W`. -/
def inTrie (W : List Str) (p : Str) : Prop := p = [] ∨ ∃ w, w ∈ W ∧ p <+: w

/-- The word a trie node records for itself. -/
def ownOut (W : List Str) (p : Str) : List Str := if p ≠ [] ∧ p ∈ W then [p] else []

/-- The words of `W` that end a given path, longest first. -/
def outOf (W : List Str) (p : Str) : List Str :=
  p.tails.filter fun s => decide (s ≠ [] ∧ s ∈ W)

/-- State of the heap after the trie phase of `Build` on the words `W`. -/
structure TrieInv (W : List Str) (h : List acNode) (path : Nat → Str) : Prop where
  shape : TrieShape h path
  nodes : ∀ p, (∃ v, v < h.length ∧ path v = p) ↔ inTrie W p
  out : ∀ (v : Nat) (n : acNode), h[v]? = some n → n.out = ownOut W (path v)
  fail : ∀ (v : Nat) (n : acNode), h[v]? = some n → n.fail = none

/-- The path `s` is the longest proper suffix of `p` that is a path of the trie. -/
def IsLps (W : List Str) (s p : Str) : Prop :=
  s <:+ p ∧ s.length < p.length ∧ inTrie W s ∧
    ∀ s1 : Str, s1 <:+ p → s1.length < p.length → inTrie W s1 → s1.length ≤ s.length

/-- The path `s` is the longest suffix of `p` that is a path of the trie. -/
def IsLs (W : List Str) (s p : Str) : Prop :=
  s <:+ p ∧ inTrie W s ∧ ∀ s1 : Str, s1 <:+ p → inTrie W s1 → s1.length ≤ s.length

/-- A node the failure-link phase has not reached yet. -/
def Pristine (W : List Str) (path : Nat → Str) (v : Nat) (n : acNode) : Prop :=
  n.fail = none ∧ n.out = ownOut W (path v)

/-- A node whose failure link and output list are final. -/
def Resolved (W : List Str) (path : Nat → Str) (len : Nat) (v : Nat) (n : acNode) : Prop :=
  ∃ t, n.fail = some t ∧ t < len ∧ IsLps W (path t) (path v) ∧ n.out = outOf W (path v)

/-- Number of nodes without a failure link. -/
def pend (h : List acNode) : Nat := h.countP fun n => n.fail.isNone

/-- No trie path that is a proper suffix of `pu` of length at least `k` can be extended
by `c` inside the trie. -/
def NoExt (W : List Str) (c : Char) (pu : Str) (k : Nat) : Prop :=
  ∀ s : Str, s <:+ pu → s.length < pu.length → k ≤ s.length → inTrie W s →
    ¬ inTrie W (s ++ [c])

/-- Invariant of the failure-link walk of `Build` at the pointer `f`. -/
def WalkOk (W : List Str) (path : Nat → Str) (h : List acNode) (c : Char) (pu : Str) :
    Option Nat → Prop
  | none => NoExt W c pu 0
  | some x => x < h.length ∧ path x <:+ pu ∧ (path x).length < pu.length ∧
      NoExt W c pu ((path x).length + 1)

/-- What the failure-link walk of `Build` establishes when it stops at `r`. -/
def WalkDone (W : List Str) (path : Nat → Str) (h : List acNode) (c : Char) (pu : Str) :
    Option Nat → Prop
  | none => NoExt W c pu 0
  | some x => ∃ (nx : acNode) (t : Nat), h[x]? = some nx ∧ mapGet nx.next c = some t ∧
      path x <:+ pu ∧ (path x).length < pu.length ∧ NoExt W c pu ((path x).length + 1)

/-- Iterations the failure-link walk needs from the pointer `f`. -/
def walkFuel (path : Nat → Str) : Option Nat → Nat
  | none => 1
  | some x => (path x).length + 2

/-- The part of the failure-link invariant that does not mention the queue. -/
structure BfsCore (W : List Str) (path : Nat → Str) (h : List acNode) : Prop where
  shape : TrieShape h path
  nodes : ∀ p, (∃ v, v < h.length ∧ path v = p) ↔ inTrie W p
  status : ∀ (v : Nat) (n : acNode), h[v]? = some n →
    Pristine W path v n ∨ Resolved W path h.length v n

/-- Invariant of the queue loop of `Build`. -/
structure BfsInv (W : List Str) (path : Nat → Str) (h : List acNode) (q : List Nat) :
    Prop where
  core : BfsCore W path h
  qres : ∀ x, x ∈ q → ∃ n, h[x]? = some n ∧ Resolved W path h.length x n
  childRes : ∀ (u : Nat) (n : acNode) (c : Char) (v : Nat) (nv : acNode),
    h[u]? = some n → (c, v) ∈ n.next → h[v]? = some nv →
    (Resolved W path h.length v nv ↔ ((u = 0 ∨ Resolved W path h.length u n) ∧ u ∉ q))
  sorted : q.Pairwise fun a b => (path a).length ≤ (path b).length
  span : ∀ x, x ∈ q → ∀ y, y ∈ q → (path y).length ≤ (path x).length + 1
  nodup : q.Nodup

/-- Invariant of the loops over the children of a node `u` (`rest` are the children
still to be visited). -/
structure InnerInv (W : List Str) (path : Nat → Str) (h : List acNode) (q : List Nat)
    (u : Nat) (rest : List (Char × Nat)) : Prop where
  core : BfsCore W path h
  uok : ∃ nu, h[u]? = some nu ∧ (u = 0 ∨ Resolved W path h.length u nu)
  unotin : u ∉ q
  qres : ∀ x, x ∈ q → ∃ n, h[x]? = some n ∧ Resolved W path h.length x n
  childRes : ∀ (x : Nat) (n : acNode) (c : Char) (v : Nat) (nv : acNode), x ≠ u →
    h[x]? = some n → (c, v) ∈ n.next → h[v]? = some nv →
    (Resolved W path h.length v nv ↔ ((x = 0 ∨ Resolved W path h.length x n) ∧ x ∉ q))
  uchild : ∀ (nu : acNode) (c : Char) (v : Nat) (nv : acNode),
    h[u]? = some nu → (c, v) ∈ nu.next → h[v]? = some nv →
    (Resolved W path h.length v nv ↔ (c, v) ∉ rest)
  restSub : ∀ cv, cv ∈ rest → ∀ nu : acNode, h[u]? = some nu → cv ∈ nu.next
  restNodup : rest.Nodup
  low : ∀ (v : Nat) (n : acNode), h[v]? = some n → v ≠ 0 →
    (path v).length ≤ (path u).length → Resolved W path h.length v n
  sorted : q.Pairwise fun a b => (path a).length ≤ (path b).length
  range : ∀ x, x ∈ q →
    (path u).length ≤ (path x).length ∧ (path x).length ≤ (path u).length + 1
  nodup : q.Nodup

/-- No trie path that is a suffix of `pre` of length at least `k` can be extended by `c`
inside the trie. -/
def NoExtS (W : List Str) (c : Char) (pre : Str) (k : Nat) : Prop :=
  ∀ s : Str, s <:+ pre → k ≤ s.length → inTrie W s → ¬ inTrie W (s ++ [c])

/-- State of the heap after `Build` on the words `W`. -/
structure AutInv (W : List Str) (path : Nat → Str) (h : List acNode) : Prop where
  shape : TrieShape h path
  nodes : ∀ p, (∃ v, v < h.length ∧ path v = p) ↔ inTrie W p
  rootNode : ∀ n : acNode, h[0]? = some n → n.fail = none ∧ n.out = []
  resolved : ∀ (v : Nat) (n : acNode), h[v]? = some n → v ≠ 0 →
    Resolved W path h.length v n

/-- What `Search` returns, stated on the word list alone: after each code point, the
words that end there, longest first. -/
def specLoop (W : List Str) : Str → Str → List Match
  | _, [] => []
  | pre, ch :: rest => emit pre.length (outOf W (pre ++ [ch])) ++ specLoop W (pre ++ [ch]) rest

def specSearch (W : List Str) (T : Str) : List Match := specLoop W [] T

/-! ## Notions used to state the results -/

/-- Whether index `i` lies inside a match that `Mask` does not skip. -/
def covered (ms : List Match) (i : Nat) : Bool :=
  ms.any fun m => decide (0 ≤ m.Start ∧ m.Start ≤ (i : Int) ∧ (i : Int) < m.End)

/-- The aggregate of a word not seen before. -/
def aggZero : agg := { countRaw := 0, countNoSymbol := 0, posRaw := [], posNoSymbol := [] }

/-- The matches of one word. -/
def matchesOf (ms : List Match) (w : Str) : List Match := ms.filter fun m => m.Word = w

/-- The aggregate after adding raw-text matches of its word. -/
def addRaw (a : agg) (l : List Match) : agg :=
  { a with countRaw := a.countRaw + l.length, posRaw := a.posRaw ++ l.map Match.Start }

/-- The aggregate after adding stripped-text matches of its word. -/
def addNoSymbol (a : agg) (l : List Match) : agg :=
  { a with countNoSymbol := a.countNoSymbol + l.length,
           posNoSymbol := a.posNoSymbol ++ l.map Match.Start }

/-- The `WordHit` built for one entry of the aggregation map. -/
def hitOf (cat : Str) (p : Str × agg) : WordHit :=
  { Word := p.1, CountRaw := p.2.countRaw, CountNoSymbol := p.2.countNoSymbol,
    TotalCount := p.2.countRaw + p.2.countNoSymbol, Level := (levelOf cat p.1).1,
    OriginalLevel := (levelOf cat p.1).2, PositionsRaw := p.2.posRaw,
    PositionsNoSymbol := p.2.posNoSymbol }

/-- The `WordHit`s built from the entries of the aggregation map, in enumeration order. -/
def hitsOf (cat : Str) (l : List (Str × agg)) : List WordHit :=
  (l.filter fun p => decide (p.2.countRaw + p.2.countNoSymbol ≠ 0)).map (hitOf cat)

/-- The initial `CategoryResult` of an iteration of `Detect`. -/
def crInit : CategoryResult :=
  { Count := 0, Words := [], Stats := [("high".toList, 0), ("low".toList, 0)] }

/-- What one category contributes to the response: `none` when a search fails,
`some none` when the category is skipped, `some (some cr)` when `cr` is recorded. -/
def catEntry (ro : RangeOrders) (d : Detector) (text textNoSymbol : Str) (cat : Str) :
    Option (Option CategoryResult) :=
  match mapGet d.automata cat with
  | none => some none
  | some none => some none
  | some (some A) =>
    match Search A text with
    | none => none
    | some ms1 =>
      match Search A textNoSymbol with
      | none => none
      | some ms2 =>
        if (aggNoSymbol (aggRaw [] ms1) ms2).length = 0 then some none
        else
          some (some { (wordLoop cat crInit []
              (ro.aggs.order (aggNoSymbol (aggRaw [] ms1) ms2))).1 with
            Count := (hitsOf cat (ro.aggs.order (aggNoSymbol (aggRaw [] ms1) ms2))).length })

/-- The effect of a category's contribution on the response. -/
def applyEntry (resp : DetectResponse) (cat : Str) :
    Option (Option CategoryResult) → Option DetectResponse
  | none => none
  | some none => some resp
  | some (some cr) =>
    some { resp with
      Categories := mapSet resp.Categories cat cr,
      DetectedWords := resp.DetectedWords ++ cr.Words,
      TotalCount := resp.TotalCount + cr.Count }

/-- The words a category contributes. -/
def entryWords : Option (Option CategoryResult) → List WordHit
  | some (some cr) => cr.Words
  | _ => []

/-- The map entry a category contributes, or the previous one. -/
def pick : Option (Option CategoryResult) → Option CategoryResult → Option CategoryResult
  | some (some cr), _ => some cr
  | _, dflt => dflt

/-- The entry of `category_summary` for a category result. -/
def summaryOf (data : CategoryResult) : List (Str × Nat) :=
  [("total".toList, data.Count), ("high".toList, statGet data.Stats "high".toList),
    ("low".toList, statGet data.Stats "low".toList)]

/-- The categories `Detect` visits. -/
def selected (ro : RangeOrders) (d : Detector) (categories : List Str) : List Str :=
  if categories.length = 0 then (ro.automata.order d.automata).map Prod.fst else categories

/-- What `Detect` returns, in terms of the contribution of each category. -/
structure DetectPost (ro : RangeOrders) (d : Detector) (text : Str) (cats : List Str)
    (resp : DetectResponse) : Prop where
  words : resp.DetectedWords = (selected ro d cats).flatMap fun c =>
    entryWords (catEntry ro d text (replaceAllEmpty d.reNoSymbol text) c)
  total : resp.TotalCount = resp.DetectedWords.length
  cats : ∀ c, mapGet resp.Categories c =
    if c ∈ selected ro d cats then
      pick (catEntry ro d text (replaceAllEmpty d.reNoSymbol text) c) none
    else none
  catKeys : (resp.Categories.map Prod.fst).Nodup
  risk : resp.RiskLevel =
    if resp.TotalCount > 0 then
      (if ∃ h, h ∈ resp.DetectedWords ∧ h.Level = "high".toList then "high".toList
       else "low".toList)
    else "safe".toList
  has : resp.HasSensitive = decide (resp.TotalCount > 0)
  summary : ∀ c, mapGet resp.CategorySummary c = (mapGet resp.Categories c).map summaryOf

/-- Every stored automaton is non-nil and searches like the specification
for some word list. -/
def GoodAutomata (automata : List (Str × Option ACAutomaton)) : Prop :=
  ∀ (c : Str) (oa : Option ACAutomaton), mapGet automata c = some oa →
    ∃ (W : List Str) (A : ACAutomaton), oa = some A ∧ ∀ T : Str, Search A T = some (specSearch W T)

/-- Start offsets of the occurrences of `w` in `T`, in increasing order. -/
def occurrences (w T : Str) : List Nat :=
  (List.range T.length).filter fun s => decide (w <+: T.drop s)

/-- The order in which `Search` emits matches: by end offset, longest word first. -/
def emitBefore (a b : Match) : Prop :=
  a.End < b.End ∨ (a.End = b.End ∧ a.Start < b.Start)

/-- Map read `resp.Categories[c].Words` (empty when the key is absent). -/
def catWords (resp : DetectResponse) (c : Str) : List WordHit :=
  match mapGet resp.Categories c with
  | some cr => cr.Words
  | none => []

/-- The text with every code point removed that is not a letter, a number, `_`, `，`
or `。`. -/
def stripped (uc : UnicodeTables) (text : Str) : Str :=
  text.filter fun ch => uc.isLetter ch || uc.isNumber ch || ch == '_' || ch == '，' || ch == '。'

/-- The severity tier `levelOf` derives from a category identifier. -/
def tierOf (category : Str) : Str :=
  if Contains category "high".toList || Contains category "banned_books".toList ||
      Contains category "prohibited".toList || Contains category "person".toList
  then "high".toList else "low".toList

/-- Following the failure link `k` times from state `v`. -/
def failIter (h : List acNode) : Nat → Nat → Option Nat
  | 0, v => some v
  | k + 1, v =>
    match h[v]? with
    | none => none
    | some n =>
      match n.fail with
      | none => none
      | some t => failIter h k t

/-- The response `Detect` starts from. -/
def respInit : DetectResponse :=
  { HasSensitive := false, TotalCount := 0, Categories := [], DetectedWords := [],
    RiskLevel := "safe".toList, CategorySummary := [], SimilarWords := [],
    SimilarSensitive := true }

/-- The sum of the `Count` fields of the entries of a categories map. -/
def countSum (l : List (Str × CategoryResult)) : Nat := (l.map fun p => p.2.Count).sum

/-- The sum of the `total` entries of a category summary. -/
def summaryTotal (l : List (Str × List (Str × Nat))) : Nat :=
  (l.map fun p => statGet p.2 "total".toList).sum

/-- The fourteen built-in category identifiers (the constant block of the detector). -/
def builtinCategories : List Str :=
  [PoliticalHigh, PoliticalLow, PoliticalPerson, PoliticalBanned, PoliticalProhib,
    ViolentHigh, ViolentLow, ViolentChemical, PornHigh, PornLow, AbusiveHigh, AbusiveLow,
    AdvertisingHigh, AdvertisingLow]

/-- The sum of the sizes of the word sets of a registry. -/
def sizeSum (sw : List (Str × List Str)) : Nat := (sw.map fun p => p.2.length).sum

/-- Enumeration of the aggregation map in the reverse of storage order, every other map in
storage order. -/
def reversedAggs : RangeOrders :=
  { RangeOrders.stored with aggs := ⟨List.reverse, List.reverse_perm⟩ }

/-- The category identifier contains one of the markers `high`, `person`, `banned`,
`prohibited`. -/
def hasMarker (c : Str) : Prop :=
  "high".toList <:+: c ∨ "person".toList <:+: c ∨ "banned".toList <:+: c ∨
    "prohibited".toList <:+: c

/-! ## Theorems -/

theorem lt_of_get {α : Type} {l : List α} {i : Nat} {a : α} (h : l[i]? = some a) :
    i < l.length := by
  rcases List.getElem?_eq_some.1 h with ⟨hi, _⟩
  exact hi

theorem get_of_lt {α : Type} {l : List α} {i : Nat} (h : i < l.length) :
    ∃ a, l[i]? = some a := ⟨l[i], List.getElem?_eq_getElem h⟩

theorem mapGet_none_iff {κ ν : Type} [DecidableEq κ] (m : List (κ × ν)) (k : κ) :
    mapGet m k = none ↔ k ∉ m.map Prod.fst := by
  induction m with
  | nil => simp [mapGet]
  | cons a m ih =>
    obtain ⟨k1, v1⟩ := a
    by_cases hk : k1 = k
    · simp [mapGet, hk]
    · have hk2 : ¬ k = k1 := fun e => hk e.symm
      simp [mapGet, hk, hk2, ih]

theorem mapGet_of_mem {κ ν : Type} [DecidableEq κ] (m : List (κ × ν)) (k : κ) (v : ν)
    (hn : (m.map Prod.fst).Nodup) (hm : (k, v) ∈ m) : mapGet m k = some v := by
  induction m with
  | nil => simp at hm
  | cons a m ih =>
    obtain ⟨k1, v1⟩ := a
    simp only [List.map_cons, List.nodup_cons] at hn
    rcases List.mem_cons.1 hm with h | h
    · cases h
      simp [mapGet]
    · have hne : k1 ≠ k := by
        intro e
        apply hn.1
        rw [e]
        exact List.mem_map.2 ⟨(k, v), h, rfl⟩
      simp [mapGet, hne, ih hn.2 h]

theorem mem_of_mapGet {κ ν : Type} [DecidableEq κ] (m : List (κ × ν)) (k : κ) (v : ν)
    (hg : mapGet m k = some v) : (k, v) ∈ m := by
  induction m with
  | nil => simp [mapGet] at hg
  | cons a m ih =>
    obtain ⟨k1, v1⟩ := a
    by_cases hk : k1 = k
    · simp [mapGet, hk] at hg
      simp [hk, hg]
    · simp [mapGet, hk] at hg
      exact List.mem_cons_of_mem _ (ih hg)

theorem mapSet_of_none {κ ν : Type} [DecidableEq κ] (m : List (κ × ν)) (k : κ) (v : ν)
    (hg : mapGet m k = none) : mapSet m k v = m ++ [(k, v)] := by
  induction m with
  | nil => simp [mapSet]
  | cons a m ih =>
    obtain ⟨k1, v1⟩ := a
    by_cases hk : k1 = k
    · simp [mapGet, hk] at hg
    · simp [mapGet, hk] at hg
      simp [mapSet, hk, ih hg]

/-- Reading the heap after redirecting one node and allocating a new one. -/
theorem get_extend (h : List acNode) (cur : Nat) (n1 x : acNode) (u : Nat)
    (hc : cur < h.length) :
    (h.set cur n1 ++ [x])[u]? =
      if u = h.length then some x else if u = cur then some n1 else h[u]? := by
  by_cases h1 : u = h.length
  · subst h1
    simp [List.getElem?_append_right]
  · by_cases h2 : u < h.length
    · rw [List.getElem?_append_left (by simpa using h2), List.getElem?_set]
      by_cases h3 : u = cur
      · subst h3; simp [h1, h2]
      · have h4 : cur ≠ u := fun e => h3 e.symm
        simp [h1, h3, h4]
    · have h3 : u ≠ cur := by omega
      rw [List.getElem?_eq_none (by simp; omega), List.getElem?_eq_none (by omega)]
      simp [h1, h3]

theorem TrieShape.get_child {h : List acNode} {path : Nat → Str} (sh : TrieShape h path)
    {u : Nat} {n : acNode} (hu : h[u]? = some n) (c : Char) (v : Nat) :
    mapGet n.next c = some v ↔ (v < h.length ∧ path v = path u ++ [c]) := by
  constructor
  · intro hg
    exact sh.child u n c v hu (mem_of_mapGet _ _ _ hg)
  · rintro ⟨hv, hp⟩
    obtain ⟨u1, n1, hu1, hp1, hm⟩ := sh.parent v (path u) c hv hp
    have e : u1 = u := sh.inj u1 u (lt_of_get hu1) (lt_of_get hu) hp1
    subst e
    rw [hu] at hu1
    cases hu1
    exact mapGet_of_mem _ _ _ (sh.keys _ _ hu) hm

theorem TrieShape.extend {h : List acNode} {path : Nat → Str} (sh : TrieShape h path)
    {cur : Nat} {n : acNode} (hu : h[cur]? = some n) (ch : Char)
    (hg : mapGet n.next ch = none) :
    TrieShape (h.set cur { n with next := mapSet n.next ch h.length } ++ [newNode])
      (Function.update path h.length (path cur ++ [ch])) := by
  have hc : cur < h.length := lt_of_get hu
  have hold : ∀ v, v < h.length →
      Function.update path h.length (path cur ++ [ch]) v = path v := by
    intro v hv
    exact Function.update_noteq (by omega) _ _
  have hnew : Function.update path h.length (path cur ++ [ch]) h.length = path cur ++ [ch] :=
    Function.update_same _ _ _
  have hms := mapSet_of_none n.next ch h.length hg
  have hfresh : ∀ v, v < h.length → path v ≠ path cur ++ [ch] := by
    intro v hv e
    have := (sh.get_child hu ch v).2 ⟨hv, e⟩
    rw [hg] at this
    cases this
  refine ⟨?_, ?_, ?_, ?_, ?_, ?_, ?_⟩
  · rw [hold 0 sh.pos]; exact sh.root
  · simp
  · intro u n1 c v hu1 hm
    rw [get_extend _ _ _ _ _ hc] at hu1
    by_cases h1 : u = h.length
    · simp [h1, newNode] at hu1
      subst hu1
      simp at hm
    · by_cases h2 : u = cur
      · subst h2
        simp [h1] at hu1
        subst hu1
        simp only [hms, List.mem_append, List.mem_singleton, Prod.mk.injEq] at hm
        rcases hm with hm | ⟨rfl, rfl⟩
        · obtain ⟨hv, hp⟩ := sh.child _ _ _ _ hu hm
          refine ⟨by simp; omega, ?_⟩
          rw [hold v hv, hold u hc, hp]
        · refine ⟨by simp, ?_⟩
          rw [hnew, hold u hc]
      · simp [h1, h2] at hu1
        obtain ⟨hv, hp⟩ := sh.child _ _ _ _ hu1 hm
        refine ⟨by simp; omega, ?_⟩
        rw [hold v hv, hold u (lt_of_get hu1), hp]
  · intro v p c hv hp
    simp at hv
    by_cases h1 : v = h.length
    · subst h1
      rw [hnew] at hp
      obtain ⟨e1, e2⟩ := List.append_inj' hp rfl
      simp at e2
      subst e2
      refine ⟨cur, { n with next := mapSet n.next ch h.length }, ?_, ?_, ?_⟩
      · rw [get_extend _ _ _ _ _ hc]; simp [Nat.ne_of_lt hc]
      · rw [hold cur hc]; exact e1
      · simp only [hms]; simp
    · have hv1 : v < h.length := by omega
      rw [hold v hv1] at hp
      obtain ⟨u, n1, hu1, hp1, hm⟩ := sh.parent v p c hv1 hp
      have hul := lt_of_get hu1
      by_cases h2 : u = cur
      · subst h2
        rw [hu] at hu1; cases hu1
        refine ⟨u, { n with next := mapSet n.next ch h.length }, ?_, ?_, ?_⟩
        · rw [get_extend _ _ _ _ _ hc]; simp [Nat.ne_of_lt hc]
        · rw [hold u hc]; exact hp1
        · simp only [hms]; simp [hm]
      · refine ⟨u, n1, ?_, ?_, hm⟩
        · rw [get_extend _ _ _ _ _ hc]; simp [Nat.ne_of_lt hul, h2, hu1]
        · rw [hold u hul]; exact hp1
  · intro u v hu1 hv1 e
    simp at hu1 hv1
    by_cases h1 : u = h.length
    · by_cases h2 : v = h.length
      · rw [h1, h2]
      · exfalso
        have hv2 : v < h.length := by omega
        rw [h1, hnew, hold v hv2] at e
        exact hfresh v hv2 e.symm
    · have hu2 : u < h.length := by omega
      by_cases h2 : v = h.length
      · exfalso
        rw [h2, hnew, hold u hu2] at e
        exact hfresh u hu2 e
      · have hv2 : v < h.length := by omega
        rw [hold u hu2, hold v hv2] at e
        exact sh.inj u v hu2 hv2 e
  · intro u n1 hu1
    rw [get_extend _ _ _ _ _ hc] at hu1
    by_cases h1 : u = h.length
    · simp [h1, newNode] at hu1
      subst hu1
      simp
    · by_cases h2 : u = cur
      · subst h2
        simp [h1] at hu1
        subst hu1
        simp only [hms, List.map_append, List.map_cons, List.map_nil]
        rw [List.nodup_append]
        refine ⟨sh.keys _ _ hu, by simp, ?_⟩
        intro a ha hb
        simp at hb
        subst hb
        exact (mapGet_none_iff _ _).1 hg ha
      · simp [h1, h2] at hu1
        exact sh.keys _ _ hu1
  · intro v hv
    simp at hv
    by_cases h1 : v = h.length
    · subst h1
      rw [hnew]
      have := sh.depth cur hc
      simp
      omega
    · have hv1 : v < h.length := by omega
      rw [hold v hv1]
      exact sh.depth v hv1

theorem trieWalk_spec (w : Str) : ∀ (h : List acNode) (path : Nat → Str) (cur : Nat),
    TrieShape h path → cur < h.length →
    ∃ h1 path1 cur1, trieWalk h cur w = some (h1, cur1) ∧ TrieShape h1 path1 ∧
      cur1 < h1.length ∧ path1 cur1 = path cur ++ w ∧ h.length ≤ h1.length ∧
      (∀ v, v < h.length → path1 v = path v) ∧
      (∀ (v : Nat) (n : acNode), h[v]? = some n →
        ∃ n1, h1[v]? = some n1 ∧ n1.out = n.out ∧ n1.fail = n.fail) ∧
      (∀ (v : Nat) (n1 : acNode), h.length ≤ v → h1[v]? = some n1 →
        n1.out = [] ∧ n1.fail = none) ∧
      (∀ p, (∃ v, v < h1.length ∧ path1 v = p) ↔
         ((∃ v, v < h.length ∧ path v = p) ∨ ∃ q, q <+: w ∧ p = path cur ++ q)) := by
  induction w with
  | nil =>
    intro h path cur sh hc
    refine ⟨h, path, cur, rfl, sh, hc, by simp, le_refl _, fun _ _ => rfl, ?_, ?_, ?_⟩
    · intro v n hv; exact ⟨n, hv, rfl, rfl⟩
    · intro v n1 hv hg
      have := lt_of_get hg
      omega
    · intro p
      constructor
      · intro hp; exact Or.inl hp
      · rintro (hp | ⟨q, hq, rfl⟩)
        · exact hp
        · have : q = [] := by simpa using hq
          subst this
          exact ⟨cur, hc, by simp⟩
  | cons ch rest ih =>
    intro h path cur sh hc
    obtain ⟨n, hn⟩ := get_of_lt hc
    cases hg : mapGet n.next ch with
    | some nxt =>
      obtain ⟨hnx, hpn⟩ := (sh.get_child hn ch nxt).1 hg
      obtain ⟨h1, path1, cur1, hw, sh1, hc1, hp1, hl, hold, hpres, hfresh, hnodes⟩ :=
        ih h path nxt sh hnx
      refine ⟨h1, path1, cur1, ?_, sh1, hc1, ?_, hl, hold, hpres, hfresh, ?_⟩
      · simp [trieWalk, hn, hg, hw]
      · rw [hp1, hpn]; simp
      · intro p
        rw [hnodes p]
        constructor
        · rintro (hp | ⟨q, hq, rfl⟩)
          · exact Or.inl hp
          · refine Or.inr ⟨ch :: q, ?_, ?_⟩
            · exact List.cons_prefix_cons.2 ⟨rfl, hq⟩
            · rw [hpn]; simp
        · rintro (hp | ⟨q, hq, rfl⟩)
          · exact Or.inl hp
          · cases q with
            | nil => exact Or.inl ⟨cur, hc, by simp⟩
            | cons c q =>
              obtain ⟨e, hq1⟩ := List.cons_prefix_cons.1 hq
              subst e
              refine Or.inr ⟨q, hq1, ?_⟩
              rw [hpn]; simp
    | none =>
      have sh2 := sh.extend hn ch hg
      have hlen2 : (h.set cur { n with next := mapSet n.next ch h.length } ++ [newNode]).length
          = h.length + 1 := by simp
      have hold2 : ∀ v, v < h.length →
          Function.update path h.length (path cur ++ [ch]) v = path v := by
        intro v hv
        exact Function.update_noteq (by omega) _ _
      have hnew2 : Function.update path h.length (path cur ++ [ch]) h.length
          = path cur ++ [ch] := Function.update_same _ _ _
      obtain ⟨h1, path1, cur1, hw, sh1, hc1, hp1, hl, hold, hpres, hfresh, hnodes⟩ :=
        ih _ _ h.length sh2 (by rw [hlen2]; omega)
      rw [hlen2] at hl hold hfresh hnodes
      refine ⟨h1, path1, cur1, ?_, sh1, hc1, ?_, by omega, ?_, ?_, ?_, ?_⟩
      · simp [trieWalk, hn, hg, hw]
      · rw [hp1, hnew2]; simp
      · intro v hv
        rw [hold v (by omega), hold2 v hv]
      · intro v n0 hv
        have hvl := lt_of_get hv
        by_cases h2 : v = cur
        · subst h2
          rw [hn] at hv; cases hv
          obtain ⟨n1, hg1, ho, hf⟩ := hpres v { n with next := mapSet n.next ch h.length }
            (by rw [get_extend _ _ _ _ _ hc]; simp [Nat.ne_of_lt hc])
          exact ⟨n1, hg1, ho, hf⟩
        · exact hpres v n0 (by rw [get_extend _ _ _ _ _ hc]; simp [Nat.ne_of_lt hvl, h2, hv])
      · intro v n1 hv hg1
        by_cases h2 : v = h.length
        · subst h2
          obtain ⟨n2, hg2, ho, hf⟩ := hpres h.length newNode
            (by rw [get_extend _ _ _ _ _ hc]; simp)
          rw [hg1] at hg2; cases hg2
          exact ⟨ho, hf⟩
        · exact hfresh v n1 (by omega) hg1
      · intro p
        rw [hnodes p]
        have hmid : (∃ v, v < h.length + 1 ∧
            Function.update path h.length (path cur ++ [ch]) v = p) ↔
            ((∃ v, v < h.length ∧ path v = p) ∨ p = path cur ++ [ch]) := by
          constructor
          · rintro ⟨v, hv, e⟩
            by_cases h2 : v = h.length
            · subst h2; rw [hnew2] at e; exact Or.inr e.symm
            · rw [hold2 v (by omega)] at e; exact Or.inl ⟨v, by omega, e⟩
          · rintro (⟨v, hv, e⟩ | e)
            · exact ⟨v, by omega, by rw [hold2 v hv]; exact e⟩
            · exact ⟨h.length, by omega, by rw [hnew2]; exact e.symm⟩
        rw [hmid, hnew2]
        constructor
        · rintro ((hp | hp) | ⟨q, hq, rfl⟩)
          · exact Or.inl hp
          · exact Or.inr ⟨[ch], by simp, hp⟩
          · exact Or.inr ⟨ch :: q, List.cons_prefix_cons.2 ⟨rfl, hq⟩, by simp⟩
        · rintro (hp | ⟨q, hq, rfl⟩)
          · exact Or.inl (Or.inl hp)
          · cases q with
            | nil => exact Or.inl (Or.inl ⟨cur, hc, by simp⟩)
            | cons c q =>
              obtain ⟨e, hq1⟩ := List.cons_prefix_cons.1 hq
              subst e
              exact Or.inr ⟨q, hq1, by simp⟩

theorem get_set_next {h : List acNode} {v : Nat} {n n1 : acNode} (hv : h[v]? = some n)
    (hn : n1.next = n.next) {u : Nat} {m : acNode} (hu : (h.set v n1)[u]? = some m) :
    ∃ m0, h[u]? = some m0 ∧ m0.next = m.next := by
  rw [List.getElem?_set] at hu
  by_cases e : v = u
  · subst e
    simp [lt_of_get hv] at hu
    subst hu
    exact ⟨n, hv, hn.symm⟩
  · simp [e] at hu
    exact ⟨m, hu, rfl⟩

theorem get_set_next_inv {h : List acNode} {v : Nat} {n n1 : acNode} (hv : h[v]? = some n)
    (hn : n1.next = n.next) {u : Nat} {m0 : acNode} (hu : h[u]? = some m0) :
    ∃ m, (h.set v n1)[u]? = some m ∧ m.next = m0.next := by
  rw [List.getElem?_set]
  by_cases e : v = u
  · subst e
    rw [hv] at hu; cases hu
    simp [lt_of_get hv, hn]
  · simp [e, hu]

theorem TrieShape.set {h : List acNode} {path : Nat → Str} (sh : TrieShape h path)
    {v : Nat} {n n1 : acNode} (hv : h[v]? = some n) (hn : n1.next = n.next) :
    TrieShape (h.set v n1) path := by
  refine ⟨sh.root, by simpa using sh.pos, ?_, ?_, ?_, ?_, ?_⟩
  · intro u m c x hu hm
    obtain ⟨m0, hu0, e⟩ := get_set_next hv hn hu
    rw [← e] at hm
    simpa using sh.child u m0 c x hu0 hm
  · intro x p c hx hp
    simp at hx
    obtain ⟨u, m0, hu0, hp0, hm⟩ := sh.parent x p c hx hp
    obtain ⟨m, hu, e⟩ := get_set_next_inv hv hn hu0
    exact ⟨u, m, hu, hp0, by rw [e]; exact hm⟩
  · intro u x hu hx e
    simp at hu hx
    exact sh.inj u x hu hx e
  · intro u m hu
    obtain ⟨m0, hu0, e⟩ := get_set_next hv hn hu
    rw [← e]
    exact sh.keys u m0 hu0
  · intro x hx
    simp at hx
    exact sh.depth x hx

theorem inTrie_snoc (W : List Str) (w p : Str) :
    inTrie (W ++ [w]) p ↔ (inTrie W p ∨ p <+: w) := by
  unfold inTrie
  constructor
  · rintro (h | ⟨x, hx, hp⟩)
    · exact Or.inl (Or.inl h)
    · rcases List.mem_append.1 hx with hx | hx
      · exact Or.inl (Or.inr ⟨x, hx, hp⟩)
      · simp at hx; subst hx; exact Or.inr hp
  · rintro ((h | ⟨x, hx, hp⟩) | hp)
    · exact Or.inl h
    · exact Or.inr ⟨x, List.mem_append_left _ hx, hp⟩
    · exact Or.inr ⟨w, by simp, hp⟩

theorem inTrie_of_mem {W : List Str} {w : Str} (hw : w ∈ W) : inTrie W w :=
  Or.inr ⟨w, hw, List.prefix_refl w⟩

theorem trieInv_init : TrieInv [] [newNode] (fun _ => []) := by
  refine ⟨⟨rfl, by simp, ?_, ?_, ?_, ?_, ?_⟩, ?_, ?_, ?_⟩
  · intro u n c v hu hm
    have hl := lt_of_get hu
    simp at hl
    subst hl
    simp [newNode] at hu
    subst hu
    simp at hm
  · intro v p c _ hp
    simp at hp
  · intro u v hu hv _
    simp at hu hv
    omega
  · intro u n hu
    have hl := lt_of_get hu
    simp at hl
    subst hl
    simp [newNode] at hu
    subst hu
    simp
  · intro v _
    simp
  · intro p
    simp [inTrie]
  · intro v n hv
    have hl := lt_of_get hv
    simp at hl
    subst hl
    simp [newNode] at hv
    subst hv
    simp [ownOut]
  · intro v n hv
    have hl := lt_of_get hv
    simp at hl
    subst hl
    simp [newNode] at hv
    subst hv
    rfl

theorem addWord_spec {W : List Str} {h : List acNode} {path : Nat → Str}
    (inv : TrieInv W h path) (w : Str) (hw : w ≠ []) :
    ∃ h1 path1, addWord h 0 w = some h1 ∧ TrieInv (W ++ [w]) h1 path1 := by
  obtain ⟨h1, path1, cur1, hwalk, sh1, hc1, hp1, hl, hold, hpres, hfresh, hnodes⟩ :=
    trieWalk_spec w h path 0 inv.shape inv.shape.pos
  rw [inv.shape.root, List.nil_append] at hp1
  obtain ⟨n1, hn1⟩ := get_of_lt hc1
  -- paths of nodes created by the walk are not words of `W`
  have hnewW : ∀ v, h.length ≤ v → v < h1.length → path1 v ∉ W := by
    intro v hv hv1 hm
    obtain ⟨x, hx, ex⟩ := (inv.nodes (path1 v)).2 (inTrie_of_mem hm)
    have := sh1.inj x v (by omega) hv1 (by rw [hold x hx, ex])
    omega
  have hout : ∀ (v : Nat) (n : acNode), h1[v]? = some n → n.out = ownOut W (path1 v) := by
    intro v n hv
    by_cases hvl : v < h.length
    · obtain ⟨n0, hn0⟩ := get_of_lt hvl
      obtain ⟨n2, hg2, ho, _⟩ := hpres v n0 hn0
      rw [hv] at hg2; cases hg2
      rw [ho, hold v hvl]
      exact inv.out v n0 hn0
    · have := (hfresh v n (by omega) hv).1
      rw [this]
      have hnm := hnewW v (by omega) (lt_of_get hv)
      simp [ownOut, hnm]
  have hfail : ∀ (v : Nat) (n : acNode), h1[v]? = some n → n.fail = none := by
    intro v n hv
    by_cases hvl : v < h.length
    · obtain ⟨n0, hn0⟩ := get_of_lt hvl
      obtain ⟨n2, hg2, _, hf⟩ := hpres v n0 hn0
      rw [hv] at hg2; cases hg2
      rw [hf]
      exact inv.fail v n0 hn0
    · exact (hfresh v n (by omega) hv).2
  have hnodes1 : ∀ p, (∃ v, v < h1.length ∧ path1 v = p) ↔ inTrie (W ++ [w]) p := by
    intro p
    rw [hnodes p, inTrie_snoc, inv.nodes p, inv.shape.root]
    simp
  have hown : ∀ p, p ≠ w → ownOut (W ++ [w]) p = ownOut W p := by
    intro p hp
    simp [ownOut, hp]
  have ho1 := hout cur1 n1 hn1
  rw [hp1] at ho1
  by_cases hmem : w ∈ W
  · -- the word is already recorded at its node
    have e1 : n1.out = [w] := by rw [ho1]; simp [ownOut, hw, hmem]
    refine ⟨h1, path1, ?_, sh1, hnodes1, ?_, hfail⟩
    · simp [addWord, hwalk, hn1, e1]
    · intro v n hv
      rw [hout v n hv]
      simp [ownOut, hmem]
      by_cases e : path1 v = w
      · simp [e, hmem]
      · simp [e]
  · have e1 : n1.out = [] := by rw [ho1]; simp [ownOut, hmem]
    refine ⟨h1.set cur1 { n1 with out := n1.out ++ [w] }, path1, ?_,
      sh1.set hn1 rfl, ?_, ?_, ?_⟩
    · simp [addWord, hwalk, hn1, e1]
    · intro p
      rw [← hnodes1 p]
      simp
    · intro v n hv
      rw [List.getElem?_set] at hv
      by_cases e : cur1 = v
      · subst e
        simp [hc1] at hv
        subst hv
        simp [e1, hp1, ownOut, hw]
      · simp [e] at hv
        rw [hout v n hv]
        have hne : path1 v ≠ w := by
          intro e2
          exact e (sh1.inj cur1 v hc1 (lt_of_get hv) (by rw [hp1, e2]))
        exact (hown _ hne).symm
    · intro v n hv
      rw [List.getElem?_set] at hv
      by_cases e : cur1 = v
      · subst e
        simp [hc1] at hv
        subst hv
        exact hfail cur1 n1 hn1
      · simp [e] at hv
        exact hfail v n hv

theorem buildTrie_spec (ws : List Str) : ∀ (W : List Str) (h : List acNode)
    (path : Nat → Str) (nw : Nat), TrieInv W h path →
    ∃ h1 path1 nw1, buildTrie 0 h nw ws = some (h1, nw1) ∧ TrieInv (W ++ ws) h1 path1 := by
  induction ws with
  | nil =>
    intro W h path nw inv
    exact ⟨h, path, nw, rfl, by simpa using inv⟩
  | cons w ws ih =>
    intro W h path nw inv
    by_cases hw : w = []
    · subst hw
      have inv1 : TrieInv (W ++ [[]]) h path := by
        refine ⟨inv.shape, ?_, ?_, inv.fail⟩
        · intro p
          rw [inTrie_snoc, inv.nodes p]
          unfold inTrie
          simp
          intro e
          exact Or.inl e
        · intro v n hv
          rw [inv.out v n hv]
          simp [ownOut]
          by_cases e : path v = []
          · simp [e]
          · simp [e]
      obtain ⟨h1, path1, nw1, hb, inv2⟩ := ih (W ++ [[]]) h path nw inv1
      refine ⟨h1, path1, nw1, ?_, by simpa using inv2⟩
      simp [buildTrie, hb]
    · obtain ⟨h1, path1, ha, inv1⟩ := addWord_spec inv w hw
      obtain ⟨h2, path2, nw2, hb, inv2⟩ := ih (W ++ [w]) h1 path1 (nw + 1) inv1
      refine ⟨h2, path2, nw2, ?_, by simpa using inv2⟩
      simp [buildTrie, hw, ha, hb]

theorem inTrie_of_append {W : List Str} {s t : Str} (h : inTrie W (s ++ t)) : inTrie W s := by
  rcases h with h | ⟨w, hw, hp⟩
  · left
    exact (List.append_eq_nil.1 h).1
  · right
    exact ⟨w, hw, List.IsPrefix.trans (List.prefix_append s t) hp⟩

theorem inTrie_nil (W : List Str) : inTrie W [] := Or.inl rfl

theorem outOf_nil (W : List Str) : outOf W [] = [] := by
  simp [outOf]

theorem ownOut_nil (W : List Str) : ownOut W [] = [] := by
  simp [ownOut]

theorem outOf_cons (W : List Str) (a : Char) (l : Str) :
    outOf W (a :: l) = ownOut W (a :: l) ++ outOf W l := by
  unfold outOf ownOut
  rw [List.tails_cons, List.filter_cons]
  by_cases h : (a :: l) ∈ W
  · simp [h]
  · simp [h]

theorem outOf_eq_of_longest (W : List Str) : ∀ (l s : Str), s <:+ l →
    (∀ s1 : Str, s1 <:+ l → s1 ≠ [] → s1 ∈ W → s1.length ≤ s.length) →
    outOf W l = outOf W s := by
  intro l
  induction l with
  | nil =>
    intro s hs _
    have : s = [] := List.suffix_nil.1 hs
    rw [this]
  | cons a l ih =>
    intro s hs hmax
    rcases List.suffix_cons_iff.1 hs with e | hs1
    · rw [e]
    · rw [outOf_cons]
      have hno : ownOut W (a :: l) = [] := by
        unfold ownOut
        by_cases hm : (a :: l) ∈ W
        · exfalso
          have h1 := hmax (a :: l) (List.suffix_refl _) (by simp) hm
          have h2 := hs1.length_le
          simp at h1
          omega
        · simp [hm]
      rw [hno, List.nil_append]
      exact ih s hs1 (fun s1 h1 h2 h3 => hmax s1 (List.suffix_cons_iff.2 (Or.inr h1)) h2 h3)

theorem outOf_lps {W : List Str} {s p : Str} (h : IsLps W s p) :
    outOf W p = ownOut W p ++ outOf W s := by
  obtain ⟨hs, hl, _, hmax⟩ := h
  cases p with
  | nil => simp at hl
  | cons a l =>
    rw [outOf_cons]
    congr 1
    rcases List.suffix_cons_iff.1 hs with e | hs1
    · rw [e] at hl; simp at hl
    · apply outOf_eq_of_longest W l s hs1
      intro s1 h1 _ h3
      apply hmax s1 (List.suffix_cons_iff.2 (Or.inr h1)) _ (inTrie_of_mem h3)
      have := h1.length_le
      simp
      omega

theorem outOf_ls {W : List Str} {s p : Str} (h : IsLs W s p) : outOf W p = outOf W s := by
  obtain ⟨hs, _, hmax⟩ := h
  apply outOf_eq_of_longest W p s hs
  intro s1 h1 _ h3
  exact hmax s1 h1 (inTrie_of_mem h3)

/-- A non-empty proper suffix of `pu ++ [c]` is a proper suffix of `pu` followed by `c`. -/
theorem suffix_snoc_cases {pu s1 : Str} {c : Char} (h : s1 <:+ pu ++ [c])
    (hl : s1.length < (pu ++ [c]).length) :
    s1 = [] ∨ ∃ s, s1 = s ++ [c] ∧ s <:+ pu ∧ s.length < pu.length := by
  rcases List.suffix_concat_iff.1 h with e | ⟨t, e, ht⟩
  · exact Or.inl e
  · right
    refine ⟨t, e, ht, ?_⟩
    rw [e] at hl
    simp at hl
    omega

theorem lps_root {W : List Str} {pu : Str} {c : Char} (hno : NoExt W c pu 0) :
    IsLps W [] (pu ++ [c]) := by
  refine ⟨List.nil_suffix, by simp, inTrie_nil W, ?_⟩
  intro s1 h1 h2 h3
  rcases suffix_snoc_cases h1 h2 with e | ⟨s, e, hs, hsl⟩
  · rw [e]
  · exfalso
    rw [e] at h3
    exact hno s hs hsl (Nat.zero_le _) (inTrie_of_append h3) h3

theorem lps_child {W : List Str} {pu px : Str} {c : Char} (hx : px <:+ pu)
    (hxl : px.length < pu.length) (hin : inTrie W (px ++ [c]))
    (hno : NoExt W c pu (px.length + 1)) : IsLps W (px ++ [c]) (pu ++ [c]) := by
  refine ⟨?_, by simpa using hxl, hin, ?_⟩
  · obtain ⟨t, ht⟩ := hx
    exact ⟨t, by rw [← ht]; simp⟩
  · intro s1 h1 h2 h3
    rcases suffix_snoc_cases h1 h2 with e | ⟨s, e, hs, hsl⟩
    · rw [e]; simp
    · rw [e] at h3 ⊢
      simp
      by_contra hcon
      exact hno s hs hsl (by omega) (inTrie_of_append h3) h3

theorem not_resolved_zero {W : List Str} {path : Nat → Str} {h : List acNode}
    (sh : TrieShape h path) {n : acNode} {len : Nat} : ¬ Resolved W path len 0 n := by
  rintro ⟨t, _, _, hl, _⟩
  have := hl.2.1
  rw [sh.root] at this
  simp at this

theorem pristine_not_resolved {W : List Str} {path : Nat → Str} {len v : Nat} {n : acNode}
    (hp : Pristine W path v n) : ¬ Resolved W path len v n := by
  rintro ⟨t, ht, _⟩
  rw [hp.1] at ht
  cases ht

theorem BfsCore.root_pristine {W : List Str} {path : Nat → Str} {h : List acNode}
    (core : BfsCore W path h) {n : acNode} (hn : h[0]? = some n) : Pristine W path 0 n := by
  rcases core.status 0 n hn with hp | hr
  · exact hp
  · exact absurd hr (not_resolved_zero core.shape)

theorem BfsCore.not_inTrie_of_get_none {W : List Str} {path : Nat → Str} {h : List acNode}
    (core : BfsCore W path h) {x : Nat} {nx : acNode} (hx : h[x]? = some nx) {c : Char}
    (hg : mapGet nx.next c = none) : ¬ inTrie W (path x ++ [c]) := by
  intro hin
  obtain ⟨v, hv, e⟩ := (core.nodes _).2 hin
  have := (core.shape.get_child hx c v).2 ⟨hv, e⟩
  rw [hg] at this
  cases this

theorem noExt_step {W : List Str} {c : Char} {pu px : Str} (hx : px <:+ pu)
    (hno : NoExt W c pu (px.length + 1)) (hnot : ¬ inTrie W (px ++ [c])) :
    NoExt W c pu px.length := by
  intro s hs hsl hk hin
  by_cases e : s.length = px.length
  · have : s = px :=
      List.IsSuffix.eq_of_length (List.suffix_of_suffix_length_le hs hx (by omega)) e
    rw [this]
    exact hnot
  · exact hno s hs hsl (by omega) hin

theorem noExt_lps {W : List Str} {c : Char} {pu px pt : Str} (hx : px <:+ pu)
    (hno : NoExt W c pu px.length) (hl : IsLps W pt px) :
    NoExt W c pu (pt.length + 1) := by
  intro s hs hsl hk hin
  by_cases e : px.length ≤ s.length
  · exact hno s hs hsl e hin
  · exfalso
    have h1 : s <:+ px := List.suffix_of_suffix_length_le hs hx (by omega)
    have := hl.2.2.2 s h1 (by omega) hin
    omega

theorem failWalk_spec {W : List Str} {path : Nat → Str} {h : List acNode}
    (core : BfsCore W path h) (c : Char) (pu : Str)
    (low : ∀ (v : Nat) (n : acNode), h[v]? = some n → v ≠ 0 →
      (path v).length ≤ pu.length → Resolved W path h.length v n) :
    ∀ (fuel : Nat) (f : Option Nat), WalkOk W path h c pu f → walkFuel path f ≤ fuel →
      ∃ r, failWalk h c fuel f = some r ∧ WalkDone W path h c pu r := by
  intro fuel
  induction fuel with
  | zero =>
    intro f _ hf
    cases f <;> simp [walkFuel] at hf
  | succ fuel ih =>
    intro f hok hf
    cases f with
    | none => exact ⟨none, rfl, hok⟩
    | some x =>
      obtain ⟨hxl, hxs, hxlen, hno⟩ := hok
      obtain ⟨nx, hnx⟩ := get_of_lt hxl
      simp only [walkFuel] at hf
      cases hg : mapGet nx.next c with
      | some t =>
        refine ⟨some x, ?_, nx, t, hnx, hg, hxs, hxlen, hno⟩
        simp [failWalk, hnx, hg]
      | none =>
        have hnot := core.not_inTrie_of_get_none hnx hg
        have hno1 := noExt_step hxs hno hnot
        have hrec : failWalk h c (fuel + 1) (some x) = failWalk h c fuel nx.fail := by
          simp [failWalk, hnx, hg]
        rw [hrec]
        by_cases hx0 : x = 0
        · subst hx0
          have hp := core.root_pristine hnx
          rw [hp.1]
          apply ih none
          · simp only [WalkOk]
            rw [core.shape.root] at hno1
            simpa using hno1
          · simp [walkFuel]; omega
        · obtain ⟨t, ht, htl, hlps, _⟩ := low x nx hnx hx0 (by omega)
          rw [ht]
          apply ih (some t)
          · exact ⟨htl, List.IsSuffix.trans hlps.1 hxs, by have := hlps.2.1; omega,
              noExt_lps hxs hno1 hlps⟩
          · have := hlps.2.1
            simp [walkFuel]; omega

theorem get_set_cases {h : List acNode} {v : Nat} {n1 : acNode} {x : Nat} {m : acNode}
    (hx : (h.set v n1)[x]? = some m) : (x = v ∧ m = n1) ∨ (x ≠ v ∧ h[x]? = some m) := by
  rw [List.getElem?_set] at hx
  by_cases e : v = x
  · subst e
    have hl : v < h.length := by
      by_contra hc
      simp [hc] at hx
    simp [hl] at hx
    exact Or.inl ⟨rfl, hx.symm⟩
  · simp [e] at hx
    exact Or.inr ⟨fun e1 => e e1.symm, hx⟩

theorem get_set_self {h : List acNode} {v : Nat} {n n1 : acNode} (hv : h[v]? = some n) :
    (h.set v n1)[v]? = some n1 := by
  rw [List.getElem?_set]
  simp [lt_of_get hv]

theorem get_set_other {h : List acNode} {v x : Nat} {n1 : acNode} (hx : x ≠ v) :
    (h.set v n1)[x]? = h[x]? := by
  rw [List.getElem?_set]
  have : ¬ v = x := fun e => hx e.symm
  simp [this]

theorem pend_set {h : List acNode} {v : Nat} {nv nv1 : acNode} (hv : h[v]? = some nv)
    (h0 : nv.fail = none) (h1 : nv1.fail ≠ none) : pend (h.set v nv1) + 1 = pend h := by
  obtain ⟨hl, e⟩ := List.getElem?_eq_some.1 hv
  unfold pend
  rw [List.countP_set _ _ _ _ hl]
  have hpos : 0 < List.countP (fun n : acNode => n.fail.isNone) h := by
    rw [List.countP_pos_iff]
    exact ⟨nv, by rw [← e]; exact List.getElem_mem hl, by simp [h0]⟩
  have e1 : (h[v]).fail.isNone = true := by rw [e, h0]; rfl
  have e2 : ¬ (nv1.fail.isNone = true) := by
    cases hf : nv1.fail with
    | none => exact absurd hf h1
    | some t => simp
  rw [if_pos e1, if_neg e2]
  omega

theorem inner_step {W : List Str} {path : Nat → Str} {h : List acNode} {q : List Nat}
    {u : Nat} {c : Char} {v : Nat} {rest : List (Char × Nat)} {nv : acNode} (nv1 : acNode)
    (inv : InnerInv W path h q u ((c, v) :: rest)) (hv : h[v]? = some nv)
    (hnext : nv1.next = nv.next) (hres : Resolved W path h.length v nv1) :
    InnerInv W path (h.set v nv1) (q ++ [v]) u rest ∧
      pend (h.set v nv1) + 1 = pend h := by
  obtain ⟨nu, hu, huok⟩ := inv.uok
  have hul := lt_of_get hu
  have hvl := lt_of_get hv
  have hmem : (c, v) ∈ nu.next := inv.restSub (c, v) (List.mem_cons_self _ _) nu hu
  obtain ⟨_, hpv⟩ := inv.core.shape.child u nu c v hu hmem
  have hnotres : ¬ Resolved W path h.length v nv := by
    intro hr
    exact (inv.uchild nu c v nv hu hmem hv).1 hr (List.mem_cons_self _ _)
  have hprist : Pristine W path v nv := by
    rcases inv.core.status v nv hv with hp | hr
    · exact hp
    · exact absurd hr hnotres
  have hvu : v ≠ u := by
    intro e
    rw [e] at hpv
    have := congrArg List.length hpv
    simp at this
  have hv0 : v ≠ 0 := by
    intro e
    rw [e, inv.core.shape.root] at hpv
    simp at hpv
  have hvq : v ∉ q := by
    intro hm
    obtain ⟨n, hn, hr⟩ := inv.qres v hm
    rw [hv] at hn; cases hn
    exact hnotres hr
  have hlen : (h.set v nv1).length = h.length := List.length_set _ _ _
  -- a child of a node other than `u` is not `v`
  have hchild_ne : ∀ (x : Nat) (n : acNode) (c1 : Char) (y : Nat), x ≠ u →
      h[x]? = some n → (c1, y) ∈ n.next → y ≠ v := by
    intro x n c1 y hxu hx hm e
    obtain ⟨_, hpy⟩ := inv.core.shape.child x n c1 y hx hm
    rw [e, hpv] at hpy
    obtain ⟨e1, _⟩ := List.append_inj' hpy rfl
    exact hxu (inv.core.shape.inj u x hul (lt_of_get hx) e1).symm
  refine ⟨⟨⟨inv.core.shape.set hv hnext, ?_, ?_⟩, ?_, ?_, ?_, ?_, ?_, ?_, ?_, ?_, ?_, ?_, ?_⟩,
    pend_set hv hprist.1 ?_⟩
  · intro p
    rw [hlen]
    exact inv.core.nodes p
  · intro x m hx
    rw [hlen]
    rcases get_set_cases hx with ⟨e1, e2⟩ | ⟨_, hx1⟩
    · subst e1; subst e2
      exact Or.inr hres
    · exact inv.core.status x m hx1
  · refine ⟨nu, ?_, ?_⟩
    · rw [get_set_other (fun e => hvu e.symm)]; exact hu
    · rw [hlen]; exact huok
  · intro hm
    rcases List.mem_append.1 hm with h1 | h1
    · exact inv.unotin h1
    · simp at h1
      exact hvu h1.symm
  · intro x hx
    rw [hlen]
    rcases List.mem_append.1 hx with h1 | h1
    · obtain ⟨n, hn, hr⟩ := inv.qres x h1
      have : x ≠ v := fun e => hvq (e ▸ h1)
      exact ⟨n, by rw [get_set_other this]; exact hn, hr⟩
    · simp at h1
      subst h1
      exact ⟨nv1, get_set_self hv, hres⟩
  · intro x n c1 y ny hxu hx hm hy
    rw [hlen]
    rcases get_set_cases hx with ⟨e1, e2⟩ | ⟨hxv, hx1⟩
    · -- children of `v` stay untouched
      subst e1; subst e2
      rw [hnext] at hm
      have hyv : y ≠ x := hchild_ne x nv c1 y hxu hv hm
      rw [get_set_other hyv] at hy
      have hold := inv.childRes x nv c1 y ny hxu hv hm hy
      constructor
      · intro hr
        exact absurd (hold.1 hr).1 (by
          rintro (e | hr1)
          · exact hv0 e
          · exact hnotres hr1)
      · rintro ⟨_, hn⟩
        exact absurd (List.mem_append_right q (List.mem_singleton_self x)) hn
    · have hyv : y ≠ v := hchild_ne x n c1 y hxu hx1 hm
      rw [get_set_other hyv] at hy
      rw [inv.childRes x n c1 y ny hxu hx1 hm hy]
      have : x ∉ q ++ [v] ↔ x ∉ q := by
        simp [hxv]
      rw [this]
  · intro nu1 c1 y ny hu1 hm hy
    rw [hlen]
    rw [get_set_other (fun e => hvu e.symm), hu] at hu1
    cases hu1
    rcases get_set_cases hy with ⟨e1, e2⟩ | ⟨hyv, hy1⟩
    · subst e1; subst e2
      obtain ⟨_, hpy⟩ := inv.core.shape.child u nu c1 y hu hm
      rw [hpv] at hpy
      obtain ⟨_, e3⟩ := List.append_inj' hpy rfl
      simp at e3
      subst e3
      have := (List.nodup_cons.1 inv.restNodup).1
      exact ⟨fun _ => this, fun _ => hres⟩
    · rw [inv.uchild nu c1 y ny hu hm hy1]
      simp [hyv]
  · intro cv hcv nu1 hu1
    rw [get_set_other (fun e => hvu e.symm)] at hu1
    exact inv.restSub cv (List.mem_cons_of_mem _ hcv) nu1 hu1
  · exact (List.nodup_cons.1 inv.restNodup).2
  · intro x n hx hx0 hd
    rw [hlen]
    rcases get_set_cases hx with ⟨e1, _⟩ | ⟨_, hx1⟩
    · subst e1
      rw [hpv] at hd
      simp at hd
    · exact inv.low x n hx1 hx0 hd
  · rw [List.pairwise_append]
    refine ⟨inv.sorted, List.pairwise_singleton _ _, ?_⟩
    intro a ha b hb
    simp at hb
    subst hb
    rw [hpv]
    have := (inv.range a ha).2
    simpa using this
  · intro x hx
    rcases List.mem_append.1 hx with h1 | h1
    · exact inv.range x h1
    · simp at h1
      subst h1
      rw [hpv]
      simp
  · rw [List.nodup_append]
    refine ⟨inv.nodup, List.nodup_singleton _, ?_⟩
    intro a ha hb
    simp at hb
    subst hb
    exact hvq ha
  · obtain ⟨t, ht, _⟩ := hres
    rw [ht]
    simp

theorem InnerInv.head_facts {W : List Str} {path : Nat → Str} {h : List acNode}
    {q : List Nat} {u : Nat} {c : Char} {v : Nat} {rest : List (Char × Nat)}
    (inv : InnerInv W path h q u ((c, v) :: rest)) :
    ∃ nv, h[v]? = some nv ∧ Pristine W path v nv ∧ path v = path u ++ [c] := by
  obtain ⟨nu, hu, _⟩ := inv.uok
  have hmem : (c, v) ∈ nu.next := inv.restSub (c, v) (List.mem_cons_self _ _) nu hu
  obtain ⟨hvl, hpv⟩ := inv.core.shape.child u nu c v hu hmem
  obtain ⟨nv, hv⟩ := get_of_lt hvl
  refine ⟨nv, hv, ?_, hpv⟩
  rcases inv.core.status v nv hv with hp | hr
  · exact hp
  · exact absurd (List.mem_cons_self _ _) ((inv.uchild nu c v nv hu hmem hv).1 hr)

theorem initQueue_spec {W : List Str} {path : Nat → Str} :
    ∀ (rest : List (Char × Nat)) (h : List acNode) (q : List Nat),
      InnerInv W path h q 0 rest →
      ∃ h1 q1, initQueue 0 h q rest = some (h1, q1) ∧ InnerInv W path h1 q1 0 [] ∧
        q1.length + pend h1 = q.length + pend h ∧ h1.length = h.length := by
  intro rest
  induction rest with
  | nil =>
    intro h q inv
    exact ⟨h, q, rfl, inv, rfl, rfl⟩
  | cons cv rest ih =>
    intro h q inv
    obtain ⟨c, v⟩ := cv
    obtain ⟨nv, hv, hp, hpv⟩ := inv.head_facts
    rw [inv.core.shape.root, List.nil_append] at hpv
    have hres : Resolved W path h.length v { nv with fail := some 0 } := by
      have hl : IsLps W [] ([] ++ [c]) := by
        apply lps_root
        intro s _ hsl
        simp at hsl
      simp only [List.nil_append] at hl
      refine ⟨0, rfl, inv.core.shape.pos, ?_, ?_⟩
      · rw [inv.core.shape.root, hpv]; exact hl
      · rw [hpv, outOf_lps hl, outOf_nil, List.append_nil, ← hpv]
        exact hp.2
    obtain ⟨inv1, hpend⟩ :=
      inner_step { nv with fail := some 0 } inv hv rfl hres
    obtain ⟨h1, q1, hrun, inv2, hcnt, hlen⟩ := ih _ _ inv1
    refine ⟨h1, q1, ?_, inv2, ?_, ?_⟩
    · simp [initQueue, hv, hrun]
    · rw [hcnt]
      simp
      omega
    · rw [hlen]
      simp

theorem linkChildren_spec {W : List Str} {path : Nat → Str} {u : Nat} (hu0 : u ≠ 0) :
    ∀ (rest : List (Char × Nat)) (h : List acNode) (q : List Nat),
      InnerInv W path h q u rest →
      ∃ h1 q1, linkChildren 0 u h q rest = some (h1, q1) ∧ InnerInv W path h1 q1 u [] ∧
        q1.length + pend h1 = q.length + pend h := by
  intro rest
  induction rest with
  | nil =>
    intro h q inv
    exact ⟨h, q, rfl, inv, rfl⟩
  | cons cv rest ih =>
    intro h q inv
    obtain ⟨c, v⟩ := cv
    obtain ⟨nv, hv, hp, hpv⟩ := inv.head_facts
    obtain ⟨nu, hu, huok⟩ := inv.uok
    have hur : Resolved W path h.length u nu := by
      rcases huok with e | hr
      · exact absurd e hu0
      · exact hr
    obtain ⟨tu, htu, htul, hlps, _⟩ := hur
    have hok : WalkOk W path h c (path u) nu.fail := by
      rw [htu]
      refine ⟨htul, hlps.1, hlps.2.1, ?_⟩
      intro s hs hsl hk hin
      have := hlps.2.2.2 s hs hsl hin
      omega
    have hfuel : walkFuel path nu.fail ≤ h.length + 1 := by
      rw [htu]
      have := inv.core.shape.depth tu htul
      simp [walkFuel]
      omega
    obtain ⟨r, hwalk, hdone⟩ :=
      failWalk_spec inv.core c (path u) inv.low (h.length + 1) nu.fail hok hfuel
    cases r with
    | none =>
      simp only [WalkDone] at hdone
      have hl : IsLps W [] (path u ++ [c]) := lps_root hdone
      have hres : Resolved W path h.length v { nv with fail := some 0 } := by
        refine ⟨0, rfl, inv.core.shape.pos, ?_, ?_⟩
        · rw [inv.core.shape.root, hpv]; exact hl
        · rw [hpv, outOf_lps hl, outOf_nil, List.append_nil, ← hpv]
          exact hp.2
      obtain ⟨inv1, hpend⟩ :=
      inner_step { nv with fail := some 0 } inv hv rfl hres
      obtain ⟨h1, q1, hrun, inv2, hcnt⟩ := ih _ _ inv1
      refine ⟨h1, q1, ?_, inv2, ?_⟩
      · simp [linkChildren, hu, hwalk, hv, hrun]
      · rw [hcnt]
        simp
        omega
    | some x =>
      obtain ⟨nx, t, hx, hg, hxs, hxl, hno⟩ := hdone
      obtain ⟨htl, hpt⟩ := (inv.core.shape.get_child hx c t).1 hg
      obtain ⟨nt, ht⟩ := get_of_lt htl
      have hin : inTrie W (path x ++ [c]) := (inv.core.nodes _).1 ⟨t, htl, hpt⟩
      have hl : IsLps W (path t) (path v) := by
        rw [hpt, hpv]
        exact lps_child hxs hxl hin hno
      have ht0 : t ≠ 0 := by
        intro e
        rw [e, inv.core.shape.root] at hpt
        simp at hpt
      obtain ⟨_, _, _, _, hto⟩ := inv.low t nt ht ht0 (by rw [hpt]; simp; omega)
      have hout : nv.out ++ nt.out = outOf W (path v) := by
        rw [outOf_lps hl, hp.2, hto]
      obtain ⟨nv2, hdef⟩ : ∃ nv2 : acNode, nv2 =
          (if nt.out.length > 0 then { nv with fail := some t, out := nv.out ++ nt.out }
           else { nv with fail := some t }) := ⟨_, rfl⟩
      have hnv2 : nv2.next = nv.next ∧ nv2.fail = some t ∧ nv2.out = outOf W (path v) := by
        by_cases hlen : nt.out.length > 0
        · rw [if_pos hlen] at hdef
          subst hdef
          exact ⟨rfl, rfl, hout⟩
        · rw [if_neg hlen] at hdef
          subst hdef
          refine ⟨rfl, rfl, ?_⟩
          have : nt.out = [] := by
            cases hnt : nt.out with
            | nil => rfl
            | cons a l => rw [hnt] at hlen; simp at hlen
          rw [← hout, this, List.append_nil]
      have hres : Resolved W path h.length v nv2 := ⟨t, hnv2.2.1, htl, hl, hnv2.2.2⟩
      obtain ⟨inv1, hpend⟩ := inner_step nv2 inv hv hnv2.1 hres
      obtain ⟨h1, q1, hrun, inv2, hcnt⟩ := ih _ _ inv1
      refine ⟨h1, q1, ?_, inv2, ?_⟩
      · rw [hdef] at hrun
        simp only [linkChildren, hu, hwalk, hx, hg, hv, ht]
        exact hrun
      · rw [hcnt]
        simp
        omega

theorem InnerInv.finish {W : List Str} {path : Nat → Str} {h : List acNode} {q : List Nat}
    {u : Nat} (inv : InnerInv W path h q u []) : BfsInv W path h q := by
  refine ⟨inv.core, inv.qres, ?_, inv.sorted, ?_, inv.nodup⟩
  · intro x n c v nv hx hm hv
    by_cases e : x = u
    · subst e
      obtain ⟨nu, hu, huok⟩ := inv.uok
      rw [hx] at hu; cases hu
      have := inv.uchild n c v nv hx hm hv
      constructor
      · intro _
        exact ⟨huok, inv.unotin⟩
      · intro _
        exact this.2 (List.not_mem_nil _)
    · exact inv.childRes x n c v nv e hx hm hv
  · intro x hx y hy
    have h1 := inv.range x hx
    have h2 := inv.range y hy
    omega

/-- Below the depth of the queue, every node is resolved. -/
theorem BfsInv.resolved_upto {W : List Str} {path : Nat → Str} {h : List acNode}
    {q : List Nat} (inv : BfsInv W path h q) (d : Nat)
    (hq : ∀ x, x ∈ q → d ≤ (path x).length) :
    ∀ (k : Nat) (v : Nat) (n : acNode), h[v]? = some n → v ≠ 0 → (path v).length ≤ k →
      (path v).length ≤ d → Resolved W path h.length v n := by
  intro k
  induction k with
  | zero =>
    intro v n hv hv0 hk _
    exfalso
    have : path v = [] := List.length_eq_zero.1 (Nat.le_zero.1 hk)
    exact hv0 (inv.core.shape.inj v 0 (lt_of_get hv) inv.core.shape.pos
      (by rw [this, inv.core.shape.root]))
  | succ k ih =>
    intro v n hv hv0 hk hd
    have hne : path v ≠ [] := by
      intro e
      exact hv0 (inv.core.shape.inj v 0 (lt_of_get hv) inv.core.shape.pos
        (by rw [e, inv.core.shape.root]))
    obtain ⟨p, c, hpc⟩ : ∃ p c, path v = p ++ [c] :=
      ⟨(path v).dropLast, (path v).getLast hne, (List.dropLast_append_getLast hne).symm⟩
    obtain ⟨u, nu, hu, hpu, hm⟩ := inv.core.shape.parent v p c (lt_of_get hv) hpc
    have hlen : (path v).length = (path u).length + 1 := by rw [hpc, hpu]; simp
    rw [inv.childRes u nu c v n hu hm hv]
    constructor
    · by_cases e : u = 0
      · exact Or.inl e
      · exact Or.inr (ih u nu hu e (by omega) (by omega))
    · intro hmem
      have := hq u hmem
      omega

theorem BfsInv.pop {W : List Str} {path : Nat → Str} {h : List acNode} {q : List Nat}
    {u : Nat} (mo : MapOrder (Char × Nat)) (inv : BfsInv W path h (u :: q)) :
    ∃ nu, h[u]? = some nu ∧ u ≠ 0 ∧ InnerInv W path h q u (mo.order nu.next) := by
  obtain ⟨nu, hu, hur⟩ := inv.qres u (List.mem_cons_self _ _)
  have hu0 : u ≠ 0 := by
    intro e
    subst e
    exact not_resolved_zero inv.core.shape hur
  have hnd := List.nodup_cons.1 inv.nodup
  have hsorted := List.pairwise_cons.1 inv.sorted
  have hge : ∀ x, x ∈ u :: q → (path u).length ≤ (path x).length := by
    intro x hx
    rcases List.mem_cons.1 hx with e | hx1
    · rw [e]
    · exact hsorted.1 x hx1
  refine ⟨nu, hu, hu0, ⟨inv.core, ⟨nu, hu, Or.inr hur⟩, hnd.1, ?_, ?_, ?_, ?_, ?_, ?_,
    hsorted.2, ?_, hnd.2⟩⟩
  · intro x hx
    exact inv.qres x (List.mem_cons_of_mem _ hx)
  · intro x n c v nv hxu hx hm hv
    rw [inv.childRes x n c v nv hx hm hv]
    simp [hxu]
  · intro nu1 c v nv hu1 hm hv
    rw [hu] at hu1; cases hu1
    rw [inv.childRes u nu c v nv hu hm hv]
    have : (c, v) ∈ mo.order nu.next := ((mo.perm nu.next).mem_iff).2 hm
    simp [this]
  · intro cv hcv nu1 hu1
    rw [hu] at hu1; cases hu1
    exact ((mo.perm nu.next).mem_iff).1 hcv
  · rw [(mo.perm nu.next).nodup_iff]
    exact List.Nodup.of_map _ (inv.core.shape.keys u nu hu)
  · intro v n hv hv0 hd
    exact inv.resolved_upto (path u).length hge (path v).length v n hv hv0 (le_refl _) hd
  · intro x hx
    exact ⟨hsorted.1 x hx,
      inv.span u (List.mem_cons_self _ _) x (List.mem_cons_of_mem _ hx)⟩

theorem BfsInv.done {W : List Str} {path : Nat → Str} {h : List acNode}
    (inv : BfsInv W path h []) : AutInv W path h := by
  refine ⟨inv.core.shape, inv.core.nodes, ?_, ?_⟩
  · intro n hn
    have hp := inv.core.root_pristine hn
    refine ⟨hp.1, ?_⟩
    rw [hp.2, inv.core.shape.root, ownOut_nil]
  · intro v n hv hv0
    exact inv.resolved_upto (path v).length (fun x hx => absurd hx (List.not_mem_nil _))
      (path v).length v n hv hv0 (le_refl _) (le_refl _)

theorem pend_pos {W : List Str} {path : Nat → Str} {h : List acNode}
    (core : BfsCore W path h) : 0 < pend h := by
  obtain ⟨n, hn⟩ := get_of_lt core.shape.pos
  have hp := core.root_pristine hn
  unfold pend
  rw [List.countP_pos_iff]
  obtain ⟨hl, e⟩ := List.getElem?_eq_some.1 hn
  exact ⟨n, by rw [← e]; exact List.getElem_mem hl, by simp [hp.1]⟩

theorem bfsLoop_spec {W : List Str} {path : Nat → Str} (mo : MapOrder (Char × Nat)) :
    ∀ (fuel : Nat) (h : List acNode) (q : List Nat), BfsInv W path h q →
      q.length + pend h ≤ fuel + 1 →
      ∃ h1, bfsLoop mo 0 fuel h q = some h1 ∧ AutInv W path h1 := by
  intro fuel
  induction fuel with
  | zero =>
    intro h q inv hf
    cases q with
    | nil => exact ⟨h, rfl, inv.done⟩
    | cons u q =>
      have := pend_pos inv.core
      simp at hf
      omega
  | succ fuel ih =>
    intro h q inv hf
    cases q with
    | nil => exact ⟨h, rfl, inv.done⟩
    | cons u q =>
      obtain ⟨nu, hu, hu0, inner⟩ := inv.pop mo
      obtain ⟨h1, q1, hrun, inner1, hcnt⟩ := linkChildren_spec hu0 _ h q inner
      simp at hf
      obtain ⟨h2, hloop, aut⟩ := ih h1 q1 inner1.finish (by omega)
      refine ⟨h2, ?_, aut⟩
      simp [bfsLoop, hu, hrun, hloop]

theorem TrieInv.toInner {W : List Str} {path : Nat → Str} {h : List acNode}
    (inv : TrieInv W h path) (mo : MapOrder (Char × Nat)) {nr : acNode}
    (hr : h[0]? = some nr) : InnerInv W path h [] 0 (mo.order nr.next) := by
  have hprist : ∀ (v : Nat) (n : acNode), h[v]? = some n → Pristine W path v n :=
    fun v n hv => ⟨inv.fail v n hv, inv.out v n hv⟩
  refine ⟨⟨inv.shape, inv.nodes, fun v n hv => Or.inl (hprist v n hv)⟩, ⟨nr, hr, Or.inl rfl⟩,
    List.not_mem_nil _, ?_, ?_, ?_, ?_, ?_, ?_, List.Pairwise.nil, ?_, List.nodup_nil⟩
  · intro x hx
    exact absurd hx (List.not_mem_nil _)
  · intro x n c v nv hx0 hx hm hv
    constructor
    · intro hres
      exact absurd hres (pristine_not_resolved (hprist v nv hv))
    · rintro ⟨h1 | h1, _⟩
      · exact absurd h1 hx0
      · exact absurd h1 (pristine_not_resolved (hprist x n hx))
  · intro nu c v nv hu hm hv
    rw [hr] at hu; cases hu
    constructor
    · intro hres
      exact absurd hres (pristine_not_resolved (hprist v nv hv))
    · intro hn
      exact absurd (((mo.perm nr.next).mem_iff).2 hm) hn
  · intro cv hcv nu1 hu1
    rw [hr] at hu1; cases hu1
    exact ((mo.perm nr.next).mem_iff).1 hcv
  · rw [(mo.perm nr.next).nodup_iff]
    exact List.Nodup.of_map _ (inv.shape.keys 0 nr hr)
  · intro v n hv hv0 hd
    exfalso
    rw [inv.shape.root] at hd
    have : path v = [] := List.length_eq_zero.1 (Nat.le_zero.1 hd)
    exact hv0 (inv.shape.inj v 0 (lt_of_get hv) inv.shape.pos (by rw [this, inv.shape.root]))
  · intro x hx
    exact absurd hx (List.not_mem_nil _)

theorem pend_of_trie {W : List Str} {path : Nat → Str} {h : List acNode}
    (inv : TrieInv W h path) : pend h = h.length := by
  unfold pend
  rw [List.countP_eq_length]
  intro a ha
  obtain ⟨i, hi, e⟩ := List.getElem_of_mem ha
  have := inv.fail i a (by rw [List.getElem?_eq_getElem hi, e])
  simp [this]

/-- Running `Build` on a fresh automaton succeeds and leaves the heap in its final state. -/
theorem build_spec (mo : MapOrder (Char × Nat)) (W : List Str) :
    ∃ A path, Build mo NewAC W = some A ∧ A.root = some 0 ∧ AutInv W path A.heap := by
  obtain ⟨h1, path, nw, htrie, tinv⟩ := buildTrie_spec W [] [newNode] (fun _ => []) 0 trieInv_init
  simp only [List.nil_append] at tinv
  obtain ⟨nr, hr⟩ := get_of_lt tinv.shape.pos
  obtain ⟨h2, q, hinit, inner, hcnt, hlen⟩ := initQueue_spec _ h1 [] (tinv.toInner mo hr)
  rw [pend_of_trie tinv] at hcnt
  simp only [List.length_nil, Nat.zero_add] at hcnt
  obtain ⟨h3, hloop, aut⟩ := bfsLoop_spec mo h2.length h2 q inner.finish (by omega)
  refine ⟨{ heap := h3, root := some 0, numWords := nw }, path, ?_, rfl, aut⟩
  simp [Build, NewAC, htrie, hr, hinit, hloop]

theorem AutInv.core {W : List Str} {path : Nat → Str} {h : List acNode}
    (inv : AutInv W path h) : BfsCore W path h := by
  refine ⟨inv.shape, inv.nodes, ?_⟩
  intro v n hv
  by_cases e : v = 0
  · subst e
    obtain ⟨h1, h2⟩ := inv.rootNode n hv
    left
    refine ⟨h1, ?_⟩
    rw [h2, inv.shape.root, ownOut_nil]
  · exact Or.inr (inv.resolved v n hv e)

theorem AutInv.out_eq {W : List Str} {path : Nat → Str} {h : List acNode}
    (inv : AutInv W path h) {v : Nat} {n : acNode} (hv : h[v]? = some n) :
    n.out = outOf W (path v) := by
  by_cases e : v = 0
  · subst e
    rw [(inv.rootNode n hv).2, inv.shape.root, outOf_nil]
  · obtain ⟨_, _, _, _, ho⟩ := inv.resolved v n hv e
    exact ho

theorem searchWalk_spec {W : List Str} {path : Nat → Str} {h : List acNode}
    (inv : AutInv W path h) (c : Char) (pre : Str) :
    ∀ (fuel cur : Nat), cur < h.length → path cur <:+ pre →
      NoExtS W c pre ((path cur).length + 1) → (path cur).length + 1 ≤ fuel →
      ∃ c1 n1, searchWalk h 0 c fuel (some cur) = some c1 ∧ h[c1]? = some n1 ∧
        path c1 <:+ pre ∧ NoExtS W c pre ((path c1).length + 1) ∧
        (c1 = 0 ∨ ∃ t, mapGet n1.next c = some t) := by
  intro fuel
  induction fuel with
  | zero =>
    intro cur _ _ _ hf
    omega
  | succ fuel ih =>
    intro cur hcl hs hno hf
    obtain ⟨n, hn⟩ := get_of_lt hcl
    by_cases h0 : cur = 0
    · subst h0
      exact ⟨0, n, by simp [searchWalk], hn, hs, hno, Or.inl rfl⟩
    · cases hg : mapGet n.next c with
      | some t =>
        exact ⟨cur, n, by simp [searchWalk, h0, hn, hg], hn, hs, hno, Or.inr ⟨t, hg⟩⟩
      | none =>
        have hnot := inv.core.not_inTrie_of_get_none hn hg
        obtain ⟨t, ht, htl, hlps, _⟩ := inv.resolved cur n hn h0
        have hrec : searchWalk h 0 c (fuel + 1) (some cur) = searchWalk h 0 c fuel (some t) := by
          simp [searchWalk, h0, hn, hg, ht]
        rw [hrec]
        have hlt := hlps.2.1
        apply ih t htl (List.IsSuffix.trans hlps.1 hs) _ (by omega)
        intro s hss hk hin
        by_cases e1 : (path cur).length + 1 ≤ s.length
        · exact hno s hss e1 hin
        · by_cases e2 : s.length = (path cur).length
          · have : s = path cur :=
              List.IsSuffix.eq_of_length (List.suffix_of_suffix_length_le hss hs (by omega)) e2
            rw [this]
            exact hnot
          · exfalso
            have h1 : s <:+ path cur := List.suffix_of_suffix_length_le hss hs (by omega)
            have := hlps.2.2.2 s h1 (by omega) hin
            omega

theorem searchLoop_spec {W : List Str} {path : Nat → Str} {h : List acNode}
    (inv : AutInv W path h) :
    ∀ (rest pre : Str) (cur : Nat), cur < h.length → IsLs W (path cur) pre →
      searchLoop h 0 pre.length cur rest = some (specLoop W pre rest) := by
  intro rest
  induction rest with
  | nil =>
    intro pre cur _ _
    rfl
  | cons c rest ih =>
    intro pre cur hcl hls
    have hno : NoExtS W c pre ((path cur).length + 1) := by
      intro s hs hk hin
      have := hls.2.2 s hs hin
      omega
    have hfuel : (path cur).length + 1 ≤ h.length + 1 := by
      have := inv.shape.depth cur hcl
      omega
    obtain ⟨c1, n1, hwalk, hn1, hs1, hno1, hstop⟩ :=
      searchWalk_spec inv c pre (h.length + 1) cur hcl hls.1 hno hfuel
    have tail : ∀ (c2 : Nat) (n2 : acNode), h[c2]? = some n2 → IsLs W (path c2) (pre ++ [c]) →
        n2.out = outOf W (pre ++ [c]) ∧
        searchLoop h 0 (pre.length + 1) c2 rest = some (specLoop W (pre ++ [c]) rest) := by
      intro c2 n2 hn2 hls2
      refine ⟨by rw [inv.out_eq hn2, outOf_ls hls2], ?_⟩
      have hrec := ih (pre ++ [c]) c2 (lt_of_get hn2) hls2
      rw [List.length_append, List.length_singleton] at hrec
      exact hrec
    cases hg : mapGet n1.next c with
    | some t =>
      obtain ⟨htl, hpt⟩ := (inv.shape.get_child hn1 c t).1 hg
      obtain ⟨n2, hn2⟩ := get_of_lt htl
      have hls2 : IsLs W (path t) (pre ++ [c]) := by
        refine ⟨?_, (inv.nodes _).1 ⟨t, htl, rfl⟩, ?_⟩
        · rw [hpt]
          obtain ⟨a, ha⟩ := hs1
          exact ⟨a, by rw [← ha]; simp⟩
        · intro s1 hss hin
          rcases List.suffix_concat_iff.1 hss with e | ⟨s, e, hs⟩
          · rw [e]; simp
          · rw [e] at hin ⊢
            rw [hpt]
            simp
            by_contra hcon
            exact hno1 s hs (by omega) (inTrie_of_append hin) hin
      obtain ⟨hout, hrec⟩ := tail t n2 hn2 hls2
      simp only [searchLoop, hwalk, hn1, hg, hn2, hrec, hout, specLoop]
    | none =>
      have hc1 : c1 = 0 := by
        rcases hstop with e | ⟨t, ht⟩
        · exact e
        · rw [hg] at ht; cases ht
      subst hc1
      have hnot := inv.core.not_inTrie_of_get_none hn1 hg
      rw [inv.shape.root] at hnot hno1
      have hls2 : IsLs W (path 0) (pre ++ [c]) := by
        refine ⟨?_, ?_, ?_⟩
        · rw [inv.shape.root]; exact List.nil_suffix
        · rw [inv.shape.root]; exact inTrie_nil W
        · intro s1 hss hin
          rcases List.suffix_concat_iff.1 hss with e | ⟨s, e, hs⟩
          · rw [e]; simp
          · exfalso
            rw [e] at hin
            cases s with
            | nil => exact hnot hin
            | cons a s => exact hno1 (a :: s) hs (by simp) (inTrie_of_append hin) hin
      obtain ⟨hout, hrec⟩ := tail 0 n1 hn1 hls2
      simp only [searchLoop, hwalk, hn1, hg, hrec, hout, specLoop]

/-- Running `Search` on the automaton built from `W` returns exactly `specSearch W T`. -/
theorem search_build (mo : MapOrder (Char × Nat)) (W : List Str) :
    ∃ A, Build mo NewAC W = some A ∧ ∀ T : Str, Search A T = some (specSearch W T) := by
  obtain ⟨A, path, hb, hroot, inv⟩ := build_spec mo W
  refine ⟨A, hb, ?_⟩
  intro T
  have hls : IsLs W (path 0) [] := by
    rw [inv.shape.root]
    exact ⟨List.suffix_refl _, inTrie_nil W, fun s1 hs _ => by
      rw [List.suffix_nil.1 hs]⟩
  have := searchLoop_spec inv T [] 0 inv.shape.pos hls
  simp only [Search, hroot, specSearch]
  exact this

theorem mem_outOf {W : List Str} {p w : Str} :
    w ∈ outOf W p ↔ (w <:+ p ∧ w ≠ [] ∧ w ∈ W) := by
  unfold outOf
  rw [List.mem_filter, List.mem_tails]
  simp

theorem nodup_tails (l : Str) : l.tails.Nodup := by
  induction l with
  | nil => simp
  | cons a l ih =>
    rw [List.tails_cons, List.nodup_cons]
    refine ⟨?_, ih⟩
    intro hm
    have := ((List.mem_tails _ _).1 hm).length_le
    simp at this

theorem nodup_outOf (W : List Str) (p : Str) : (outOf W p).Nodup :=
  List.Nodup.filter _ (nodup_tails p)

theorem mem_emit {i : Nat} {out : List Str} {m : Match} :
    m ∈ emit i out ↔ (m.Word ∈ out ∧ m.End = (i : Int) + 1 ∧
      m.Start = (i : Int) + 1 - (m.Word.length : Int)) := by
  unfold emit
  rw [List.mem_map]
  constructor
  · rintro ⟨w, hw, rfl⟩
    refine ⟨hw, rfl, ?_⟩
    simp
    omega
  · rintro ⟨hw, he, hs⟩
    refine ⟨m.Word, hw, ?_⟩
    cases m with
    | mk st en wd =>
      simp at he hs ⊢
      constructor
      · omega
      · omega

theorem nodup_emit {i : Nat} {out : List Str} (h : out.Nodup) : (emit i out).Nodup := by
  unfold emit
  apply List.Nodup.map _ h
  intro a b e
  simp at e
  exact e.2

theorem mem_specLoop {W : List Str} {m : Match} : ∀ (rest pre : Str),
    m ∈ specLoop W pre rest ↔
      ∃ a b, rest = a ++ b ∧ a ≠ [] ∧ m.Word ∈ outOf W (pre ++ a) ∧
        m.End = ((pre ++ a).length : Int) ∧ m.Start = m.End - (m.Word.length : Int) := by
  intro rest
  induction rest with
  | nil =>
    intro pre
    simp [specLoop]
  | cons c rest ih =>
    intro pre
    simp only [specLoop, List.mem_append, mem_emit, ih]
    constructor
    · rintro (⟨h1, h2, h3⟩ | ⟨a, b, e, hne, h1, h2, h3⟩)
      · refine ⟨[c], rest, rfl, by simp, h1, ?_, ?_⟩
        · rw [h2]; simp
        · rw [h3, h2]
      · refine ⟨c :: a, b, by rw [e]; rfl, by simp, ?_, ?_, h3⟩
        · simpa using h1
        · rw [h2]; simp
    · rintro ⟨a, b, e, hne, h1, h2, h3⟩
      cases a with
      | nil => exact absurd rfl hne
      | cons x a =>
        simp only [List.cons_append, List.cons.injEq] at e
        obtain ⟨e1, e2⟩ := e
        subst e1
        by_cases ha : a = []
        · subst ha
          left
          refine ⟨h1, ?_, ?_⟩
          · rw [h2]; simp
          · rw [h3, h2]; simp
        · right
          refine ⟨a, b, e2, ha, ?_, ?_, h3⟩
          · simpa using h1
          · rw [h2]; simp

theorem nodup_specLoop (W : List Str) : ∀ (rest pre : Str), (specLoop W pre rest).Nodup := by
  intro rest
  induction rest with
  | nil => intro pre; simp [specLoop]
  | cons c rest ih =>
    intro pre
    simp only [specLoop]
    rw [List.nodup_append]
    refine ⟨nodup_emit (nodup_outOf W _), ih _, ?_⟩
    intro m h1 h2
    obtain ⟨_, he, _⟩ := mem_emit.1 h1
    obtain ⟨a, b, _, hne, _, he2, _⟩ := (mem_specLoop rest (pre ++ [c])).1 h2
    rw [he] at he2
    have : 0 < a.length := List.length_pos.2 hne
    simp only [List.length_append, List.length_singleton] at he2
    push_cast at he2
    omega

/-- Every match of the specification is a genuine occurrence of a word. -/
theorem specSearch_sound {W : List Str} {T : Str} {m : Match} (hm : m ∈ specSearch W T) :
    m.Word ∈ W ∧ m.Word ≠ [] ∧ 0 ≤ m.Start ∧ m.End ≤ (T.length : Int) ∧
      m.End - m.Start = (m.Word.length : Int) ∧
      (T.drop m.Start.toNat).take m.Word.length = m.Word := by
  obtain ⟨a, b, e, _, h1, h2, h3⟩ := (mem_specLoop T []).1 hm
  obtain ⟨hsuf, hne, hW⟩ := mem_outOf.1 h1
  simp only [List.nil_append] at hsuf h2
  obtain ⟨a0, ha0⟩ := hsuf
  have hlen : a.length = a0.length + m.Word.length := by rw [← ha0]; simp
  have hst : m.Start = (a0.length : Int) := by rw [h3, h2, hlen]; simp
  refine ⟨hW, hne, by rw [hst]; simp, ?_, by rw [h3]; simp, ?_⟩
  · rw [h2, e]; simp
  · rw [hst, e, ← ha0]
    simp

/-- Every occurrence of a non-empty word is a match of the specification. -/
theorem specSearch_complete {W : List Str} {T w : Str} {s : Nat} (hw : w ∈ W) (hne : w ≠ [])
    (hocc : (T.drop s).take w.length = w) :
    ({ Start := (s : Int), End := (s : Int) + (w.length : Int), Word := w } : Match)
      ∈ specSearch W T := by
  have hsplit : T = T.take s ++ (w ++ T.drop (s + w.length)) := by
    conv_lhs => rw [← List.take_append_drop s T, ← List.take_append_drop w.length (T.drop s)]
    rw [hocc, List.drop_drop]
  have hs : s < T.length := by
    by_contra hc
    rw [List.drop_eq_nil_of_le (by omega)] at hocc
    simp at hocc
    exact hne hocc
  have hts : (T.take s).length = s := by simp; omega
  refine (mem_specLoop T []).2 ⟨T.take s ++ w, T.drop (s + w.length), ?_, ?_, ?_, ?_, ?_⟩
  · rw [List.append_assoc]; exact hsplit
  · simp [hne]
  · exact mem_outOf.2 ⟨by simp, hne, hw⟩
  · simp [hts]
  · simp

theorem outOf_congr {W1 W2 : List Str} (h : ∀ w : Str, w ≠ [] → (w ∈ W1 ↔ w ∈ W2)) (p : Str) :
    outOf W1 p = outOf W2 p := by
  unfold outOf
  apply List.filter_congr
  intro x _
  by_cases e : x = []
  · simp [e]
  · simp [e, h x e]

theorem specLoop_congr {W1 W2 : List Str} (h : ∀ w : Str, w ≠ [] → (w ∈ W1 ↔ w ∈ W2)) :
    ∀ (rest pre : Str), specLoop W1 pre rest = specLoop W2 pre rest := by
  intro rest
  induction rest with
  | nil => intro pre; rfl
  | cons c rest ih =>
    intro pre
    simp only [specLoop, outOf_congr h, ih]

theorem markLoop_spec (stop : Int) : ∀ (fuel i : Nat) (cover : List Bool),
    cover.length ≤ i + fuel →
    (markLoop stop fuel i cover).length = cover.length ∧
    ∀ j : Nat, (markLoop stop fuel i cover)[j]? =
      if i ≤ j ∧ (j : Int) < stop ∧ j < cover.length then some true else cover[j]? := by
  intro fuel
  induction fuel with
  | zero =>
    intro i cover hf
    refine ⟨rfl, ?_⟩
    intro j
    have : ¬ (i ≤ j ∧ (j : Int) < stop ∧ j < cover.length) := by
      rintro ⟨h1, _, h3⟩
      omega
    simp only [markLoop, if_neg this]
  | succ fuel ih =>
    intro i cover hf
    by_cases hc : (i : Int) < stop ∧ i < cover.length
    · obtain ⟨hl, hj⟩ := ih (i + 1) (cover.set i true) (by simp; omega)
      simp only [markLoop, if_pos hc]
      refine ⟨by rw [hl]; simp, ?_⟩
      intro j
      rw [hj j, List.length_set, List.getElem?_set]
      by_cases e : i = j
      · subst e
        simp [hc.1, hc.2]
      · have h1 : (i + 1 ≤ j ∧ (j : Int) < stop ∧ j < cover.length) ↔
            (i ≤ j ∧ (j : Int) < stop ∧ j < cover.length) := by
          constructor
          · rintro ⟨a, b, c⟩; exact ⟨by omega, b, c⟩
          · rintro ⟨a, b, c⟩; exact ⟨by omega, b, c⟩
        simp only [h1, if_neg e]
    · have e : markLoop stop (fuel + 1) i cover = cover := by
        simp only [markLoop, if_neg hc]
      rw [e]
      refine ⟨rfl, ?_⟩
      intro j
      by_cases hj : i ≤ j ∧ (j : Int) < stop ∧ j < cover.length
      · exfalso
        obtain ⟨a, b, c⟩ := hj
        apply hc
        constructor
        · omega
        · omega
      · rw [if_neg hj]

theorem markAll_spec : ∀ (ms : List Match) (cover : List Bool),
    (markAll ms cover).length = cover.length ∧
    ∀ j : Nat, j < cover.length →
      (markAll ms cover)[j]? = (cover[j]?).map fun b => b || covered ms j := by
  intro ms
  induction ms with
  | nil =>
    intro cover
    refine ⟨rfl, ?_⟩
    intro j hj
    simp [markAll, covered, List.getElem?_eq_getElem hj]
  | cons m ms ih =>
    intro cover
    by_cases hneg : m.Start < 0
    · obtain ⟨hl, hj⟩ := ih cover
      simp only [markAll, if_pos hneg]
      refine ⟨hl, ?_⟩
      intro j hjl
      rw [hj j hjl]
      have : ¬ (0 ≤ m.Start) := by omega
      simp [covered, this]
    · obtain ⟨hl1, hj1⟩ := markLoop_spec m.End cover.length m.Start.toNat cover (by omega)
      obtain ⟨hl, hj⟩ := ih (markLoop m.End cover.length m.Start.toNat cover)
      simp only [markAll, if_neg hneg]
      refine ⟨by rw [hl, hl1], ?_⟩
      intro j hjl
      rw [hj j (by rw [hl1]; exact hjl), hj1 j]
      have hpos : 0 ≤ m.Start := by omega
      have hiff : (m.Start.toNat ≤ j ∧ (j : Int) < m.End ∧ j < cover.length) ↔
          (0 ≤ m.Start ∧ m.Start ≤ (j : Int) ∧ (j : Int) < m.End) := by
        constructor
        · rintro ⟨a, b, _⟩; exact ⟨hpos, by omega, b⟩
        · rintro ⟨_, a, b⟩; exact ⟨by omega, b, hjl⟩
      rw [List.getElem?_eq_getElem hjl]
      have hcons : covered (m :: ms) j =
          (decide (0 ≤ m.Start ∧ m.Start ≤ (j : Int) ∧ (j : Int) < m.End) || covered ms j) := rfl
      rw [hcons]
      by_cases hc : 0 ≤ m.Start ∧ m.Start ≤ (j : Int) ∧ (j : Int) < m.End
      · rw [if_pos (hiff.2 hc), decide_eq_true hc]
        simp
      · rw [if_neg (fun h => hc (hiff.1 h)), decide_eq_false hc]
        simp

theorem covered_perm {ms1 ms2 : List Match} (h : ms1.Perm ms2) (i : Nat) :
    covered ms1 i = covered ms2 i := by
  unfold covered
  rw [Bool.eq_iff_iff]
  simp only [List.any_eq_true]
  constructor
  · rintro ⟨m, hm, hp⟩; exact ⟨m, h.mem_iff.1 hm, hp⟩
  · rintro ⟨m, hm, hp⟩; exact ⟨m, h.mem_iff.2 hm, hp⟩

theorem markAll_perm {ms1 ms2 : List Match} (h : ms1.Perm ms2) (cover : List Bool) :
    markAll ms1 cover = markAll ms2 cover := by
  obtain ⟨hl1, hj1⟩ := markAll_spec ms1 cover
  obtain ⟨hl2, hj2⟩ := markAll_spec ms2 cover
  apply List.ext_getElem?
  intro j
  by_cases hj : j < cover.length
  · rw [hj1 j hj, hj2 j hj, covered_perm h]
  · rw [List.getElem?_eq_none (by omega), List.getElem?_eq_none (by omega)]

theorem applyCover_spec (mask : Char) : ∀ (cover : List Bool) (s : Str),
    cover.length = s.length →
    (applyCover mask cover s).length = s.length ∧
    ∀ j : Nat, (applyCover mask cover s)[j]? =
      (s[j]?).map fun r => if cover[j]? = some true then mask else r := by
  intro cover
  induction cover with
  | nil =>
    intro s hl
    have : s = [] := List.length_eq_zero.1 hl.symm
    subst this
    simp [applyCover]
  | cons c cs ih =>
    intro s hl
    cases s with
    | nil => simp at hl
    | cons r rs =>
      simp at hl
      obtain ⟨h1, h2⟩ := ih rs hl
      refine ⟨by simp [applyCover, h1], ?_⟩
      intro j
      cases j with
      | zero => cases c <;> simp [applyCover]
      | succ j => simp [applyCover, h2 j]

theorem maskLE_iff (a b : Match) :
    maskLE a b ↔ (a.Start < b.Start ∨ (a.Start = b.Start ∧ b.End ≤ a.End)) := by
  unfold maskLE maskLess
  by_cases e : b.Start = a.Start
  · simp [e]
  · have e2 : ¬ a.Start = b.Start := fun x => e x.symm
    simp [e, e2]
    omega

theorem maskLE_total : ∀ a b : Match, maskLE a b ∨ maskLE b a := by
  intro a b
  rw [maskLE_iff, maskLE_iff]
  omega

theorem maskLE_trans : ∀ a b c : Match, maskLE a b → maskLE b c → maskLE a c := by
  intro a b c
  rw [maskLE_iff, maskLE_iff, maskLE_iff]
  omega

theorem mapGet_mapSet {κ ν : Type} [DecidableEq κ] (m : List (κ × ν)) (k k1 : κ) (v : ν) :
    mapGet (mapSet m k v) k1 = if k = k1 then some v else mapGet m k1 := by
  induction m with
  | nil =>
    by_cases e : k = k1 <;> simp [mapSet, mapGet, e]
  | cons a m ih =>
    obtain ⟨k2, v2⟩ := a
    by_cases e2 : k2 = k
    · subst e2
      by_cases e : k2 = k1 <;> simp [mapSet, mapGet, e]
    · by_cases e : k = k1
      · subst e
        simp [mapSet, mapGet, e2, ih]
      · by_cases e3 : k2 = k1
        · subst e3
          simp [mapSet, mapGet, e2, e]
        · simp [mapSet, mapGet, e2, e3, e, ih]

theorem keys_mapSet {κ ν : Type} [DecidableEq κ] (m : List (κ × ν)) (k : κ) (v : ν) :
    (mapSet m k v).map Prod.fst =
      if k ∈ m.map Prod.fst then m.map Prod.fst else m.map Prod.fst ++ [k] := by
  induction m with
  | nil => simp [mapSet]
  | cons a m ih =>
    obtain ⟨k2, v2⟩ := a
    by_cases e2 : k2 = k
    · subst e2
      simp [mapSet]
    · have e3 : ¬ k = k2 := fun e => e2 e.symm
      simp only [mapSet, if_neg e2, List.map_cons, ih, List.mem_cons, e3, false_or]
      by_cases hm : k ∈ m.map Prod.fst
      · simp only [if_pos hm]
      · simp only [if_neg hm, List.cons_append]

theorem nodup_keys_mapSet {κ ν : Type} [DecidableEq κ] (m : List (κ × ν)) (k : κ) (v : ν)
    (h : (m.map Prod.fst).Nodup) : ((mapSet m k v).map Prod.fst).Nodup := by
  rw [keys_mapSet]
  by_cases hm : k ∈ m.map Prod.fst
  · rw [if_pos hm]; exact h
  · rw [if_neg hm]
    rw [List.nodup_append]
    refine ⟨h, List.nodup_singleton _, ?_⟩
    intro a ha hb
    simp at hb
    subst hb
    exact hm ha

theorem mem_keys_mapSet {κ ν : Type} [DecidableEq κ] (m : List (κ × ν)) (k k1 : κ) (v : ν) :
    k1 ∈ (mapSet m k v).map Prod.fst ↔ (k1 = k ∨ k1 ∈ m.map Prod.fst) := by
  rw [keys_mapSet]
  by_cases hm : k ∈ m.map Prod.fst
  · rw [if_pos hm]
    constructor
    · intro h; exact Or.inr h
    · rintro (h | h)
      · rw [h]; exact hm
      · exact h
  · rw [if_neg hm]
    simp
    exact Or.comm

theorem mapGet_isSome_iff {κ ν : Type} [DecidableEq κ] (m : List (κ × ν)) (k : κ) :
    (mapGet m k).isSome ↔ k ∈ m.map Prod.fst := by
  cases h : mapGet m k with
  | none =>
    simp
    have := (mapGet_none_iff m k).1 h
    simpa using this
  | some v =>
    simp
    exact ⟨v, mem_of_mapGet m k v h⟩

theorem mapGet_perm {κ ν : Type} [DecidableEq κ] {m1 m2 : List (κ × ν)} (hp : m1.Perm m2)
    (hn : (m1.map Prod.fst).Nodup) (k : κ) : mapGet m1 k = mapGet m2 k := by
  have hn2 : (m2.map Prod.fst).Nodup := (hp.map Prod.fst).nodup_iff.1 hn
  cases h : mapGet m1 k with
  | none =>
    have h1 := (mapGet_none_iff m1 k).1 h
    have h2 : k ∉ m2.map Prod.fst := fun hm => h1 ((hp.map Prod.fst).mem_iff.2 hm)
    exact ((mapGet_none_iff m2 k).2 h2).symm
  | some v =>
    have h1 := mem_of_mapGet m1 k v h
    exact (mapGet_of_mem m2 k v hn2 (hp.mem_iff.1 h1)).symm

theorem aggRaw_get : ∀ (ms : List Match) (aggm : List (Str × agg)) (w : Str),
    mapGet (aggRaw aggm ms) w =
      if matchesOf ms w = [] then mapGet aggm w
      else some (addRaw ((mapGet aggm w).getD aggZero) (matchesOf ms w)) := by
  intro ms
  induction ms with
  | nil =>
    intro aggm w
    simp [aggRaw, matchesOf]
  | cons m ms ih =>
    intro aggm w
    simp only [aggRaw]
    rw [ih, mapGet_mapSet]
    by_cases e : m.Word = w
    · have h1 : matchesOf (m :: ms) w = m :: matchesOf ms w := by
        simp [matchesOf, List.filter_cons, e]
      rw [h1, if_pos e, if_neg (List.cons_ne_nil _ _)]
      simp only [Option.getD_some]
      rw [e]
      by_cases h2 : matchesOf ms w = []
      · rw [if_pos h2, h2]
        cases hg : mapGet aggm w with
        | none => simp [addRaw, aggZero]
        | some a => simp [addRaw]
      · rw [if_neg h2]
        cases hg : mapGet aggm w with
        | none => simp [addRaw, aggZero]; omega
        | some a => simp [addRaw]; omega
    · have h1 : matchesOf (m :: ms) w = matchesOf ms w := by
        simp [matchesOf, List.filter_cons, e]
      rw [h1, if_neg e]

theorem aggNoSymbol_get : ∀ (ms : List Match) (aggm : List (Str × agg)) (w : Str),
    mapGet (aggNoSymbol aggm ms) w =
      if matchesOf ms w = [] then mapGet aggm w
      else some (addNoSymbol ((mapGet aggm w).getD aggZero) (matchesOf ms w)) := by
  intro ms
  induction ms with
  | nil =>
    intro aggm w
    simp [aggNoSymbol, matchesOf]
  | cons m ms ih =>
    intro aggm w
    simp only [aggNoSymbol]
    rw [ih, mapGet_mapSet]
    by_cases e : m.Word = w
    · have h1 : matchesOf (m :: ms) w = m :: matchesOf ms w := by
        simp [matchesOf, List.filter_cons, e]
      rw [h1, if_pos e, if_neg (List.cons_ne_nil _ _)]
      simp only [Option.getD_some]
      rw [e]
      by_cases h2 : matchesOf ms w = []
      · rw [if_pos h2, h2]
        cases hg : mapGet aggm w with
        | none => simp [addNoSymbol, aggZero]
        | some a => simp [addNoSymbol]
      · rw [if_neg h2]
        cases hg : mapGet aggm w with
        | none => simp [addNoSymbol, aggZero]; omega
        | some a => simp [addNoSymbol]; omega
    · have h1 : matchesOf (m :: ms) w = matchesOf ms w := by
        simp [matchesOf, List.filter_cons, e]
      rw [h1, if_neg e]

theorem aggRaw_nodup : ∀ (ms : List Match) (aggm : List (Str × agg)),
    (aggm.map Prod.fst).Nodup → ((aggRaw aggm ms).map Prod.fst).Nodup := by
  intro ms
  induction ms with
  | nil => intro aggm h; exact h
  | cons m ms ih =>
    intro aggm h
    simp only [aggRaw]
    exact ih _ (nodup_keys_mapSet _ _ _ h)

theorem aggNoSymbol_nodup : ∀ (ms : List Match) (aggm : List (Str × agg)),
    (aggm.map Prod.fst).Nodup → ((aggNoSymbol aggm ms).map Prod.fst).Nodup := by
  intro ms
  induction ms with
  | nil => intro aggm h; exact h
  | cons m ms ih =>
    intro aggm h
    simp only [aggNoSymbol]
    exact ih _ (nodup_keys_mapSet _ _ _ h)

theorem wordLoop_spec (cat : Str) : ∀ (l : List (Str × agg)) (cr : CategoryResult)
    (dw : List WordHit),
    (wordLoop cat cr dw l).1 = (wordLoop cat cr [] l).1 ∧
    (wordLoop cat cr dw l).2 = dw ++ hitsOf cat l ∧
    (wordLoop cat cr dw l).1.Words = cr.Words ++ hitsOf cat l ∧
    (wordLoop cat cr dw l).1.Count = cr.Count := by
  intro l
  induction l with
  | nil =>
    intro cr dw
    simp [wordLoop, hitsOf]
  | cons p l ih =>
    intro cr dw
    obtain ⟨w, a⟩ := p
    by_cases h0 : a.countRaw + a.countNoSymbol = 0
    · have hh : hitsOf cat ((w, a) :: l) = hitsOf cat l := by
        unfold hitsOf
        rw [List.filter_cons_of_neg (by simp [h0])]
      simp only [wordLoop, if_pos h0, hh]
      exact ih cr dw
    · have hh : hitsOf cat ((w, a) :: l) = hitOf cat (w, a) :: hitsOf cat l := by
        unfold hitsOf
        rw [List.filter_cons_of_pos (by simp; omega)]
        rfl
      simp only [wordLoop, if_neg h0, hh]
      obtain ⟨h1, h2, h3, h4⟩ := ih
        { cr with Stats := mapSet cr.Stats (levelOf cat w).1
                    (statGet cr.Stats (levelOf cat w).1 + 1),
                  Words := cr.Words ++ [hitOf cat (w, a)] }
        (dw ++ [hitOf cat (w, a)])
      obtain ⟨g1, _, _, _⟩ := ih
        { cr with Stats := mapSet cr.Stats (levelOf cat w).1
                    (statGet cr.Stats (levelOf cat w).1 + 1),
                  Words := cr.Words ++ [hitOf cat (w, a)] }
        ([] ++ [hitOf cat (w, a)])
      refine ⟨?_, ?_, ?_, ?_⟩
      · exact h1.trans g1.symm
      · rw [show dw ++ hitOf cat (w, a) :: hitsOf cat l
            = (dw ++ [hitOf cat (w, a)]) ++ hitsOf cat l by simp]
        exact h2
      · rw [show cr.Words ++ hitOf cat (w, a) :: hitsOf cat l
            = (cr.Words ++ [hitOf cat (w, a)]) ++ hitsOf cat l by simp]
        exact h3
      · exact h4

theorem categoryBody_eq (ro : RangeOrders) (d : Detector) (text tns : Str)
    (resp : DetectResponse) (cat : Str) :
    categoryBody ro d text tns resp cat = applyEntry resp cat (catEntry ro d text tns cat) := by
  unfold categoryBody catEntry
  cases h1 : mapGet d.automata cat with
  | none => rfl
  | some oa =>
    cases oa with
    | none => rfl
    | some A =>
      simp only
      cases h2 : Search A text with
      | none => rfl
      | some ms1 =>
        simp only
        cases h3 : Search A tns with
        | none => rfl
        | some ms2 =>
          simp only
          by_cases h4 : (aggNoSymbol (aggRaw [] ms1) ms2).length = 0
          · simp only [if_pos h4, applyEntry]
          · simp only [if_neg h4, applyEntry]
            obtain ⟨e1, e2, _, _⟩ := wordLoop_spec cat
              (ro.aggs.order (aggNoSymbol (aggRaw [] ms1) ms2)) crInit resp.DetectedWords
            obtain ⟨_, _, e3, _⟩ := wordLoop_spec cat
              (ro.aggs.order (aggNoSymbol (aggRaw [] ms1) ms2)) crInit []
            have e4 : (wordLoop cat crInit []
                (ro.aggs.order (aggNoSymbol (aggRaw [] ms1) ms2))).1.Words
                = hitsOf cat (ro.aggs.order (aggNoSymbol (aggRaw [] ms1) ms2)) := by
              rw [e3]; rfl
            change some { resp with
              Categories := mapSet resp.Categories cat
                { (wordLoop cat crInit resp.DetectedWords
                    (ro.aggs.order (aggNoSymbol (aggRaw [] ms1) ms2))).1 with
                  Count := (wordLoop cat crInit resp.DetectedWords
                    (ro.aggs.order (aggNoSymbol (aggRaw [] ms1) ms2))).1.Words.length },
              DetectedWords := (wordLoop cat crInit resp.DetectedWords
                    (ro.aggs.order (aggNoSymbol (aggRaw [] ms1) ms2))).2,
              TotalCount := resp.TotalCount + (wordLoop cat crInit resp.DetectedWords
                    (ro.aggs.order (aggNoSymbol (aggRaw [] ms1) ms2))).1.Words.length } = _
            rw [e1, e2]
            simp only [e4]

theorem catEntry_some {ro : RangeOrders} {d : Detector} {text tns : Str} {cat : Str}
    {cr : CategoryResult} (h : catEntry ro d text tns cat = some (some cr)) :
    ∃ A ms1 ms2, mapGet d.automata cat = some (some A) ∧ Search A text = some ms1 ∧
      Search A tns = some ms2 ∧ aggNoSymbol (aggRaw [] ms1) ms2 ≠ [] ∧
      cr.Words = hitsOf cat (ro.aggs.order (aggNoSymbol (aggRaw [] ms1) ms2)) ∧
      cr.Count = cr.Words.length := by
  unfold catEntry at h
  cases h1 : mapGet d.automata cat with
  | none => rw [h1] at h; cases h
  | some oa =>
    cases oa with
    | none => rw [h1] at h; cases h
    | some A =>
      rw [h1] at h
      simp only at h
      cases h2 : Search A text with
      | none => rw [h2] at h; cases h
      | some ms1 =>
        rw [h2] at h
        simp only at h
        cases h3 : Search A tns with
        | none => rw [h3] at h; cases h
        | some ms2 =>
          rw [h3] at h
          simp only at h
          by_cases h4 : (aggNoSymbol (aggRaw [] ms1) ms2).length = 0
          · rw [if_pos h4] at h; cases h
          · rw [if_neg h4] at h
            obtain ⟨_, _, e3, _⟩ := wordLoop_spec cat
              (ro.aggs.order (aggNoSymbol (aggRaw [] ms1) ms2)) crInit []
            have e4 : (wordLoop cat crInit []
                (ro.aggs.order (aggNoSymbol (aggRaw [] ms1) ms2))).1.Words
                = hitsOf cat (ro.aggs.order (aggNoSymbol (aggRaw [] ms1) ms2)) := by
              rw [e3]; rfl
            simp only [Option.some.injEq] at h
            subst h
            refine ⟨A, ms1, ms2, rfl, h2, h3, ?_, e4, ?_⟩
            · intro e
              rw [e] at h4
              exact h4 rfl
            · simp only [e4]

theorem catEntry_count {ro : RangeOrders} {d : Detector} {text tns : Str} {cat : Str}
    {cr : CategoryResult} (h : catEntry ro d text tns cat = some (some cr)) :
    cr.Count = cr.Words.length := by
  obtain ⟨_, _, _, _, _, _, _, _, hc⟩ := catEntry_some h
  exact hc

theorem categoryLoop_spec (ro : RangeOrders) (d : Detector) (text tns : Str) :
    ∀ (cats : List Str) (resp : DetectResponse),
      (∀ c, c ∈ cats → catEntry ro d text tns c ≠ none) →
      (resp.Categories.map Prod.fst).Nodup →
      ∃ resp1, categoryLoop ro d text tns resp cats = some resp1 ∧
        resp1.DetectedWords = resp.DetectedWords ++
          cats.flatMap (fun c => entryWords (catEntry ro d text tns c)) ∧
        resp1.TotalCount = resp.TotalCount +
          (cats.flatMap fun c => entryWords (catEntry ro d text tns c)).length ∧
        (∀ c, mapGet resp1.Categories c =
          if c ∈ cats then pick (catEntry ro d text tns c) (mapGet resp.Categories c)
          else mapGet resp.Categories c) ∧
        (resp1.Categories.map Prod.fst).Nodup ∧
        resp1.RiskLevel = resp.RiskLevel ∧ resp1.HasSensitive = resp.HasSensitive ∧
        resp1.CategorySummary = resp.CategorySummary := by
  intro cats
  induction cats with
  | nil =>
    intro resp _ hk
    exact ⟨resp, rfl, by simp, by simp, by simp, hk, rfl, rfl, rfl⟩
  | cons c0 rest ih =>
    intro resp hok hk
    have h0 := hok c0 (List.mem_cons_self _ _)
    have hrest : ∀ c, c ∈ rest → catEntry ro d text tns c ≠ none :=
      fun c hc => hok c (List.mem_cons_of_mem _ hc)
    simp only [categoryLoop, categoryBody_eq]
    cases he : catEntry ro d text tns c0 with
    | none => exact absurd he h0
    | some oe =>
      cases oe with
      | none =>
        obtain ⟨resp1, hrun, hw, ht, hc, hk1, hr, hh, hs⟩ := ih resp hrest hk
        refine ⟨resp1, by simp only [applyEntry, hrun], ?_, ?_, ?_, hk1, hr, hh, hs⟩
        · rw [hw, List.flatMap_cons, he]; rfl
        · rw [ht, List.flatMap_cons, he]; rfl
        · intro c
          rw [hc c]
          by_cases e : c = c0
          · subst e
            simp only [List.mem_cons, true_or, if_true, he, pick]
            by_cases hm : c ∈ rest
            · rw [if_pos hm]
            · rw [if_neg hm]
          · simp only [List.mem_cons, e, false_or]
      | some cr =>
        have hcnt := catEntry_count he
        obtain ⟨resp1, hrun, hw, ht, hc, hk1, hr, hh, hs⟩ := ih
          { resp with
            Categories := mapSet resp.Categories c0 cr,
            DetectedWords := resp.DetectedWords ++ cr.Words,
            TotalCount := resp.TotalCount + cr.Count } hrest
          (nodup_keys_mapSet _ _ _ hk)
        refine ⟨resp1, by simp only [applyEntry, hrun], ?_, ?_, ?_, hk1, hr, hh, hs⟩
        · rw [hw, List.flatMap_cons, he]
          simp [entryWords]
        · rw [ht, List.flatMap_cons, he]
          simp [entryWords, hcnt]
          omega
        · intro c
          rw [hc c]
          simp only [mapGet_mapSet]
          by_cases e : c0 = c
          · subst e
            simp only [List.mem_cons, true_or, if_true, he, pick]
            by_cases hm : c0 ∈ rest
            · rw [if_pos hm]
            · rw [if_neg hm]
          · have e2 : ¬ c = c0 := fun x => e x.symm
            simp only [List.mem_cons, e2, false_or, if_neg e]

theorem countHigh_eq : ∀ (l : List WordHit) (n : Nat),
    countHigh n l = n + (l.filter fun w => decide (w.Level = "high".toList)).length := by
  intro l
  induction l with
  | nil => intro n; simp [countHigh]
  | cons w l ih =>
    intro n
    by_cases e : w.Level = "high".toList
    · simp only [countHigh, if_pos e, ih]
      rw [List.filter_cons_of_pos (by simpa using e)]
      simp
      omega
    · simp only [countHigh, if_neg e, ih]
      rw [List.filter_cons_of_neg (by simpa using e)]

theorem countHigh_pos (l : List WordHit) :
    countHigh 0 l > 0 ↔ ∃ h, h ∈ l ∧ h.Level = "high".toList := by
  rw [countHigh_eq, Nat.zero_add]
  constructor
  · intro hp
    obtain ⟨h, hm⟩ := List.exists_mem_of_length_pos hp
    rw [List.mem_filter] at hm
    exact ⟨h, hm.1, by simpa using hm.2⟩
  · rintro ⟨h, hm, hl⟩
    apply List.length_pos_of_mem (a := h)
    rw [List.mem_filter]
    exact ⟨hm, by simpa using hl⟩

theorem summaryLoop_get : ∀ (l : List (Str × CategoryResult))
    (summary : List (Str × List (Str × Nat))) (c : Str), (l.map Prod.fst).Nodup →
    mapGet (summaryLoop summary l) c =
      match mapGet l c with
      | some data => some (summaryOf data)
      | none => mapGet summary c := by
  intro l
  induction l with
  | nil =>
    intro summary c _
    simp [summaryLoop, mapGet]
  | cons p l ih =>
    intro summary c hn
    obtain ⟨cat, data⟩ := p
    simp only [List.map_cons, List.nodup_cons] at hn
    simp only [summaryLoop]
    rw [ih _ c hn.2]
    by_cases e : cat = c
    · subst e
      have : mapGet l cat = none := (mapGet_none_iff l cat).2 hn.1
      simp [mapGet, this, mapGet_mapSet, summaryOf]
    · simp only [mapGet, if_neg e, mapGet_mapSet]

theorem detect_spec (ro : RangeOrders) (d : Detector) (text : Str) (cats : List Str)
    (hok : ∀ c, c ∈ selected ro d cats →
      catEntry ro d text (replaceAllEmpty d.reNoSymbol text) c ≠ none) :
    ∃ resp, Detect ro d text cats = some resp ∧ DetectPost ro d text cats resp := by
  obtain ⟨resp1, hrun, hw, ht, hc, hk, hr, hh, hs⟩ := categoryLoop_spec ro d text
    (replaceAllEmpty d.reNoSymbol text) (selected ro d cats)
    { HasSensitive := false, TotalCount := 0, Categories := [], DetectedWords := [],
      RiskLevel := "safe".toList, CategorySummary := [], SimilarWords := [],
      SimilarSensitive := true } hok (by simp)
  simp only [List.nil_append, Nat.zero_add] at hw ht
  have htot : resp1.TotalCount = resp1.DetectedWords.length := by rw [ht, hw]
  have hrun2 : categoryLoop ro d text (replaceAllEmpty d.reNoSymbol text)
      { HasSensitive := false, TotalCount := 0, Categories := [], DetectedWords := [],
        RiskLevel := "safe".toList, CategorySummary := [], SimilarWords := [],
        SimilarSensitive := true }
      (if cats.length = 0 then (ro.automata.order d.automata).map Prod.fst else cats)
      = some resp1 := hrun
  have hsum : ∀ (r : DetectResponse), r.Categories = resp1.Categories →
      r.CategorySummary = [] → ∀ c,
      mapGet (summaryLoop r.CategorySummary (ro.results.order r.Categories)) c
        = (mapGet resp1.Categories c).map summaryOf := by
    intro r e1 e2 c
    have hp := ro.results.perm resp1.Categories
    have hn : ((ro.results.order resp1.Categories).map Prod.fst).Nodup :=
      (hp.map Prod.fst).nodup_iff.2 hk
    rw [e1, e2, summaryLoop_get _ _ c hn, mapGet_perm hp (List.Nodup.of_map _ hn |> fun _ => hn)]
    cases mapGet resp1.Categories c <;> simp [mapGet]
  by_cases hpos : resp1.TotalCount > 0
  · have hdet : Detect ro d text cats = some
        { resp1 with
          HasSensitive := true,
          RiskLevel := if countHigh 0 resp1.DetectedWords > 0 then "high".toList
            else "low".toList,
          CategorySummary := summaryLoop resp1.CategorySummary
            (ro.results.order resp1.Categories) } := by
      simp only [Detect, hrun2, if_pos hpos]
    refine ⟨_, hdet, ?_⟩
    refine ⟨hw, htot, ?_, hk, ?_, ?_, ?_⟩
    · intro c
      rw [hc c]
      simp [mapGet]
    · simp only [if_pos hpos]
      by_cases hhigh : countHigh 0 resp1.DetectedWords > 0
      · rw [if_pos hhigh, if_pos ((countHigh_pos _).1 hhigh)]
      · rw [if_neg hhigh, if_neg (fun h => hhigh ((countHigh_pos _).2 h))]
    · simp [hpos]
    · exact hsum _ rfl hs
  · have hdet : Detect ro d text cats = some
        { resp1 with
          CategorySummary := summaryLoop resp1.CategorySummary
            (ro.results.order resp1.Categories) } := by
      simp only [Detect, hrun2, if_neg hpos]
    refine ⟨_, hdet, ?_⟩
    refine ⟨hw, htot, ?_, hk, ?_, ?_, ?_⟩
    · intro c
      rw [hc c]
      simp [mapGet]
    · simp only [if_neg hpos]
      exact hr
    · simp [hpos, hh]
    · exact hsum _ rfl hs

theorem mem_sortStrings (l : List Str) (w : Str) : w ∈ sortStrings l ↔ w ∈ l := by
  unfold sortStrings
  exact List.mem_insertionSort _

theorem specSearch_congr {W1 W2 : List Str} (h : ∀ w : Str, w ≠ [] → (w ∈ W1 ↔ w ∈ W2))
    (T : Str) : specSearch W1 T = specSearch W2 T :=
  specLoop_congr h T []

theorem buildAutomataLoop_spec (ro : RangeOrders) :
    ∀ (l : List (Str × List Str)) (acc : List (Str × Option ACAutomaton)),
      GoodAutomata acc → (acc.map Prod.fst).Nodup →
      ∃ acc1, buildAutomataLoop ro acc l = some acc1 ∧ GoodAutomata acc1 ∧
        (acc1.map Prod.fst).Nodup ∧
        (∀ c, c ∈ acc1.map Prod.fst ↔ (c ∈ acc.map Prod.fst ∨ c ∈ l.map Prod.fst)) ∧
        ((l.map Prod.fst).Nodup → ∀ (c : Str) (set : List Str), mapGet l c = some set →
          ∃ A, mapGet acc1 c = some (some A) ∧
            ∀ T : Str, Search A T = some (specSearch set T)) ∧
        (∀ c, c ∉ l.map Prod.fst → mapGet acc1 c = mapGet acc c) := by
  intro l
  induction l with
  | nil =>
    intro acc hg hn
    refine ⟨acc, rfl, hg, hn, by simp, ?_, fun _ _ => rfl⟩
    intro _ c set h
    simp [mapGet] at h
  | cons p l ih =>
    intro acc hg hn
    obtain ⟨cat, set⟩ := p
    obtain ⟨A, hb, hs⟩ := search_build ro.nodes (sortStrings (ro.wordSet.order set))
    have hs2 : ∀ T : Str, Search A T = some (specSearch set T) := by
      intro T
      rw [hs T]
      congr 1
      apply specSearch_congr
      intro w _
      rw [mem_sortStrings, (ro.wordSet.perm set).mem_iff]
    have hg1 : GoodAutomata (mapSet acc cat (some A)) := by
      intro c oa hget
      rw [mapGet_mapSet] at hget
      by_cases e : cat = c
      · rw [if_pos e] at hget
        cases hget
        exact ⟨set, A, rfl, hs2⟩
      · rw [if_neg e] at hget
        exact hg c oa hget
    obtain ⟨acc1, hrun, hg2, hn2, hmem, hget, hkeep⟩ :=
      ih (mapSet acc cat (some A)) hg1 (nodup_keys_mapSet _ _ _ hn)
    refine ⟨acc1, by simp only [buildAutomataLoop, hb, hrun], hg2, hn2, ?_, ?_, ?_⟩
    · intro c
      rw [hmem c, mem_keys_mapSet]
      simp only [List.map_cons, List.mem_cons]
      constructor
      · rintro ((h | h) | h)
        · exact Or.inr (Or.inl h)
        · exact Or.inl h
        · exact Or.inr (Or.inr h)
      · rintro (h | h | h)
        · exact Or.inl (Or.inr h)
        · exact Or.inl (Or.inl h)
        · exact Or.inr h
    · intro hnl c set1 hc
      simp only [List.map_cons, List.nodup_cons] at hnl
      by_cases e : cat = c
      · subst e
        simp only [mapGet, if_true] at hc
        cases hc
        refine ⟨A, ?_, hs2⟩
        rw [hkeep cat hnl.1, mapGet_mapSet, if_pos rfl]
      · simp only [mapGet, if_neg e] at hc
        exact hget hnl.2 c set1 hc
    · intro c hc
      simp only [List.map_cons, List.mem_cons, not_or] at hc
      rw [hkeep c hc.2, mapGet_mapSet, if_neg (fun e => hc.1 e.symm)]

/-- The constructor `NewDetector` succeeds; every category of the loaded word sets gets an automaton
that searches for exactly the words of its set. -/
theorem newDetector_spec (uc : UnicodeTables) (ro : RangeOrders)
    (loaded : List (Str × List Str)) :
    ∃ d, NewDetector uc ro loaded = some d ∧ d.sensitiveWords = loaded ∧
      d.reNoSymbol = reNoSymbolClass uc ∧ GoodAutomata d.automata ∧
      (d.automata.map Prod.fst).Nodup ∧
      (∀ c, c ∈ d.automata.map Prod.fst ↔ c ∈ loaded.map Prod.fst) ∧
      ((loaded.map Prod.fst).Nodup → ∀ (c : Str) (set : List Str),
        mapGet loaded c = some set →
        ∃ A, mapGet d.automata c = some (some A) ∧
          ∀ T : Str, Search A T = some (specSearch set T)) := by
  have hg0 : GoodAutomata [] := by
    intro c oa h
    simp [mapGet] at h
  obtain ⟨acc1, hrun, hg, hn, hmem, hget, _⟩ :=
    buildAutomataLoop_spec ro (ro.categories.order loaded) [] hg0 (by simp)
  have hp := ro.categories.perm loaded
  refine ⟨{ sensitiveWords := loaded, automata := acc1, reNoSymbol := reNoSymbolClass uc },
    by simp only [NewDetector, hrun], rfl, rfl, hg, hn, ?_, ?_⟩
  · intro c
    rw [hmem c]
    simp only [List.map_nil, List.not_mem_nil, false_or]
    exact (hp.map Prod.fst).mem_iff
  · intro hnl c set hc
    have hn1 : ((ro.categories.order loaded).map Prod.fst).Nodup :=
      (hp.map Prod.fst).nodup_iff.2 hnl
    exact hget hn1 c set (by rw [mapGet_perm hp hn1]; exact hc)

theorem catEntry_ne_none {ro : RangeOrders} {d : Detector} (hg : GoodAutomata d.automata)
    (text tns c : Str) : catEntry ro d text tns c ≠ none := by
  unfold catEntry
  cases h1 : mapGet d.automata c with
  | none => simp
  | some oa =>
    obtain ⟨W, A, e, hs⟩ := hg c oa h1
    subst e
    simp only [hs]
    by_cases h4 : (aggNoSymbol (aggRaw [] (specSearch W text)) (specSearch W tns)).length = 0
    · rw [if_pos h4]; simp
    · rw [if_neg h4]; simp

/-- On a detector whose automata are well built, `Detect` returns. -/
theorem detect_good (ro : RangeOrders) (d : Detector) (hg : GoodAutomata d.automata)
    (text : Str) (cats : List Str) :
    ∃ resp, Detect ro d text cats = some resp ∧ DetectPost ro d text cats resp :=
  detect_spec ro d text cats (fun c _ => catEntry_ne_none hg text _ c)

theorem pairwise_tails (l : Str) : l.tails.Pairwise fun a b => b.length < a.length := by
  induction l with
  | nil => simp
  | cons x l ih =>
    rw [List.tails_cons, List.pairwise_cons]
    refine ⟨?_, ih⟩
    intro b hb
    have := ((List.mem_tails _ _).1 hb).length_le
    simp
    omega

theorem pairwise_emit (W : List Str) (i : Nat) (p : Str) :
    (emit i (outOf W p)).Pairwise emitBefore := by
  unfold emit outOf
  rw [List.pairwise_map]
  apply List.Pairwise.imp _ (List.Pairwise.filter _ (pairwise_tails p))
  intro a b hab
  right
  refine ⟨rfl, ?_⟩
  simp only
  omega

theorem pairwise_specLoop (W : List Str) : ∀ (rest pre : Str),
    (specLoop W pre rest).Pairwise emitBefore := by
  intro rest
  induction rest with
  | nil => intro pre; simp [specLoop]
  | cons c rest ih =>
    intro pre
    simp only [specLoop]
    rw [List.pairwise_append]
    refine ⟨pairwise_emit W _ _, ih _, ?_⟩
    intro a ha b hb
    obtain ⟨_, he, _⟩ := mem_emit.1 ha
    obtain ⟨x, y, _, hne, _, he2, _⟩ := (mem_specLoop rest (pre ++ [c])).1 hb
    left
    rw [he, he2]
    have : 0 < x.length := List.length_pos.2 hne
    simp only [List.length_append, List.length_singleton]
    push_cast
    omega

theorem specSearch_start_eq {W : List Str} {T : Str} {m : Match} (hm : m ∈ specSearch W T) :
    m.Start = m.End - (m.Word.length : Int) := by
  obtain ⟨_, _, _, _, _, _, h3⟩ := (mem_specLoop T []).1 hm
  exact h3

theorem sorted_starts (W : List Str) (T w : Str) :
    ((matchesOf (specSearch W T) w).map Match.Start).Pairwise (· < ·) := by
  rw [List.pairwise_map]
  unfold matchesOf
  have hp : (specSearch W T).Pairwise fun a b =>
      a ∈ specSearch W T ∧ b ∈ specSearch W T ∧ emitBefore a b := by
    rw [List.pairwise_iff_forall_sublist]
    intro a b hab
    have h1 := (List.pairwise_iff_forall_sublist.1 (pairwise_specLoop W T [])) hab
    have ha : a ∈ specSearch W T := hab.subset (by simp)
    have hb : b ∈ specSearch W T := hab.subset (by simp)
    exact ⟨ha, hb, h1⟩
  have hf := List.Pairwise.filter (fun m : Match => decide (m.Word = w)) hp
  apply List.Pairwise.imp_of_mem _ hf
  intro a b ha hb hab
  obtain ⟨ha1, hb1, hab1⟩ := hab
  have wa : a.Word = w := by simpa using (List.mem_filter.1 ha).2
  have wb : b.Word = w := by simpa using (List.mem_filter.1 hb).2
  have sa := specSearch_start_eq ha1
  have sb := specSearch_start_eq hb1
  rw [wa] at sa
  rw [wb] at sb
  rcases hab1 with h | ⟨_, h⟩
  · omega
  · exact h

theorem sorted_occurrences (w T : Str) :
    ((occurrences w T).map Int.ofNat).Pairwise (· < ·) := by
  rw [List.pairwise_map]
  unfold occurrences
  apply List.Pairwise.imp _ (List.Pairwise.filter _ (List.pairwise_lt_range T.length))
  intro a b hab
  exact Int.ofNat_lt.2 hab

theorem mem_occurrences {w T : Str} {s : Nat} :
    s ∈ occurrences w T ↔ (s < T.length ∧ (T.drop s).take w.length = w) := by
  unfold occurrences
  rw [List.mem_filter, List.mem_range]
  simp only [decide_eq_true_eq]
  constructor
  · rintro ⟨h1, h2⟩
    exact ⟨h1, (List.prefix_iff_eq_take.1 h2).symm⟩
  · rintro ⟨h1, h2⟩
    exact ⟨h1, by rw [← h2]; exact List.take_prefix _ _⟩

/-- The start offsets of the matches of a word are its occurrences. -/
theorem starts_eq_occurrences {W : List Str} {w : Str} (hw : w ∈ W) (hne : w ≠ [])
    (T : Str) :
    (matchesOf (specSearch W T) w).map Match.Start = (occurrences w T).map Int.ofNat := by
  have h1 := sorted_starts W T w
  have h2 := sorted_occurrences w T
  apply List.eq_of_perm_of_sorted (r := (· < ·)) _ h1 h2
  rw [List.perm_ext_iff_of_nodup (List.Pairwise.imp (fun h => ne_of_lt h) h1)
    (List.Pairwise.imp (fun h => ne_of_lt h) h2)]
  intro x
  simp only [List.mem_map, matchesOf, List.mem_filter, decide_eq_true_eq]
  constructor
  · rintro ⟨m, ⟨hm, hmw⟩, rfl⟩
    obtain ⟨_, hne1, h0, _, _, hocc⟩ := specSearch_sound hm
    rw [hmw] at hocc
    refine ⟨m.Start.toNat, mem_occurrences.2 ⟨?_, hocc⟩, ?_⟩
    · by_contra hc
      rw [List.drop_eq_nil_of_le (by omega)] at hocc
      simp at hocc
      exact hne hocc
    · simp
      omega
  · rintro ⟨s, hs, rfl⟩
    obtain ⟨_, hocc⟩ := mem_occurrences.1 hs
    exact ⟨_, ⟨specSearch_complete hw hne hocc, rfl⟩, rfl⟩

theorem filter_key {ν : Type} : ∀ (l : List (Str × ν)) (w : Str), (l.map Prod.fst).Nodup →
    l.filter (fun p => decide (p.1 = w)) =
      match mapGet l w with
      | some a => [(w, a)]
      | none => [] := by
  intro l
  induction l with
  | nil => intro w _; simp [mapGet]
  | cons p l ih =>
    intro w hn
    obtain ⟨k, a⟩ := p
    simp only [List.map_cons, List.nodup_cons] at hn
    by_cases e : k = w
    · subst e
      have hnone : mapGet l k = none := (mapGet_none_iff l k).2 hn.1
      rw [List.filter_cons_of_pos (by simp), ih k hn.2, hnone]
      simp [mapGet]
    · rw [List.filter_cons_of_neg (by simpa using e), ih w hn.2]
      simp only [mapGet, if_neg e]

theorem hits_filter (cat : Str) (l : List (Str × agg)) (w : Str)
    (hn : (l.map Prod.fst).Nodup) :
    (hitsOf cat l).filter (fun h => decide (h.Word = w)) =
      match mapGet l w with
      | some a => if a.countRaw + a.countNoSymbol ≠ 0 then [hitOf cat (w, a)] else []
      | none => [] := by
  unfold hitsOf
  rw [List.filter_map]
  have hcomp : ((fun h : WordHit => decide (h.Word = w)) ∘ hitOf cat)
      = fun p : Str × agg => decide (p.1 = w) := by
    funext p
    rfl
  rw [hcomp, List.filter_comm, filter_key l w hn]
  cases mapGet l w with
  | none => rfl
  | some a =>
    simp only
    by_cases h0 : a.countRaw + a.countNoSymbol ≠ 0
    · have hd : (fun p : Str × agg => decide (p.2.countRaw + p.2.countNoSymbol ≠ 0)) (w, a)
          = true := decide_eq_true h0
      rw [if_pos h0, List.filter_cons_of_pos (p := fun p : Str × agg =>
        decide (p.2.countRaw + p.2.countNoSymbol ≠ 0)) (a := (w, a)) (l := []) hd]
      rfl
    · have hd : ¬ (fun p : Str × agg => decide (p.2.countRaw + p.2.countNoSymbol ≠ 0)) (w, a)
          = true := by
        intro e
        exact h0 (of_decide_eq_true e)
      rw [if_neg h0, List.filter_cons_of_neg (p := fun p : Str × agg =>
        decide (p.2.countRaw + p.2.countNoSymbol ≠ 0)) (a := (w, a)) (l := []) hd]
      rfl

theorem agg_get (ms1 ms2 : List Match) (w : Str) :
    mapGet (aggNoSymbol (aggRaw [] ms1) ms2) w =
      if matchesOf ms1 w = [] ∧ matchesOf ms2 w = [] then none
      else some
        { countRaw := (matchesOf ms1 w).length, countNoSymbol := (matchesOf ms2 w).length,
          posRaw := (matchesOf ms1 w).map Match.Start,
          posNoSymbol := (matchesOf ms2 w).map Match.Start } := by
  rw [aggNoSymbol_get, aggRaw_get]
  by_cases h1 : matchesOf ms1 w = [] <;> by_cases h2 : matchesOf ms2 w = []
  · simp [h1, h2, mapGet]
  · simp [h1, h2, mapGet, addNoSymbol, aggZero]
  · simp [h1, h2, mapGet, addRaw, aggZero]
  · simp [h1, h2, mapGet, addRaw, addNoSymbol, aggZero]

theorem agg_nodup (ms1 ms2 : List Match) :
    ((aggNoSymbol (aggRaw [] ms1) ms2).map Prod.fst).Nodup :=
  aggNoSymbol_nodup ms2 _ (aggRaw_nodup ms1 [] (by simp))

theorem entryWords_built {ro : RangeOrders} {d : Detector} {text tns c : Str}
    {A : ACAutomaton} {ms1 ms2 : List Match} (hA : mapGet d.automata c = some (some A))
    (h1 : Search A text = some ms1) (h2 : Search A tns = some ms2) :
    entryWords (catEntry ro d text tns c) =
      hitsOf c (ro.aggs.order (aggNoSymbol (aggRaw [] ms1) ms2)) := by
  unfold catEntry
  simp only [hA, h1, h2]
  by_cases h4 : (aggNoSymbol (aggRaw [] ms1) ms2).length = 0
  · rw [if_pos h4]
    have e : aggNoSymbol (aggRaw [] ms1) ms2 = [] := List.length_eq_zero.1 h4
    have e2 : ro.aggs.order (aggNoSymbol (aggRaw [] ms1) ms2) = [] := by
      have := ro.aggs.perm (aggNoSymbol (aggRaw [] ms1) ms2)
      rw [e] at this ⊢
      exact List.Perm.eq_nil this
    rw [e2]
    rfl
  · rw [if_neg h4]
    obtain ⟨_, _, e3, _⟩ := wordLoop_spec c
      (ro.aggs.order (aggNoSymbol (aggRaw [] ms1) ms2)) crInit []
    simp only [entryWords, e3]
    rfl

theorem catWords_eq {ro : RangeOrders} {d : Detector} {text : Str} {cats : List Str}
    {resp : DetectResponse} (post : DetectPost ro d text cats resp) {c : Str}
    (hc : c ∈ selected ro d cats) :
    catWords resp c = entryWords (catEntry ro d text (replaceAllEmpty d.reNoSymbol text) c) := by
  unfold catWords
  rw [post.cats c, if_pos hc]
  cases catEntry ro d text (replaceAllEmpty d.reNoSymbol text) c with
  | none => rfl
  | some oe =>
    cases oe with
    | none => rfl
    | some cr => rfl

theorem replaceAllEmpty_class (uc : UnicodeTables) (text : Str) :
    replaceAllEmpty (reNoSymbolClass uc) text = stripped uc text := by
  unfold replaceAllEmpty stripped reNoSymbolClass
  apply List.filter_congr
  intro x _
  simp

theorem mem_selected (ro : RangeOrders) {d : Detector} {cats : List Str} {c : Str}
    (hreg : c ∈ d.automata.map Prod.fst) (hsel : cats = [] ∨ c ∈ cats) :
    c ∈ selected ro d cats := by
  unfold selected
  by_cases h0 : cats.length = 0
  · rw [if_pos h0]
    exact ((ro.automata.perm d.automata).map Prod.fst).mem_iff.2 hreg
  · rw [if_neg h0]
    rcases hsel with e | h
    · rw [e] at h0; exact absurd rfl h0
    · exact h

/-- The hits recorded for a word by a well-built category: one hit carrying the
matches of both passes, or none when neither pass matched. -/
theorem word_hits {ro : RangeOrders} {d : Detector} {text : Str} {cats : List Str}
    {resp : DetectResponse} (post : DetectPost ro d text cats resp) {c : Str}
    (hc : c ∈ selected ro d cats) {A : ACAutomaton} {ms1 ms2 : List Match}
    (hA : mapGet d.automata c = some (some A)) (h1 : Search A text = some ms1)
    (h2 : Search A (replaceAllEmpty d.reNoSymbol text) = some ms2) (w : Str) :
    (catWords resp c).filter (fun h => decide (h.Word = w)) =
      if matchesOf ms1 w = [] ∧ matchesOf ms2 w = [] then []
      else [hitOf c (w,
        { countRaw := (matchesOf ms1 w).length, countNoSymbol := (matchesOf ms2 w).length,
          posRaw := (matchesOf ms1 w).map Match.Start,
          posNoSymbol := (matchesOf ms2 w).map Match.Start })] := by
  rw [catWords_eq post hc, entryWords_built hA h1 h2]
  have hp := ro.aggs.perm (aggNoSymbol (aggRaw [] ms1) ms2)
  have hn : ((ro.aggs.order (aggNoSymbol (aggRaw [] ms1) ms2)).map Prod.fst).Nodup :=
    (hp.map Prod.fst).nodup_iff.2 (agg_nodup ms1 ms2)
  rw [hits_filter c _ w hn, mapGet_perm hp hn, agg_get]
  by_cases h : matchesOf ms1 w = [] ∧ matchesOf ms2 w = []
  · rw [if_pos h, if_pos h]
  · rw [if_neg h, if_neg h]
    have hpos : (matchesOf ms1 w).length + (matchesOf ms2 w).length ≠ 0 := by
      intro e
      apply h
      constructor
      · exact List.length_eq_zero.1 (by omega)
      · exact List.length_eq_zero.1 (by omega)
    simp only [if_pos hpos]

theorem tierOf_cases (c : Str) : tierOf c = "high".toList ∨ tierOf c = "low".toList := by
  unfold tierOf
  split
  · exact Or.inl rfl
  · exact Or.inr rfl

theorem levelOf_snd (c w : Str) : (levelOf c w).2 = tierOf c := by
  unfold levelOf tierOf
  simp only
  split <;> [rfl; (split <;> rfl)]

theorem levelOf_fst_one (c w : Str) (h : w.length = 1) : (levelOf c w).1 = "low".toList := by
  unfold levelOf runeCount
  simp only [h, if_true]

theorem levelOf_fst_many (c w : Str) (h : w.length ≠ 1) : (levelOf c w).1 = tierOf c := by
  have e : levelOf c w = if runeCount w = 1 then ("low".toList, tierOf c)
      else if tierOf c = "high".toList then ("high".toList, tierOf c)
      else ("low".toList, tierOf c) := rfl
  have h2 : ¬ runeCount w = 1 := h
  rw [e, if_neg h2]
  rcases tierOf_cases c with h1 | h1
  · rw [if_pos h1, h1]
  · rw [h1]
    rfl

/-- The text is masked at exactly the covered indices. -/
theorem masked_spec (mask : Char) (ms : List Match) (s : Str) :
    (applyCover mask (markAll ms (List.replicate s.length false)) s).length = s.length ∧
    ∀ j : Nat, j < s.length →
      (applyCover mask (markAll ms (List.replicate s.length false)) s)[j]? =
        if covered ms j = true then some mask else s[j]? := by
  obtain ⟨hl, hj⟩ := markAll_spec ms (List.replicate s.length false)
  rw [List.length_replicate] at hl hj
  obtain ⟨h1, h2⟩ := applyCover_spec mask (markAll ms (List.replicate s.length false)) s hl
  refine ⟨h1, ?_⟩
  intro j hjl
  rw [h2 j, hj j hjl, List.getElem?_eq_getElem hjl]
  have hr : (List.replicate s.length false)[j]? = some false := by
    rw [List.getElem?_eq_getElem (by simpa using hjl)]
    simp
  rw [hr]
  by_cases hc : covered ms j = true
  · simp [hc]
  · simp [hc]

theorem masked_nil (mask : Char) (s : Str) :
    applyCover mask (markAll [] (List.replicate s.length false)) s = s := by
  obtain ⟨h1, h2⟩ := masked_spec mask [] s
  apply List.ext_getElem?
  intro j
  by_cases hj : j < s.length
  · rw [h2 j hj]
    simp [covered]
  · rw [List.getElem?_eq_none (by omega), List.getElem?_eq_none (by omega)]

theorem covered_iff {W : List Str} {T : Str} (i : Nat) :
    covered (specSearch W T) i = true ↔
      ∃ m, m ∈ specSearch W T ∧ m.Start ≤ (i : Int) ∧ (i : Int) < m.End := by
  unfold covered
  simp only [List.any_eq_true, decide_eq_true_eq]
  constructor
  · rintro ⟨m, hm, _, h2, h3⟩
    exact ⟨m, hm, h2, h3⟩
  · rintro ⟨m, hm, h2, h3⟩
    exact ⟨m, hm, (specSearch_sound hm).2.2.1, h2, h3⟩

theorem hitsOf_level {c : Str} {l : List (Str × agg)} {h : WordHit} (hm : h ∈ hitsOf c l) :
    h.Level = (levelOf c h.Word).1 ∧ h.OriginalLevel = (levelOf c h.Word).2 := by
  unfold hitsOf at hm
  obtain ⟨p, _, rfl⟩ := List.mem_map.1 hm
  exact ⟨rfl, rfl⟩

theorem entryWords_level {ro : RangeOrders} {d : Detector} {text tns c : Str} {h : WordHit}
    (hm : h ∈ entryWords (catEntry ro d text tns c)) :
    h.Level = (levelOf c h.Word).1 ∧ h.OriginalLevel = (levelOf c h.Word).2 := by
  cases he : catEntry ro d text tns c with
  | none => rw [he] at hm; simp [entryWords] at hm
  | some oe =>
    cases oe with
    | none => rw [he] at hm; simp [entryWords] at hm
    | some cr =>
      rw [he] at hm
      obtain ⟨_, _, _, _, _, _, _, hw, _⟩ := catEntry_some he
      simp only [entryWords] at hm
      rw [hw] at hm
      exact hitsOf_level hm

theorem catWords_sub {ro : RangeOrders} {d : Detector} {text : Str} {cats : List Str}
    {resp : DetectResponse} (post : DetectPost ro d text cats resp) {c : Str} {h : WordHit}
    (hm : h ∈ catWords resp c) :
    c ∈ selected ro d cats ∧
      h ∈ entryWords (catEntry ro d text (replaceAllEmpty d.reNoSymbol text) c) := by
  by_cases hc : c ∈ selected ro d cats
  · refine ⟨hc, ?_⟩
    rw [← catWords_eq post hc]
    exact hm
  · exfalso
    unfold catWords at hm
    rw [post.cats c, if_neg hc] at hm
    simp at hm

theorem level_of_hit {c : Str} {h : WordHit}
    (hl : h.Level = (levelOf c h.Word).1 ∧ h.OriginalLevel = (levelOf c h.Word).2) :
    h.OriginalLevel = tierOf c ∧ (h.Word.length = 1 → h.Level = "low".toList) ∧
      (2 ≤ h.Word.length → h.Level = tierOf c) := by
  obtain ⟨h1, h2⟩ := hl
  refine ⟨by rw [h2, levelOf_snd], ?_, ?_⟩
  · intro e
    rw [h1, levelOf_fst_one c _ e]
  · intro e
    rw [h1, levelOf_fst_many c _ (by omega)]

theorem keys_perm_of_built {loaded : List (Str × List Str)} {d : Detector}
    (hkeys : (loaded.map Prod.fst).Nodup) (hn : (d.automata.map Prod.fst).Nodup)
    (hmem : ∀ c, c ∈ d.automata.map Prod.fst ↔ c ∈ loaded.map Prod.fst) :
    (d.automata.map Prod.fst).Perm (loaded.map Prod.fst) :=
  (List.perm_ext_iff_of_nodup hn hkeys).2 hmem

theorem specSearch_match_ext {W : List Str} {T : Str} {a b : Match}
    (ha : a ∈ specSearch W T) (hb : b ∈ specSearch W T) (h1 : a.Start = b.Start)
    (h2 : a.End = b.End) : a = b := by
  obtain ⟨_, _, _, _, a5, a6⟩ := specSearch_sound ha
  obtain ⟨_, _, _, _, b5, b6⟩ := specSearch_sound hb
  have hlen : a.Word.length = b.Word.length := by omega
  have hw : a.Word = b.Word := by
    rw [← a6, ← b6, h1, hlen]
  cases a
  cases b
  simp only [Match.mk.injEq]
  exact ⟨h1, h2, hw⟩

/-- A list of search results sorted the way `Mask` sorts is determined by its
elements. -/
theorem sorted_matches_unique {W : List Str} {T : Str} {l1 l2 : List Match}
    (hp1 : l1.Perm (specSearch W T)) (hp2 : l2.Perm (specSearch W T))
    (hs1 : l1.Pairwise maskLE) (hs2 : l2.Pairwise maskLE) : l1 = l2 := by
  have key : ∀ l : List Match, l.Perm (specSearch W T) → l.Pairwise maskLE →
      l.Pairwise fun a b => a ∈ specSearch W T ∧ b ∈ specSearch W T ∧ maskLE a b := by
    intro l hp hs
    apply List.Pairwise.imp_of_mem _ hs
    intro a b ha hb hab
    exact ⟨hp.mem_iff.1 ha, hp.mem_iff.1 hb, hab⟩
  have anti : IsAntisymm Match
      (fun a b => a ∈ specSearch W T ∧ b ∈ specSearch W T ∧ maskLE a b) := by
    constructor
    intro a b hab hba
    obtain ⟨ha, hb, h1⟩ := hab
    obtain ⟨_, _, h2⟩ := hba
    rw [maskLE_iff] at h1 h2
    exact specSearch_match_ext ha hb (by omega) (by omega)
  exact @List.eq_of_perm_of_sorted Match _ anti l1 l2 (hp1.trans hp2.symm)
    (key l1 hp1 hs1) (key l2 hp2 hs2)

theorem searchWalk_total {W : List Str} {path : Nat → Str} {h : List acNode}
    (inv : AutInv W path h) (ch : Char) :
    ∀ (fuel cur : Nat), cur < h.length → (path cur).length + 1 ≤ fuel →
      ∃ c1, searchWalk h 0 ch fuel (some cur) = some c1 ∧ c1 < h.length := by
  intro fuel
  induction fuel with
  | zero =>
    intro cur _ hf
    omega
  | succ fuel ih =>
    intro cur hcl hf
    obtain ⟨n, hn⟩ := get_of_lt hcl
    by_cases h0 : cur = 0
    · subst h0
      exact ⟨0, by simp [searchWalk], hcl⟩
    · cases hg : mapGet n.next ch with
      | some t => exact ⟨cur, by simp [searchWalk, h0, hn, hg], hcl⟩
      | none =>
        obtain ⟨t, ht, htl, hlps, _⟩ := inv.resolved cur n hn h0
        have hrec : searchWalk h 0 ch (fuel + 1) (some cur) = searchWalk h 0 ch fuel (some t) := by
          simp [searchWalk, h0, hn, hg, ht]
        rw [hrec]
        have hlt := hlps.2.1
        exact ih t htl (by omega)

theorem failIter_depth {W : List Str} {path : Nat → Str} {h : List acNode}
    (inv : AutInv W path h) :
    ∀ (k v t : Nat), failIter h k v = some t → (path t).length + k ≤ (path v).length := by
  intro k
  induction k with
  | zero =>
    intro v t hk
    simp only [failIter, Option.some.injEq] at hk
    rw [hk]
    omega
  | succ k ih =>
    intro v t hk
    simp only [failIter] at hk
    cases hn : h[v]? with
    | none => rw [hn] at hk; cases hk
    | some n =>
      rw [hn] at hk
      simp only at hk
      cases hf : n.fail with
      | none => rw [hf] at hk; cases hk
      | some u =>
        rw [hf] at hk
        simp only at hk
        have hv0 : v ≠ 0 := by
          intro e
          subst e
          rw [(inv.rootNode n hn).1] at hf
          cases hf
        obtain ⟨u1, hu1, _, hlps, _⟩ := inv.resolved v n hn hv0
        rw [hf] at hu1
        cases hu1
        have h1 := ih u t hk
        have h2 := hlps.2.1
        omega

theorem specLoop_blocks (W : List Str) : ∀ (rest pre : Str),
    specLoop W pre rest =
      (List.range rest.length).flatMap fun i =>
        emit (pre.length + i) (outOf W (pre ++ rest.take (i + 1))) := by
  intro rest
  induction rest with
  | nil => intro pre; simp [specLoop]
  | cons c rest ih =>
    intro pre
    simp only [specLoop, List.length_cons, List.range_succ_eq_map, List.flatMap_cons,
      List.flatMap_map, ih]
    congr 1
    apply List.flatMap_congr
    intro i _
    simp only [List.length_append, List.length_singleton, List.take_succ_cons,
      List.append_assoc, List.singleton_append]
    congr 1
    omega

theorem inTrie_iff_of_mem {W : List Str} {w0 : Str} (hw : w0 ∈ W) (s : Str) :
    inTrie W s ↔ ∃ w, w ∈ W ∧ s <+: w := by
  unfold inTrie
  constructor
  · rintro (e | h)
    · exact ⟨w0, hw, by rw [e]; exact List.nil_prefix⟩
    · exact h
  · intro h
    exact Or.inr h

/-- A trie with a non-root state was built from a list holding a word. -/
theorem AutInv.exists_word {W : List Str} {path : Nat → Str} {h : List acNode}
    (inv : AutInv W path h) {v : Nat} (hv : v < h.length) (hv0 : v ≠ 0) : ∃ w, w ∈ W := by
  rcases (inv.nodes (path v)).1 ⟨v, hv, rfl⟩ with e | ⟨w, hw, _⟩
  · exact absurd (inv.shape.inj v 0 hv inv.shape.pos (by rw [e, inv.shape.root])) hv0
  · exact ⟨w, hw⟩

theorem detect_inv {ro : RangeOrders} {d : Detector} {text : Str} {cats : List Str}
    {resp : DetectResponse} (h : Detect ro d text cats = some resp) :
    ∃ r, categoryLoop ro d text (replaceAllEmpty d.reNoSymbol text) respInit
        (selected ro d cats) = some r ∧
      resp.Categories = r.Categories ∧ resp.TotalCount = r.TotalCount ∧
      resp.DetectedWords = r.DetectedWords ∧
      resp.CategorySummary = summaryLoop r.CategorySummary (ro.results.order r.Categories) := by
  unfold Detect at h
  simp only at h
  unfold selected respInit
  cases hl : categoryLoop ro d text (replaceAllEmpty d.reNoSymbol text)
      { HasSensitive := false, TotalCount := 0, Categories := [], DetectedWords := [],
        RiskLevel := "safe".toList, CategorySummary := [], SimilarWords := [],
        SimilarSensitive := true }
      (if cats.length = 0 then (ro.automata.order d.automata).map Prod.fst else cats) with
  | none => rw [hl] at h; cases h
  | some r =>
    rw [hl] at h
    simp only [Option.some.injEq] at h
    refine ⟨r, rfl, ?_⟩
    subst h
    by_cases hp : r.TotalCount > 0
    · simp only [if_pos hp, and_self]
    · simp only [if_neg hp, and_self]

theorem categoryLoop_counts (ro : RangeOrders) (d : Detector) (text tns : Str) :
    ∀ (cats : List Str) (resp r : DetectResponse),
      cats.Nodup → (∀ c, c ∈ cats → c ∉ resp.Categories.map Prod.fst) →
      categoryLoop ro d text tns resp cats = some r →
      r.TotalCount + countSum resp.Categories = resp.TotalCount + countSum r.Categories := by
  intro cats
  induction cats with
  | nil =>
    intro resp r _ _ h
    simp only [categoryLoop, Option.some.injEq] at h
    subst h
    omega
  | cons c0 rest ih =>
    intro resp r hn hdis h
    simp only [categoryLoop, categoryBody_eq] at h
    rw [List.nodup_cons] at hn
    cases he : catEntry ro d text tns c0 with
    | none => rw [he] at h; simp [applyEntry] at h
    | some oe =>
      cases oe with
      | none =>
        rw [he] at h
        simp only [applyEntry] at h
        exact ih resp r hn.2 (fun c hc => hdis c (List.mem_cons_of_mem _ hc)) h
      | some cr =>
        rw [he] at h
        simp only [applyEntry] at h
        have hnone : mapGet resp.Categories c0 = none :=
          (mapGet_none_iff _ _).2 (hdis c0 (List.mem_cons_self _ _))
        have hdis2 : ∀ c, c ∈ rest → c ∉ (mapSet resp.Categories c0 cr).map Prod.fst := by
          intro c hc hm
          rw [mem_keys_mapSet] at hm
          rcases hm with e | hm
          · subst e; exact hn.1 hc
          · exact hdis c (List.mem_cons_of_mem _ hc) hm
        have := ih _ r hn.2 hdis2 h
        simp only [mapSet_of_none _ _ _ hnone, countSum, List.map_append, List.sum_append,
          List.map_cons, List.map_nil, List.sum_cons, List.sum_nil] at this ⊢
        omega

theorem summaryLoop_eq : ∀ (l : List (Str × CategoryResult))
    (summary : List (Str × List (Str × Nat))),
    (l.map Prod.fst).Nodup → (∀ c, c ∈ l.map Prod.fst → c ∉ summary.map Prod.fst) →
    summaryLoop summary l = summary ++ l.map (fun p => (p.1, summaryOf p.2)) := by
  intro l
  induction l with
  | nil => intro summary _ _; simp [summaryLoop]
  | cons p l ih =>
    intro summary hn hdis
    obtain ⟨cat, data⟩ := p
    simp only [List.map_cons, List.nodup_cons] at hn
    have hnone : mapGet summary cat = none :=
      (mapGet_none_iff _ _).2 (hdis cat (by rw [List.map_cons]; exact List.mem_cons_self _ _))
    simp only [summaryLoop]
    rw [mapSet_of_none _ _ _ hnone]
    have e := ih (summary ++ [(cat, summaryOf data)]) hn.2
    unfold summaryOf at e ⊢
    rw [e]
    · simp only [List.map_cons, List.append_assoc, List.singleton_append]
    · intro c hc hm
      simp only [List.map_append, List.map_cons, List.map_nil, List.mem_append,
        List.mem_singleton] at hm
      rcases hm with hm | e
      · exact hdis c (by simp only [List.map_cons, List.mem_cons]; exact Or.inr hc) hm
      · subst e; exact hn.1 hc

theorem summaryTotal_map (l : List (Str × CategoryResult)) :
    summaryTotal (l.map fun p => (p.1, summaryOf p.2)) = countSum l := by
  unfold summaryTotal countSum
  rw [List.map_map]
  congr 1

theorem countSum_perm {l1 l2 : List (Str × CategoryResult)} (hp : l1.Perm l2) :
    countSum l1 = countSum l2 :=
  (hp.map _).sum_eq

theorem statGet_mapSet (m : List (Str × Nat)) (k k1 : Str) (v : Nat) :
    statGet (mapSet m k v) k1 = if k = k1 then v else statGet m k1 := by
  unfold statGet
  rw [mapGet_mapSet]
  by_cases e : k = k1 <;> simp [e]

theorem wordLoop_stats (cat : Str) : ∀ (l : List (Str × agg)) (cr : CategoryResult)
    (dw : List WordHit) (k : Str),
    statGet (wordLoop cat cr dw l).1.Stats k =
      statGet cr.Stats k + ((hitsOf cat l).filter fun h => decide (h.Level = k)).length := by
  intro l
  induction l with
  | nil =>
    intro cr dw k
    simp [wordLoop, hitsOf]
  | cons p l ih =>
    intro cr dw k
    obtain ⟨w, a⟩ := p
    by_cases h0 : a.countRaw + a.countNoSymbol = 0
    · have hh : hitsOf cat ((w, a) :: l) = hitsOf cat l := by
        unfold hitsOf
        rw [List.filter_cons_of_neg (by simp [h0])]
      simp only [wordLoop, if_pos h0, hh]
      exact ih cr dw k
    · have hh : hitsOf cat ((w, a) :: l) = hitOf cat (w, a) :: hitsOf cat l := by
        unfold hitsOf
        rw [List.filter_cons_of_pos (by simp; omega)]
        rfl
      simp only [wordLoop, if_neg h0, hh]
      rw [ih]
      simp only [statGet_mapSet]
      by_cases e : (levelOf cat w).1 = k
      · have hd : decide ((hitOf cat (w, a)).Level = k) = true := decide_eq_true e
        rw [if_pos e, e]
        simp only [List.filter_cons, hd, if_true, List.length_cons]
        omega
      · have hd : decide ((hitOf cat (w, a)).Level = k) = false := decide_eq_false e
        rw [if_neg e]
        simp only [List.filter_cons, hd, Bool.false_eq_true, if_false]

theorem catEntry_stats {ro : RangeOrders} {d : Detector} {text tns : Str} {cat : Str}
    {cr : CategoryResult} (h : catEntry ro d text tns cat = some (some cr)) (k : Str) :
    statGet cr.Stats k =
      statGet crInit.Stats k + (cr.Words.filter fun h => decide (h.Level = k)).length := by
  obtain ⟨A, ms1, ms2, hA, h1, h2, _, hw, _⟩ := catEntry_some h
  unfold catEntry at h
  simp only [hA, h1, h2] at h
  by_cases h4 : (aggNoSymbol (aggRaw [] ms1) ms2).length = 0
  · rw [if_pos h4] at h; cases h
  · rw [if_neg h4] at h
    simp only [Option.some.injEq] at h
    rw [hw]
    subst h
    exact wordLoop_stats cat _ crInit [] k

theorem catEntry_words_nodup {ro : RangeOrders} {d : Detector} {text tns : Str} {cat : Str}
    {cr : CategoryResult} (h : catEntry ro d text tns cat = some (some cr)) :
    (cr.Words.map WordHit.Word).Nodup := by
  obtain ⟨A, ms1, ms2, _, _, _, _, hw, _⟩ := catEntry_some h
  rw [hw]
  have hp := ro.aggs.perm (aggNoSymbol (aggRaw [] ms1) ms2)
  have hn : ((ro.aggs.order (aggNoSymbol (aggRaw [] ms1) ms2)).map Prod.fst).Nodup :=
    (hp.map Prod.fst).nodup_iff.2 (agg_nodup ms1 ms2)
  unfold hitsOf
  rw [List.map_map]
  have e : (WordHit.Word ∘ hitOf cat) = Prod.fst := by
    funext p
    rfl
  rw [e]
  exact (List.filter_sublist _).map Prod.fst |>.nodup hn

theorem level_split (cat : Str) (l : List WordHit)
    (hl : ∀ h, h ∈ l → h.Level = (levelOf cat h.Word).1) :
    (l.filter fun h => decide (h.Level = "high".toList)).length +
      (l.filter fun h => decide (h.Level = "low".toList)).length = l.length := by
  induction l with
  | nil => rfl
  | cons x l ih =>
    have hx := hl x (List.mem_cons_self _ _)
    have ih1 := ih (fun h hm => hl h (List.mem_cons_of_mem _ hm))
    have hlev : x.Level = "high".toList ∨ x.Level = "low".toList := by
      rw [hx]
      by_cases h1 : x.Word.length = 1
      · right; exact levelOf_fst_one cat _ h1
      · rw [levelOf_fst_many cat _ h1]
        exact tierOf_cases cat
    have hne : "high".toList ≠ "low".toList := by decide
    rcases hlev with e | e
    · have d1 : decide (x.Level = "high".toList) = true := decide_eq_true e
      have d2 : decide (x.Level = "low".toList) = false :=
        decide_eq_false (by rw [e]; exact hne)
      simp only [List.filter_cons, d1, d2, if_true, Bool.false_eq_true, if_false,
        List.length_cons]
      omega
    · have d1 : decide (x.Level = "low".toList) = true := decide_eq_true e
      have d2 : decide (x.Level = "high".toList) = false :=
        decide_eq_false (by rw [e]; exact hne.symm)
      simp only [List.filter_cons, d1, d2, if_true, Bool.false_eq_true, if_false,
        List.length_cons]
      omega

theorem statisticsLoop_total : ∀ (l : List (Str × List Str)) (stats : List (Str × Nat))
    (total : Nat), (statisticsLoop stats total l).2 = total + sizeSum l := by
  intro l
  induction l with
  | nil => intro stats total; simp [statisticsLoop, sizeSum]
  | cons p l ih =>
    intro stats total
    obtain ⟨cat, set⟩ := p
    simp only [statisticsLoop]
    rw [ih]
    simp only [sizeSum, List.map_cons, List.sum_cons]
    omega

theorem statisticsLoop_get : ∀ (l : List (Str × List Str)) (stats : List (Str × Nat))
    (total : Nat) (c : Str), (l.map Prod.fst).Nodup →
    (∀ set, mapGet l c = some set →
      mapGet (statisticsLoop stats total l).1 c = some set.length) ∧
    (mapGet l c = none → mapGet (statisticsLoop stats total l).1 c = mapGet stats c) := by
  intro l
  induction l with
  | nil =>
    intro stats total c _
    simp [statisticsLoop, mapGet]
  | cons p l ih =>
    intro stats total c hn
    obtain ⟨cat, set⟩ := p
    simp only [List.map_cons, List.nodup_cons] at hn
    obtain ⟨i1, i2⟩ := ih (mapSet stats cat set.length) (total + set.length) c hn.2
    simp only [statisticsLoop]
    by_cases e : cat = c
    · subst e
      have hnone : mapGet l cat = none := (mapGet_none_iff l cat).2 hn.1
      constructor
      · intro s hs
        simp only [mapGet, if_true, Option.some.injEq] at hs
        subst hs
        rw [i2 hnone, mapGet_mapSet, if_pos rfl]
      · intro hs
        simp [mapGet] at hs
    · constructor
      · intro s hs
        simp only [mapGet, if_neg e] at hs
        exact i1 s hs
      · intro hs
        simp only [mapGet, if_neg e] at hs
        rw [i2 hs, mapGet_mapSet, if_neg e]

theorem sizeSum_keys (sw : List (Str × List Str)) (hn : (sw.map Prod.fst).Nodup) :
    sizeSum sw = ((sw.map Prod.fst).map (setSize sw)).sum := by
  unfold sizeSum
  rw [List.map_map]
  congr 1
  apply List.map_congr_left
  intro p hp
  obtain ⟨c, set⟩ := p
  simp only [Function.comp, setSize, mapGet_of_mem sw c set hn hp]

theorem nodup_builtinCategories : builtinCategories.Nodup := by decide

theorem sizeSum_builtin (sw : List (Str × List Str))
    (hk : (sw.map Prod.fst).Perm builtinCategories) :
    sizeSum sw =
      (setSize sw PoliticalHigh + setSize sw PoliticalLow + setSize sw PoliticalPerson +
        setSize sw PoliticalBanned + setSize sw PoliticalProhib) +
      (setSize sw ViolentHigh + setSize sw ViolentLow + setSize sw ViolentChemical) +
      (setSize sw PornHigh + setSize sw PornLow) +
      (setSize sw AbusiveHigh + setSize sw AbusiveLow) +
      (setSize sw AdvertisingHigh + setSize sw AdvertisingLow) := by
  have hn : (sw.map Prod.fst).Nodup := hk.nodup_iff.2 nodup_builtinCategories
  rw [sizeSum_keys sw hn, (hk.map (setSize sw)).sum_eq]
  simp only [builtinCategories, List.map_cons, List.map_nil, List.sum_cons, List.sum_nil]
  omega

theorem entryWords_same {ro : RangeOrders} {d : Detector} {text c : Str} {h : WordHit}
    (hm : h ∈ entryWords (catEntry ro d text text c)) :
    h.CountNoSymbol = h.CountRaw ∧ h.PositionsNoSymbol = h.PositionsRaw ∧
      h.TotalCount = 2 * h.CountRaw := by
  cases he : catEntry ro d text text c with
  | none => rw [he] at hm; simp [entryWords] at hm
  | some oe =>
    cases oe with
    | none => rw [he] at hm; simp [entryWords] at hm
    | some cr =>
      rw [he] at hm
      obtain ⟨A, ms1, ms2, _, h1, h2, _, hw, _⟩ := catEntry_some he
      simp only [entryWords] at hm
      rw [hw] at hm
      have e12 : ms2 = ms1 := by
        rw [h1] at h2
        exact (Option.some.inj h2).symm
      subst e12
      unfold hitsOf at hm
      obtain ⟨p, hp, rfl⟩ := List.mem_map.1 hm
      obtain ⟨w, a⟩ := p
      have hp1 := (List.mem_filter.1 hp).1
      have hmem : (w, a) ∈ aggNoSymbol (aggRaw [] ms2) ms2 :=
        (ro.aggs.perm _).mem_iff.1 hp1
      have hget := mapGet_of_mem _ w a (agg_nodup ms2 ms2) hmem
      rw [agg_get] at hget
      by_cases hx : matchesOf ms2 w = [] ∧ matchesOf ms2 w = []
      · rw [if_pos hx] at hget; cases hget
      · rw [if_neg hx] at hget
        simp only [Option.some.injEq] at hget
        subst hget
        simp only [hitOf]
        exact ⟨trivial, trivial, by omega⟩

theorem stripped_eq_self (uc : UnicodeTables) (text : Str)
    (hfree : ∀ ch, ch ∈ text →
      (uc.isLetter ch || uc.isNumber ch || ch == '_' || ch == '，' || ch == '。') = true) :
    stripped uc text = text := by
  unfold stripped
  exact List.filter_eq_self.2 hfree

theorem hitsOf_perm (cat : Str) {l1 l2 : List (Str × agg)} (hp : l1.Perm l2) :
    (hitsOf cat l1).Perm (hitsOf cat l2) := by
  unfold hitsOf
  exact (hp.filter _).map _

theorem levelOf_fst_cases (c w : Str) :
    (levelOf c w).1 = "high".toList ∨ (levelOf c w).1 = "low".toList := by
  by_cases h1 : w.length = 1
  · right; exact levelOf_fst_one c w h1
  · rw [levelOf_fst_many c w h1]
    exact tierOf_cases c

theorem wordLoop_stats_list (cat : Str) : ∀ (l : List (Str × agg)) (cr : CategoryResult)
    (dw : List WordHit) (a b : Nat),
    cr.Stats = [("high".toList, a), ("low".toList, b)] →
    (wordLoop cat cr dw l).1.Stats =
      [("high".toList,
          a + ((hitsOf cat l).filter fun h => decide (h.Level = "high".toList)).length),
        ("low".toList,
          b + ((hitsOf cat l).filter fun h => decide (h.Level = "low".toList)).length)] := by
  intro l
  induction l with
  | nil =>
    intro cr dw a b hs
    simp [wordLoop, hitsOf, hs]
  | cons p l ih =>
    intro cr dw a b hs
    obtain ⟨w, ag⟩ := p
    by_cases h0 : ag.countRaw + ag.countNoSymbol = 0
    · have hh : hitsOf cat ((w, ag) :: l) = hitsOf cat l := by
        unfold hitsOf
        rw [List.filter_cons_of_neg (by simp [h0])]
      simp only [wordLoop, if_pos h0, hh]
      exact ih cr dw a b hs
    · have hh : hitsOf cat ((w, ag) :: l) = hitOf cat (w, ag) :: hitsOf cat l := by
        unfold hitsOf
        rw [List.filter_cons_of_pos (by simp; omega)]
        rfl
      simp only [wordLoop, if_neg h0, hh]
      have hne : "high".toList ≠ "low".toList := by decide
      rcases levelOf_fst_cases cat w with e | e
      · have d1 : decide ((hitOf cat (w, ag)).Level = "high".toList) = true :=
          decide_eq_true e
        have d2 : decide ((hitOf cat (w, ag)).Level = "low".toList) = false :=
          decide_eq_false (by show (levelOf cat w).1 ≠ _; rw [e]; exact hne)
        rw [ih _ _ (a + 1) b (by rw [e, hs]; rfl)]
        have hx : ∀ x : Nat, a + 1 + x = a + (x + 1) := fun x => by omega
        simp only [List.filter_cons, d1, d2, if_true, Bool.false_eq_true, if_false,
          List.length_cons, hx]
      · have d1 : decide ((hitOf cat (w, ag)).Level = "low".toList) = true :=
          decide_eq_true e
        have d2 : decide ((hitOf cat (w, ag)).Level = "high".toList) = false :=
          decide_eq_false (by show (levelOf cat w).1 ≠ _; rw [e]; exact hne.symm)
        rw [ih _ _ a (b + 1) (by rw [e, hs]; rfl)]
        have hx : ∀ x : Nat, b + 1 + x = b + (x + 1) := fun x => by omega
        simp only [List.filter_cons, d1, d2, if_true, Bool.false_eq_true, if_false,
          List.length_cons, hx]

theorem filter_length_perm {α : Type} (p : α → Bool) {l1 l2 : List α} (hp : l1.Perm l2) :
    (l1.filter p).length = (l2.filter p).length :=
  (hp.filter p).length_eq

/-- The contribution of a category under two enumeration orders of the aggregation map:
the same outcome, and for a recorded result the same count and stats and the same words
up to their order. -/
theorem catEntry_orders (ro1 ro2 : RangeOrders) (d : Detector) (text tns c : Str) :
    (catEntry ro1 d text tns c = none → catEntry ro2 d text tns c = none) ∧
    (catEntry ro1 d text tns c = some none → catEntry ro2 d text tns c = some none) ∧
    ∀ cr1, catEntry ro1 d text tns c = some (some cr1) →
      ∃ cr2, catEntry ro2 d text tns c = some (some cr2) ∧ cr1.Count = cr2.Count ∧
        cr1.Stats = cr2.Stats ∧ cr1.Words.Perm cr2.Words := by
  unfold catEntry
  cases h1 : mapGet d.automata c with
  | none => simp
  | some oa =>
    cases oa with
    | none => simp
    | some A =>
      simp only
      cases h2 : Search A text with
      | none => simp
      | some ms1 =>
        simp only
        cases h3 : Search A tns with
        | none => simp
        | some ms2 =>
          simp only
          by_cases h4 : (aggNoSymbol (aggRaw [] ms1) ms2).length = 0
          · simp only [if_pos h4]
            simp
          · simp only [if_neg h4]
            refine ⟨by simp, by simp, ?_⟩
            intro cr1 hcr
            simp only [Option.some.injEq] at hcr
            subst hcr
            have hp : (ro1.aggs.order (aggNoSymbol (aggRaw [] ms1) ms2)).Perm
                (ro2.aggs.order (aggNoSymbol (aggRaw [] ms1) ms2)) :=
              (ro1.aggs.perm _).trans (ro2.aggs.perm _).symm
            have hh := hitsOf_perm c hp
            refine ⟨_, rfl, hh.length_eq, ?_, ?_⟩
            · show (wordLoop c crInit [] _).1.Stats = (wordLoop c crInit [] _).1.Stats
              rw [wordLoop_stats_list c _ crInit [] 0 0 rfl,
                wordLoop_stats_list c _ crInit [] 0 0 rfl,
                filter_length_perm _ hh, filter_length_perm _ hh]
            · obtain ⟨_, _, e1, _⟩ := wordLoop_spec c
                (ro1.aggs.order (aggNoSymbol (aggRaw [] ms1) ms2)) crInit []
              obtain ⟨_, _, e2, _⟩ := wordLoop_spec c
                (ro2.aggs.order (aggNoSymbol (aggRaw [] ms1) ms2)) crInit []
              show (wordLoop c crInit [] _).1.Words.Perm (wordLoop c crInit [] _).1.Words
              rw [e1, e2]
              exact List.Perm.append_left _ hh

theorem catEntry_congr {ro1 ro2 : RangeOrders} (h : ro1.aggs = ro2.aggs) (d : Detector)
    (text tns c : Str) : catEntry ro1 d text tns c = catEntry ro2 d text tns c := by
  unfold catEntry
  rw [h]

theorem entryWords_orders (ro1 ro2 : RangeOrders) (d : Detector) (text tns c : Str) :
    (entryWords (catEntry ro1 d text tns c)).Perm (entryWords (catEntry ro2 d text tns c)) := by
  obtain ⟨o1, o2, o3⟩ := catEntry_orders ro1 ro2 d text tns c
  cases he : catEntry ro1 d text tns c with
  | none => rw [o1 he]
  | some oe =>
    cases oe with
    | none => rw [o2 he]
    | some cr1 =>
      obtain ⟨cr2, he2, _, _, hw⟩ := o3 cr1 he
      rw [he2]
      exact hw

theorem pick_some {x : Option (Option CategoryResult)} {cr : CategoryResult}
    (h : pick x none = some cr) : x = some (some cr) := by
  cases x with
  | none => cases h
  | some oe =>
    cases oe with
    | none => cases h
    | some cr1 =>
      simp only [pick, Option.some.injEq] at h
      rw [h]

/-- The entries of the categories maps of two responses over the same categories, under
two enumeration orders. -/
theorem cats_rel {ro1 ro2 : RangeOrders} {d : Detector} {text : Str} {cats1 cats2 : List Str}
    {r1 r2 : DetectResponse} (post1 : DetectPost ro1 d text cats1 r1)
    (post2 : DetectPost ro2 d text cats2 r2)
    (hsel : ∀ c, c ∈ selected ro1 d cats1 → c ∈ selected ro2 d cats2)
    (c : Str) (cr1 : CategoryResult) (h : mapGet r1.Categories c = some cr1) :
    ∃ cr2, mapGet r2.Categories c = some cr2 ∧ cr1.Count = cr2.Count ∧
      cr1.Stats = cr2.Stats ∧ cr1.Words.Perm cr2.Words := by
  rw [post1.cats c] at h
  by_cases hc : c ∈ selected ro1 d cats1
  · rw [if_pos hc] at h
    obtain ⟨cr2, he2, x1, x2, x3⟩ :=
      (catEntry_orders ro1 ro2 d text (replaceAllEmpty d.reNoSymbol text) c).2.2 cr1
        (pick_some h)
    refine ⟨cr2, ?_, x1, x2, x3⟩
    rw [post2.cats c, if_pos (hsel c hc), he2]
    rfl
  · rw [if_neg hc] at h
    cases h

/-- Two responses over the same categories, under two enumeration orders, agree up to the
order of the words. -/
theorem detect_rel {ro1 ro2 : RangeOrders} {d : Detector} {text : Str} {cats1 cats2 : List Str}
    {r1 r2 : DetectResponse} (post1 : DetectPost ro1 d text cats1 r1)
    (post2 : DetectPost ro2 d text cats2 r2)
    (hsel : (selected ro1 d cats1).Perm (selected ro2 d cats2)) :
    r1.HasSensitive = r2.HasSensitive ∧ r1.TotalCount = r2.TotalCount ∧
      r1.RiskLevel = r2.RiskLevel ∧
      (∀ c, c ∈ r1.Categories.map Prod.fst ↔ c ∈ r2.Categories.map Prod.fst) ∧
      (∀ c cr1 cr2, mapGet r1.Categories c = some cr1 → mapGet r2.Categories c = some cr2 →
        cr1.Count = cr2.Count ∧ cr1.Stats = cr2.Stats ∧ cr1.Words.Perm cr2.Words) ∧
      (∀ c, mapGet r1.CategorySummary c = mapGet r2.CategorySummary c) ∧
      r1.DetectedWords.Perm r2.DetectedWords := by
  have h12 := cats_rel post1 post2 (fun c hc => hsel.mem_iff.1 hc)
  have h21 := cats_rel post2 post1 (fun c hc => hsel.mem_iff.2 hc)
  have hdw : r1.DetectedWords.Perm r2.DetectedWords := by
    rw [post1.words, post2.words]
    exact (List.Perm.flatMap_right _ hsel).trans
      (List.Perm.flatMap_left _ (fun c _ => entryWords_orders ro1 ro2 d text _ c))
  have htot : r1.TotalCount = r2.TotalCount := by
    rw [post1.total, post2.total]
    exact hdw.length_eq
  have hex : (∃ h, h ∈ r1.DetectedWords ∧ h.Level = "high".toList) ↔
      (∃ h, h ∈ r2.DetectedWords ∧ h.Level = "high".toList) := by
    constructor
    · rintro ⟨h, hm, hl⟩; exact ⟨h, hdw.mem_iff.1 hm, hl⟩
    · rintro ⟨h, hm, hl⟩; exact ⟨h, hdw.mem_iff.2 hm, hl⟩
  refine ⟨?_, htot, ?_, ?_, ?_, ?_, hdw⟩
  · rw [post1.has, post2.has, htot]
  · rw [post1.risk, post2.risk, htot]
    simp only [hex]
  · intro c
    rw [← mapGet_isSome_iff, ← mapGet_isSome_iff]
    constructor
    · intro h
      cases hg : mapGet r1.Categories c with
      | none => rw [hg] at h; cases h
      | some cr1 =>
        obtain ⟨cr2, e, _⟩ := h12 c cr1 hg
        rw [e]; rfl
    · intro h
      cases hg : mapGet r2.Categories c with
      | none => rw [hg] at h; cases h
      | some cr2 =>
        obtain ⟨cr1, e, _⟩ := h21 c cr2 hg
        rw [e]; rfl
  · intro c cr1 cr2 g1 g2
    obtain ⟨cr, e, x⟩ := h12 c cr1 g1
    rw [g2] at e
    cases e
    exact x
  · intro c
    rw [post1.summary c, post2.summary c]
    cases hg : mapGet r1.Categories c with
    | none =>
      cases hg2 : mapGet r2.Categories c with
      | none => rfl
      | some cr2 =>
        obtain ⟨cr1, e, _⟩ := h21 c cr2 hg2
        rw [hg] at e
        cases e
    | some cr1 =>
      obtain ⟨cr2, e, x1, x2, _⟩ := h12 c cr1 hg
      rw [e]
      simp only [Option.map_some', summaryOf, x1, x2]

/-- The general form of the tier test of `levelOf`. -/
theorem levelOf_tier (c w : Str) :
    ((levelOf c w).2 = "high".toList ↔
      ("high".toList <:+: c ∨ "banned_books".toList <:+: c ∨ "prohibited".toList <:+: c ∨
        "person".toList <:+: c)) ∧
    ((levelOf c w).2 = "low".toList ↔
      ¬ ("high".toList <:+: c ∨ "banned_books".toList <:+: c ∨ "prohibited".toList <:+: c ∨
        "person".toList <:+: c)) := by
  rw [levelOf_snd]
  unfold tierOf Contains
  by_cases h : "high".toList <:+: c ∨ "banned_books".toList <:+: c ∨
      "prohibited".toList <:+: c ∨ "person".toList <:+: c
  · have hb : (decide ("high".toList <:+: c) || decide ("banned_books".toList <:+: c) ||
        decide ("prohibited".toList <:+: c) || decide ("person".toList <:+: c)) = true := by
      simpa [or_assoc] using h
    rw [if_pos hb]
    exact ⟨⟨fun _ => h, fun _ => rfl⟩, ⟨fun e => absurd e (by decide), fun e => absurd h e⟩⟩
  · have hb : ¬ (decide ("high".toList <:+: c) || decide ("banned_books".toList <:+: c) ||
        decide ("prohibited".toList <:+: c) || decide ("person".toList <:+: c)) = true := by
      simpa [or_assoc] using h
    rw [if_neg hb]
    exact ⟨⟨fun e => absurd e (by decide), fun e => absurd e h⟩, ⟨fun _ => h, fun _ => rfl⟩⟩

theorem builtin_eq_display : CategoryDisplay.map Prod.fst = builtinCategories := rfl

/-- On the fourteen built-in identifiers the test of `levelOf` agrees with the markers
`high`, `person`, `banned`, `prohibited`. -/
theorem marker_builtin : ∀ c, c ∈ builtinCategories →
    (hasMarker c ↔
      ("high".toList <:+: c ∨ "banned_books".toList <:+: c ∨ "prohibited".toList <:+: c ∨
        "person".toList <:+: c)) := by
  unfold hasMarker
  decide

theorem entryWords_registered {ro : RangeOrders} {d : Detector} {text tns c : Str}
    {h : WordHit} (hm : h ∈ entryWords (catEntry ro d text tns c)) :
    c ∈ d.automata.map Prod.fst := by
  cases he : catEntry ro d text tns c with
  | none => rw [he] at hm; simp [entryWords] at hm
  | some oe =>
    cases oe with
    | none => rw [he] at hm; simp [entryWords] at hm
    | some cr =>
      obtain ⟨A, _, _, hA, _⟩ := catEntry_some he
      exact List.mem_map.2 ⟨(c, some A), mem_of_mapGet _ _ _ hA, rfl⟩

/-- C1 (completeness and uniqueness of `Search`): on the automaton obtained by `NewAC`
followed by one `Build W`, for every text `T`, every non-empty word `w` of `W` and every
code-point index `s` at which `w` occurs in `T`, the result of `Search T` contains the
match `(s, s + len w, w)` exactly once; overlapping occurrences are all reported. -/
theorem search_complete_unique (mo : MapOrder (Char × Nat)) (W : List Str) (T w : Str)
    (s : Nat) (hw : w ∈ W) (hne : w ≠ []) (hocc : (T.drop s).take w.length = w) :
    ∃ A ms, Build mo NewAC W = some A ∧ Search A T = some ms ∧
      ms.count { Start := (s : Int), End := (s : Int) + (w.length : Int), Word := w } = 1 := by
  obtain ⟨A, hb, hs⟩ := search_build mo W
  exact ⟨A, _, hb, hs T,
    List.count_eq_one_of_mem (nodup_specLoop W T []) (specSearch_complete hw hne hocc)⟩

/-- Witness for C1: with the words `ab`, `bc` and the text `abc` the search returns
both overlapping matches `(0,2,ab)` and `(1,3,bc)`, each once. -/
theorem search_complete_unique_witness :
    (Build (MapOrder.stored _) NewAC ["ab".toList, "bc".toList]).bind
        (fun A => Search A "abc".toList)
      = some [⟨0, 2, "ab".toList⟩, ⟨1, 3, "bc".toList⟩] ∧
    (∃ A ms, Build (MapOrder.stored _) NewAC ["ab".toList, "bc".toList] = some A ∧
      Search A "abc".toList = some ms ∧ ms.count ⟨0, 2, "ab".toList⟩ = 1) ∧
    (∃ A ms, Build (MapOrder.stored _) NewAC ["ab".toList, "bc".toList] = some A ∧
      Search A "abc".toList = some ms ∧ ms.count ⟨1, 3, "bc".toList⟩ = 1) :=
  ⟨by decide,
    search_complete_unique (MapOrder.stored _) ["ab".toList, "bc".toList] "abc".toList
      "ab".toList 0 (by decide) (by decide) (by decide),
    search_complete_unique (MapOrder.stored _) ["ab".toList, "bc".toList] "abc".toList
      "bc".toList 1 (by decide) (by decide) (by decide)⟩

/-- C2 (soundness of `Search`): on the automaton built from `W`, every match
`(Start, End, Word)` of `Search T` has `Word ∈ W`, `0 ≤ Start`, `End ≤ len T`,
`End - Start = len Word`, and the code points of `T` in `[Start, End)` are `Word`;
if no non-empty word of `W` occurs in `T`, the result is empty. -/
theorem search_sound (mo : MapOrder (Char × Nat)) (W : List Str) (T : Str) :
    ∃ A ms, Build mo NewAC W = some A ∧ Search A T = some ms ∧
      (∀ m, m ∈ ms → m.Word ∈ W ∧ 0 ≤ m.Start ∧ m.End ≤ (T.length : Int) ∧
        m.End - m.Start = (m.Word.length : Int) ∧
        (T.drop m.Start.toNat).take (m.End - m.Start).toNat = m.Word) ∧
      ((∀ w, w ∈ W → w ≠ [] → ¬ w <:+: T) → ms = []) := by
  obtain ⟨A, hb, hs⟩ := search_build mo W
  refine ⟨A, _, hb, hs T, ?_, ?_⟩
  · intro m hm
    obtain ⟨h1, _, h3, h4, h5, h6⟩ := specSearch_sound hm
    refine ⟨h1, h3, h4, h5, ?_⟩
    rw [h5]
    exact h6
  · intro hno
    apply List.eq_nil_iff_forall_not_mem.2
    intro m hm
    obtain ⟨h1, h2, _, _, _, h6⟩ := specSearch_sound hm
    apply hno m.Word h1 h2
    rw [← h6]
    exact List.IsInfix.trans (List.take_prefix _ _).isInfix (List.drop_suffix _ _).isInfix

/-- C8 (mask coverage): on the automaton built from `W`, the text returned by
`Mask s m` has as many code points as `s`; its `i`-th code point is `m` when `i` lies in
`[Start, End)` of some match of `Search s` and the `i`-th code point of `s` otherwise;
marking the matches in any other order gives the same text. -/
theorem mask_coverage (mo : MapOrder (Char × Nat)) (W : List Str) (s : Str) (mask : Char) :
    ∃ A ms txt ms1, Build mo NewAC W = some A ∧ Search A s = some ms ∧
      Mask A s mask = some (txt, ms1) ∧ txt.length = s.length ∧
      (∀ i : Nat, i < s.length →
        txt[i]? = if ∃ m, m ∈ ms ∧ m.Start ≤ (i : Int) ∧ (i : Int) < m.End then some mask
          else s[i]?) ∧
      (∀ ms2 : List Match, ms2.Perm ms →
        applyCover mask (markAll ms2 (List.replicate s.length false)) s = txt) := by
  obtain ⟨A, hb, hs⟩ := search_build mo W
  have hperm := List.perm_insertionSort maskLE (specSearch W s)
  have htxt : ∀ ms2 : List Match, ms2.Perm (specSearch W s) →
      applyCover mask (markAll ms2 (List.replicate s.length false)) s
        = applyCover mask (markAll (specSearch W s) (List.replicate s.length false)) s := by
    intro ms2 hp
    rw [markAll_perm hp]
  obtain ⟨hl, hj⟩ := masked_spec mask (specSearch W s) s
  have hidx : ∀ i : Nat, i < s.length →
      (applyCover mask (markAll (specSearch W s) (List.replicate s.length false)) s)[i]? =
        if ∃ m, m ∈ specSearch W s ∧ m.Start ≤ (i : Int) ∧ (i : Int) < m.End then some mask
        else s[i]? := by
    intro i hi
    rw [hj i hi]
    by_cases hc : covered (specSearch W s) i = true
    · rw [if_pos hc, if_pos ((covered_iff i).1 hc)]
    · rw [if_neg hc, if_neg (fun h => hc ((covered_iff i).2 h))]
  by_cases h0 : (specSearch W s).length = 0
  · have he : specSearch W s = [] := List.length_eq_zero.1 h0
    refine ⟨A, specSearch W s, s, [], hb, hs s, ?_, rfl, ?_, ?_⟩
    · simp only [Mask, hs s, if_pos h0]
    · intro i hi
      have := hidx i hi
      rw [he, masked_nil] at this
      rw [he]
      exact this
    · intro ms2 hp
      rw [he] at hp
      rw [List.Perm.eq_nil hp, masked_nil]
  · refine ⟨A, specSearch W s,
      applyCover mask (markAll (specSearch W s) (List.replicate s.length false)) s,
      (specSearch W s).insertionSort maskLE, hb, hs s, ?_, hl, hidx, htxt⟩
    simp only [Mask, hs s, if_neg h0, htxt _ hperm]

/-- Witness for C8: the matches `[0,3)` and `[1,2)` cover exactly the indices 0, 1, 2,
in either order, and the mask of `abcd` for the words `abc`, `b` is `***d`. -/
theorem mask_coverage_witness :
    markAll [⟨0, 3, "abc".toList⟩, ⟨1, 2, "b".toList⟩] (List.replicate 4 false)
      = [true, true, true, false] ∧
    markAll [⟨1, 2, "b".toList⟩, ⟨0, 3, "abc".toList⟩] (List.replicate 4 false)
      = [true, true, true, false] ∧
    (Build (MapOrder.stored _) NewAC ["abc".toList, "b".toList]).bind
        (fun A => (Mask A "abcd".toList '*').map Prod.fst) = some "***d".toList ∧
    ∃ A ms txt ms1, Build (MapOrder.stored _) NewAC ["abc".toList, "b".toList] = some A ∧
      Search A "abcd".toList = some ms ∧
      Mask A "abcd".toList '*' = some (txt, ms1) ∧ txt.length = "abcd".toList.length ∧
      (∀ i : Nat, i < "abcd".toList.length →
        txt[i]? = if ∃ m, m ∈ ms ∧ m.Start ≤ (i : Int) ∧ (i : Int) < m.End then some '*'
          else "abcd".toList[i]?) ∧
      (∀ ms2 : List Match, ms2.Perm ms →
        applyCover '*' (markAll ms2 (List.replicate "abcd".toList.length false))
          "abcd".toList = txt) :=
  ⟨by decide, by decide, by decide,
    mask_coverage (MapOrder.stored _) ["abc".toList, "b".toList] "abcd".toList '*'⟩

/-- C9 (match list of `Mask`): on the automaton built from `W`, the match list returned
by `Mask` is a permutation of `Search s` and is sorted by `Start` ascending and, among
equal `Start`, by `End` descending; it is the only arrangement of the matches sorted
that way. -/
theorem mask_matches_sorted (mo : MapOrder (Char × Nat)) (W : List Str) (s : Str)
    (mask : Char) :
    ∃ A ms txt ms1, Build mo NewAC W = some A ∧ Search A s = some ms ∧
      Mask A s mask = some (txt, ms1) ∧ ms1.Perm ms ∧
      ms1.Pairwise (fun a b => a.Start < b.Start ∨ (a.Start = b.Start ∧ b.End ≤ a.End)) ∧
      ∀ l : List Match, l.Perm ms →
        l.Pairwise (fun a b => a.Start < b.Start ∨ (a.Start = b.Start ∧ b.End ≤ a.End)) →
        l = ms1 := by
  obtain ⟨A, hb, hs⟩ := search_build mo W
  have hle : ∀ l : List Match,
      l.Pairwise (fun a b => a.Start < b.Start ∨ (a.Start = b.Start ∧ b.End ≤ a.End)) →
      l.Pairwise maskLE :=
    fun l h => List.Pairwise.imp (fun {a b} h => (maskLE_iff a b).2 h) h
  by_cases h0 : (specSearch W s).length = 0
  · have he : specSearch W s = [] := List.length_eq_zero.1 h0
    refine ⟨A, specSearch W s, s, [], hb, hs s, ?_, ?_, List.Pairwise.nil, ?_⟩
    · simp only [Mask, hs s, if_pos h0]
    · rw [he]
    · intro l hp _
      rw [he] at hp
      exact List.Perm.eq_nil hp
  · have hsorted := @List.sorted_insertionSort Match maskLE _ ⟨maskLE_total⟩
      ⟨maskLE_trans⟩ (specSearch W s)
    refine ⟨A, specSearch W s,
      applyCover mask (markAll ((specSearch W s).insertionSort maskLE)
        (List.replicate s.length false)) s,
      (specSearch W s).insertionSort maskLE, hb, hs s, ?_,
      List.perm_insertionSort maskLE _, ?_, ?_⟩
    · simp only [Mask, hs s, if_neg h0]
    · exact List.Pairwise.imp (fun {a b} h => (maskLE_iff a b).1 h) hsorted
    · intro l hp hl
      exact sorted_matches_unique hp (List.perm_insertionSort maskLE _) (hle l hl) hsorted

/-- C10 (`Build` is insensitive to order, duplicates and empty strings): two word lists
with the same set of non-empty words give automata with the identical match sequence
`Search T` for every text, whatever the enumeration order of the node maps. -/
theorem build_insensitive (mo1 mo2 : MapOrder (Char × Nat)) (W1 W2 : List Str) (T : Str)
    (h : ∀ w : Str, w ≠ [] → (w ∈ W1 ↔ w ∈ W2)) :
    ∃ A1 A2 ms, Build mo1 NewAC W1 = some A1 ∧ Build mo2 NewAC W2 = some A2 ∧
      Search A1 T = some ms ∧ Search A2 T = some ms := by
  obtain ⟨A1, hb1, hs1⟩ := search_build mo1 W1
  obtain ⟨A2, hb2, hs2⟩ := search_build mo2 W2
  refine ⟨A1, A2, specSearch W1 T, hb1, hb2, hs1 T, ?_⟩
  rw [hs2 T, specSearch_congr h]

/-- Witness for C10: the lists `[he, she, e]` and `[e, "", she, he, she]`. -/
theorem build_insensitive_witness :
    ∃ A1 A2 ms, Build (MapOrder.stored _) NewAC ["he".toList, "she".toList, "e".toList]
        = some A1 ∧
      Build (MapOrder.stored _) NewAC
        ["e".toList, [], "she".toList, "he".toList, "she".toList] = some A2 ∧
      Search A1 "ushers".toList = some ms ∧ Search A2 "ushers".toList = some ms :=
  build_insensitive (MapOrder.stored _) (MapOrder.stored _)
    ["he".toList, "she".toList, "e".toList]
    ["e".toList, [], "she".toList, "he".toList, "she".toList] "ushers".toList
    (by
      intro w _
      simp only [List.mem_cons, List.mem_singleton, List.not_mem_nil, or_false]
      constructor
      · rintro (h | h | h)
        · exact Or.inr (Or.inr (Or.inr (Or.inl h)))
        · exact Or.inr (Or.inr (Or.inl h))
        · exact Or.inl h
      · rintro (h | h | h | h | h)
        · exact Or.inr (Or.inr h)
        · rename_i hne
          exact absurd h hne
        · exact Or.inr (Or.inl h)
        · exact Or.inl h
        · exact Or.inr (Or.inl h))

/-- C3 (per-word aggregation in `Detect`): in a registry built from word sets with
distinct category keys, for a selected category `c` and a non-empty word `w` of its word
set, `categories[c].words` holds a `WordHit` for `w` iff `w` occurs in the text or in the
stripped text; there is at most one such hit, and it carries the numbers of occurrences
in both texts, their sum, and the start offsets of the occurrences in increasing
order. -/
theorem detect_word_aggregation (uc : UnicodeTables) (ro : RangeOrders)
    (loaded : List (Str × List Str)) (text : Str) (cats : List Str) (c : Str)
    (set : List Str) (w : Str) (hkeys : (loaded.map Prod.fst).Nodup)
    (hc : mapGet loaded c = some set) (hw : w ∈ set) (hne : w ≠ [])
    (hsel : cats = [] ∨ c ∈ cats) :
    ∃ d resp, NewDetector uc ro loaded = some d ∧ Detect ro d text cats = some resp ∧
      ((∃ h, h ∈ catWords resp c ∧ h.Word = w) ↔
        (occurrences w text ≠ [] ∨ occurrences w (stripped uc text) ≠ [])) ∧
      ((catWords resp c).filter fun h => decide (h.Word = w)).length ≤ 1 ∧
      ∀ h, h ∈ catWords resp c → h.Word = w →
        h.CountRaw = (occurrences w text).length ∧
        h.CountNoSymbol = (occurrences w (stripped uc text)).length ∧
        h.TotalCount = h.CountRaw + h.CountNoSymbol ∧
        h.PositionsRaw = (occurrences w text).map Int.ofNat ∧
        h.PositionsNoSymbol = (occurrences w (stripped uc text)).map Int.ofNat := by
  obtain ⟨d, hd, _, hre, hg, hn, hmem, hbuilt⟩ := newDetector_spec uc ro loaded
  obtain ⟨A, hA, hs⟩ := hbuilt hkeys c set hc
  obtain ⟨resp, hdet, post⟩ := detect_good ro d hg text cats
  have hreg : c ∈ d.automata.map Prod.fst :=
    List.mem_map.2 ⟨(c, some A), mem_of_mapGet _ _ _ hA, rfl⟩
  have hcsel := mem_selected ro hreg hsel
  have htns : replaceAllEmpty d.reNoSymbol text = stripped uc text := by
    rw [hre, replaceAllEmpty_class]
  have hhits := word_hits post hcsel hA (hs text) (hs _) w
  rw [htns] at hhits
  have e1 := starts_eq_occurrences hw hne text
  have e2 := starts_eq_occurrences hw hne (stripped uc text)
  have l1 : (matchesOf (specSearch set text) w).length = (occurrences w text).length := by
    have := congrArg List.length e1
    simpa using this
  have l2 : (matchesOf (specSearch set (stripped uc text)) w).length
      = (occurrences w (stripped uc text)).length := by
    have := congrArg List.length e2
    simpa using this
  have hnil : (matchesOf (specSearch set text) w = [] ∧
      matchesOf (specSearch set (stripped uc text)) w = []) ↔
      ¬ (occurrences w text ≠ [] ∨ occurrences w (stripped uc text) ≠ []) := by
    rw [← List.length_eq_zero, ← List.length_eq_zero, l1, l2, List.length_eq_zero,
      List.length_eq_zero]
    tauto
  have hfilter : ∀ h, (h ∈ catWords resp c ∧ h.Word = w) ↔
      h ∈ (catWords resp c).filter fun h => decide (h.Word = w) := by
    intro h
    rw [List.mem_filter]
    simp
  refine ⟨d, resp, hd, hdet, ?_, ?_, ?_⟩
  · constructor
    · rintro ⟨h, hm⟩
      rw [hfilter, hhits] at hm
      by_contra hcon
      rw [if_pos (hnil.2 hcon)] at hm
      simp at hm
    · intro hocc
      have hn1 : ¬ (matchesOf (specSearch set text) w = [] ∧
          matchesOf (specSearch set (stripped uc text)) w = []) :=
        fun hx => (hnil.1 hx) hocc
      have hmem1 : hitOf c (w,
          { countRaw := (matchesOf (specSearch set text) w).length,
            countNoSymbol := (matchesOf (specSearch set (stripped uc text)) w).length,
            posRaw := (matchesOf (specSearch set text) w).map Match.Start,
            posNoSymbol := (matchesOf (specSearch set (stripped uc text)) w).map Match.Start })
          ∈ (catWords resp c).filter fun h => decide (h.Word = w) := by
        rw [hhits, if_neg hn1]
        exact List.mem_singleton_self _
      exact ⟨_, (hfilter _).2 hmem1⟩
  · rw [hhits]
    split <;> simp
  · intro h hm hw1
    have hm2 := (hfilter h).1 ⟨hm, hw1⟩
    rw [hhits] at hm2
    by_cases hx : matchesOf (specSearch set text) w = [] ∧
        matchesOf (specSearch set (stripped uc text)) w = []
    · rw [if_pos hx] at hm2
      simp at hm2
    · rw [if_neg hx] at hm2
      have := List.mem_singleton.1 hm2
      subst this
      exact ⟨l1, l2, rfl, e1, e2⟩

/-- Witness for C3: words `bad`, `b` in one category and the text `this is bad`: two
`WordHit`s, `bad` with raw count 1 at position 8. -/
theorem detect_word_aggregation_witness :
    ((NewDetector ⟨Char.isAlpha, Char.isDigit⟩ RangeOrders.stored
        [("abusive_low".toList, ["bad".toList, "b".toList])]).bind
      (fun d => (Detect RangeOrders.stored d "this is bad".toList []).map
        (fun r => (catWords r "abusive_low".toList).map
          (fun h => (h.Word, h.CountRaw, h.PositionsRaw)))))
      = some [("b".toList, 1, [8]), ("bad".toList, 1, [8])] ∧
    ∃ d resp, NewDetector ⟨Char.isAlpha, Char.isDigit⟩ RangeOrders.stored
        [("abusive_low".toList, ["bad".toList, "b".toList])] = some d ∧
      Detect RangeOrders.stored d "this is bad".toList [] = some resp ∧
      ((∃ h, h ∈ catWords resp "abusive_low".toList ∧ h.Word = "bad".toList) ↔
        (occurrences "bad".toList "this is bad".toList ≠ [] ∨
          occurrences "bad".toList
            (stripped ⟨Char.isAlpha, Char.isDigit⟩ "this is bad".toList) ≠ [])) ∧
      ((catWords resp "abusive_low".toList).filter
        fun h => decide (h.Word = "bad".toList)).length ≤ 1 ∧
      ∀ h, h ∈ catWords resp "abusive_low".toList → h.Word = "bad".toList →
        h.CountRaw = (occurrences "bad".toList "this is bad".toList).length ∧
        h.CountNoSymbol = (occurrences "bad".toList
          (stripped ⟨Char.isAlpha, Char.isDigit⟩ "this is bad".toList)).length ∧
        h.TotalCount = h.CountRaw + h.CountNoSymbol ∧
        h.PositionsRaw = (occurrences "bad".toList "this is bad".toList).map Int.ofNat ∧
        h.PositionsNoSymbol = (occurrences "bad".toList
          (stripped ⟨Char.isAlpha, Char.isDigit⟩ "this is bad".toList)).map Int.ofNat :=
  ⟨by decide,
    detect_word_aggregation ⟨Char.isAlpha, Char.isDigit⟩ RangeOrders.stored
      [("abusive_low".toList, ["bad".toList, "b".toList])] "this is bad".toList []
      "abusive_low".toList ["bad".toList, "b".toList] "bad".toList
      (by decide) (by decide) (by decide) (by decide) (Or.inl rfl)⟩

/-- C4 (risk level of `Detect`): `risk_level` is `safe` iff `total_count` is 0, `high` iff
some `WordHit` of `detected_words` has level `high`, and `low` in every other case. -/
theorem detect_risk_level (uc : UnicodeTables) (ro : RangeOrders)
    (loaded : List (Str × List Str)) (text : Str) (cats : List Str) :
    ∃ d resp, NewDetector uc ro loaded = some d ∧ Detect ro d text cats = some resp ∧
      (resp.RiskLevel = "safe".toList ↔ resp.TotalCount = 0) ∧
      (resp.RiskLevel = "high".toList ↔
        ∃ h, h ∈ resp.DetectedWords ∧ h.Level = "high".toList) ∧
      (resp.TotalCount ≠ 0 → (¬ ∃ h, h ∈ resp.DetectedWords ∧ h.Level = "high".toList) →
        resp.RiskLevel = "low".toList) := by
  obtain ⟨d, hd, _, _, hg, _, _, _⟩ := newDetector_spec uc ro loaded
  obtain ⟨resp, hdet, post⟩ := detect_good ro d hg text cats
  refine ⟨d, resp, hd, hdet, ?_, ?_, ?_⟩
  · rw [post.risk]
    by_cases hpos : resp.TotalCount > 0
    · rw [if_pos hpos]
      have h0 : resp.TotalCount ≠ 0 := by omega
      by_cases hh : ∃ h, h ∈ resp.DetectedWords ∧ h.Level = "high".toList
      · rw [if_pos hh]
        exact ⟨fun e => absurd e (by decide), fun e => absurd e h0⟩
      · rw [if_neg hh]
        exact ⟨fun e => absurd e (by decide), fun e => absurd e h0⟩
    · rw [if_neg hpos]
      exact ⟨fun _ => by omega, fun _ => rfl⟩
  · rw [post.risk]
    by_cases hpos : resp.TotalCount > 0
    · rw [if_pos hpos]
      by_cases hh : ∃ h, h ∈ resp.DetectedWords ∧ h.Level = "high".toList
      · rw [if_pos hh]
        exact ⟨fun _ => hh, fun _ => rfl⟩
      · rw [if_neg hh]
        exact ⟨fun e => absurd e (by decide), fun e => absurd e hh⟩
    · rw [if_neg hpos]
      constructor
      · intro e
        exact absurd e (by decide)
      · rintro ⟨h, hm, _⟩
        exfalso
        have := post.total
        have hl := List.length_pos_of_mem hm
        omega
  · intro h0 hh
    rw [post.risk, if_pos (by omega), if_neg hh]

/-- C5 (single-character downgrade): for every category `c`, `levelOf c w` is
(`low`, tier of `c`) when `w` has exactly one code point and (tier, tier) when it has two
or more; every `WordHit` of a `Detect` response of one code point has level `low`, one of
two or more code points has the tier of its category, reported as `original_level`. -/
theorem single_char_downgrade (uc : UnicodeTables) (ro : RangeOrders)
    (loaded : List (Str × List Str)) (text : Str) (cats : List Str) :
    (∀ c w : Str, w.length = 1 → levelOf c w = ("low".toList, tierOf c)) ∧
    (∀ c w : Str, 2 ≤ w.length → levelOf c w = (tierOf c, tierOf c)) ∧
    ∃ d resp, NewDetector uc ro loaded = some d ∧ Detect ro d text cats = some resp ∧
      (∀ c h, h ∈ catWords resp c →
        h.OriginalLevel = tierOf c ∧ (h.Word.length = 1 → h.Level = "low".toList) ∧
        (2 ≤ h.Word.length → h.Level = tierOf c)) ∧
      (∀ h, h ∈ resp.DetectedWords →
        (h.Word.length = 1 → h.Level = "low".toList) ∧
        (2 ≤ h.Word.length → h.Level = h.OriginalLevel)) := by
  obtain ⟨d, hd, _, _, hg, _, _, _⟩ := newDetector_spec uc ro loaded
  obtain ⟨resp, hdet, post⟩ := detect_good ro d hg text cats
  refine ⟨?_, ?_, d, resp, hd, hdet, ?_, ?_⟩
  · intro c w hw
    exact Prod.ext (levelOf_fst_one c w hw) (levelOf_snd c w)
  · intro c w hw
    exact Prod.ext (levelOf_fst_many c w (by omega)) (levelOf_snd c w)
  · intro c h hm
    exact level_of_hit (entryWords_level (catWords_sub post hm).2)
  · intro h hm
    rw [post.words] at hm
    obtain ⟨c, _, hc⟩ := List.mem_flatMap.1 hm
    obtain ⟨h1, h2, h3⟩ := level_of_hit (entryWords_level hc)
    exact ⟨h2, fun e => by rw [h3 e, h1]⟩

/-- C6 (severity tier derivation): `levelOf` is called by `Detect` with a key of the
registry, and the registry holds the fourteen built-in category identifiers.  For every
such identifier `c` and every word, the tier (original level) `levelOf` computes is
`high` iff `c` contains one of the substrings `high`, `person`, `banned`, `prohibited`,
and `low` otherwise; every `WordHit` of a `Detect` response belongs to a category of the
registry and carries that tier as its original level. -/
theorem tier_derivation (uc : UnicodeTables) (ro : RangeOrders)
    (loaded : List (Str × List Str)) (text : Str) (cats : List Str)
    (hk : (loaded.map Prod.fst).Perm (CategoryDisplay.map Prod.fst)) :
    ∃ d resp, NewDetector uc ro loaded = some d ∧ Detect ro d text cats = some resp ∧
      (∀ c, c ∈ d.automata.map Prod.fst → ∀ w : Str,
        ((levelOf c w).2 = "high".toList ↔ hasMarker c) ∧
        ((levelOf c w).2 = "low".toList ↔ ¬ hasMarker c)) ∧
      ∀ c h, h ∈ catWords resp c →
        c ∈ d.automata.map Prod.fst ∧ h.OriginalLevel = (levelOf c h.Word).2 ∧
        (h.OriginalLevel = "high".toList ↔ hasMarker c) ∧
        (h.OriginalLevel = "low".toList ↔ ¬ hasMarker c) := by
  obtain ⟨d, hd, _, _, hg, _, hmem, _⟩ := newDetector_spec uc ro loaded
  obtain ⟨resp, hdet, post⟩ := detect_good ro d hg text cats
  have hlev : ∀ c, c ∈ d.automata.map Prod.fst → ∀ w : Str,
      ((levelOf c w).2 = "high".toList ↔ hasMarker c) ∧
      ((levelOf c w).2 = "low".toList ↔ ¬ hasMarker c) := by
    intro c hc w
    have hb : c ∈ builtinCategories := by
      rw [← builtin_eq_display]
      exact hk.mem_iff.1 ((hmem c).1 hc)
    rw [marker_builtin c hb]
    exact levelOf_tier c w
  refine ⟨d, resp, hd, hdet, hlev, ?_⟩
  intro c h hm
  obtain ⟨_, hm1⟩ := catWords_sub post hm
  have hreg := entryWords_registered hm1
  have ho := (entryWords_level hm1).2
  refine ⟨hreg, ho, ?_, ?_⟩
  · rw [ho]; exact (hlev c hreg h.Word).1
  · rw [ho]; exact (hlev c hreg h.Word).2

/-- Witness for C6: the fourteen built-in categories, with a word in `political_banned_books`
(tier `high`) and a word in `violent_low` (tier `low`). -/
theorem tier_derivation_witness :
    (([(PoliticalHigh, []), (PoliticalLow, []), (PoliticalPerson, []),
        (PoliticalBanned, ["禁书".toList]), (PoliticalProhib, []), (ViolentHigh, []),
        (ViolentLow, ["打架".toList]), (ViolentChemical, []), (PornHigh, []), (PornLow, []),
        (AbusiveHigh, []), (AbusiveLow, []), (AdvertisingHigh, []), (AdvertisingLow, [])] : List (Str × List Str)).map Prod.fst).Perm (CategoryDisplay.map Prod.fst) ∧
    ∃ d resp, NewDetector ⟨fun c => c.isAlpha || decide (127 < c.toNat), Char.isDigit⟩
        RangeOrders.stored
        [(PoliticalHigh, []), (PoliticalLow, []), (PoliticalPerson, []),
        (PoliticalBanned, ["禁书".toList]), (PoliticalProhib, []), (ViolentHigh, []),
        (ViolentLow, ["打架".toList]), (ViolentChemical, []), (PornHigh, []), (PornLow, []),
        (AbusiveHigh, []), (AbusiveLow, []), (AdvertisingHigh, []), (AdvertisingLow, [])] = some d ∧
      Detect RangeOrders.stored d "禁书打架".toList [] = some resp ∧
      resp.DetectedWords.map (fun h => (h.Word, h.OriginalLevel)) =
        [("禁书".toList, "high".toList), ("打架".toList, "low".toList)] ∧
      (∀ h, h ∈ catWords resp PoliticalBanned → h.OriginalLevel = "high".toList) ∧
      ∀ h, h ∈ catWords resp ViolentLow → h.OriginalLevel = "low".toList :=
  ⟨List.Perm.refl _, by
    have hev : (NewDetector ⟨fun c => c.isAlpha || decide (127 < c.toNat), Char.isDigit⟩
        RangeOrders.stored
        [(PoliticalHigh, []), (PoliticalLow, []), (PoliticalPerson, []),
        (PoliticalBanned, ["禁书".toList]), (PoliticalProhib, []), (ViolentHigh, []),
        (ViolentLow, ["打架".toList]), (ViolentChemical, []), (PornHigh, []), (PornLow, []),
        (AbusiveHigh, []), (AbusiveLow, []), (AdvertisingHigh, []), (AdvertisingLow, [])]).bind
        (fun d => (Detect RangeOrders.stored d "禁书打架".toList []).map
          (fun r => r.DetectedWords.map (fun h => (h.Word, h.OriginalLevel))))
        = some [("禁书".toList, "high".toList), ("打架".toList, "low".toList)] := by
      decide
    obtain ⟨d, resp, hd, hdet, _, hw⟩ :=
      tier_derivation ⟨fun c => c.isAlpha || decide (127 < c.toNat), Char.isDigit⟩
        RangeOrders.stored
        [(PoliticalHigh, []), (PoliticalLow, []), (PoliticalPerson, []),
        (PoliticalBanned, ["禁书".toList]), (PoliticalProhib, []), (ViolentHigh, []),
        (ViolentLow, ["打架".toList]), (ViolentChemical, []), (PornHigh, []), (PornLow, []),
        (AbusiveHigh, []), (AbusiveLow, []), (AdvertisingHigh, []), (AdvertisingLow, [])] "禁书打架".toList [] (List.Perm.refl _)
    rw [hd] at hev
    simp only [Option.some_bind, hdet, Option.map_some', Option.some.injEq] at hev
    refine ⟨d, resp, hd, hdet, hev, ?_, ?_⟩
    · intro h hm
      exact (hw PoliticalBanned h hm).2.2.1.2 (by unfold hasMarker; decide)
    · intro h hm
      exact (hw ViolentLow h hm).2.2.2.2 (by unfold hasMarker; decide)⟩

/-- C7 as stated fails: the order in which `Detect` enumerates the aggregation map of a
category is drawn anew by each call.  With the words `bad` and `b` in `abusive_low` and
the text `bad`, a call with the empty list that enumerates the map in storage order and a
call with the list `[abusive_low]` that enumerates it in reverse order return the words
`b, bad` and `bad, b`: the `categories` maps and the `detected_words` differ. -/
theorem detect_all_order_counterexample :
    (NewDetector ⟨Char.isAlpha, Char.isDigit⟩ RangeOrders.stored
        [(AbusiveLow, ["bad".toList, "b".toList])]).bind
      (fun d => (Detect RangeOrders.stored d "bad".toList []).bind
        (fun r1 => (Detect reversedAggs d "bad".toList [AbusiveLow]).map
          (fun r2 => ((catWords r1 AbusiveLow).map WordHit.Word,
            (catWords r2 AbusiveLow).map WordHit.Word,
            decide (r1.Categories = r2.Categories),
            decide (r1.DetectedWords = r2.DetectedWords)))))
      = some (["b".toList, "bad".toList], ["bad".toList, "b".toList], false, false) := by
  decide

/-- C7 (an empty category list means all categories), amended: in a registry built from
word sets with distinct category keys, `Detect text []` and `Detect text L`, for `L`
listing every registered category exactly once, each call drawing its own enumeration
orders, return responses with the same `has_sensitive`, `total_count`, `risk_level` and
`category_summary`, the same keys in the `categories` map and for each category the same
`count` and `stats` and the same words up to their order, and the same `detected_words`
up to the order in which the categories are enumerated and the order of the words within
each category.  When both calls enumerate the aggregation maps in the same order, the
`categories` maps are equal and the `detected_words` differ only in the order of the
categories. -/
theorem detect_empty_means_all (uc : UnicodeTables) (ro0 ro1 ro2 : RangeOrders)
    (loaded : List (Str × List Str)) (text : Str) (L : List Str)
    (hkeys : (loaded.map Prod.fst).Nodup) (hL : L.Perm (loaded.map Prod.fst)) :
    ∃ d r1 r2, NewDetector uc ro0 loaded = some d ∧ Detect ro1 d text [] = some r1 ∧
      Detect ro2 d text L = some r2 ∧
      r1.HasSensitive = r2.HasSensitive ∧ r1.TotalCount = r2.TotalCount ∧
      r1.RiskLevel = r2.RiskLevel ∧
      (∀ c, c ∈ r1.Categories.map Prod.fst ↔ c ∈ r2.Categories.map Prod.fst) ∧
      (∀ c cr1 cr2, mapGet r1.Categories c = some cr1 → mapGet r2.Categories c = some cr2 →
        cr1.Count = cr2.Count ∧ cr1.Stats = cr2.Stats ∧ cr1.Words.Perm cr2.Words) ∧
      (∀ c, mapGet r1.CategorySummary c = mapGet r2.CategorySummary c) ∧
      r1.DetectedWords.Perm r2.DetectedWords ∧
      (∃ f1 f2 : Str → List WordHit,
        r1.DetectedWords = ((ro1.automata.order d.automata).map Prod.fst).flatMap f1 ∧
        r2.DetectedWords = L.flatMap f2 ∧ ∀ c, (f1 c).Perm (f2 c)) ∧
      (ro1.aggs = ro2.aggs →
        (∀ c, mapGet r1.Categories c = mapGet r2.Categories c) ∧
        ∃ f : Str → List WordHit,
          r1.DetectedWords = ((ro1.automata.order d.automata).map Prod.fst).flatMap f ∧
          r2.DetectedWords = L.flatMap f) := by
  obtain ⟨d, hd, _, _, hg, hn, hmem, _⟩ := newDetector_spec uc ro0 loaded
  obtain ⟨r1, hdet1, post1⟩ := detect_good ro1 d hg text []
  obtain ⟨r2, hdet2, post2⟩ := detect_good ro2 d hg text L
  have hs1 : selected ro1 d [] = (ro1.automata.order d.automata).map Prod.fst := by
    simp [selected]
  have hkp : (d.automata.map Prod.fst).Perm L :=
    (keys_perm_of_built hkeys hn hmem).trans hL.symm
  have hs2 : selected ro2 d L = L := by
    unfold selected
    by_cases hnil : L = []
    · subst hnil
      have hk0 : d.automata.map Prod.fst = [] := List.Perm.eq_nil hkp
      have := (ro2.automata.perm d.automata).map Prod.fst
      rw [hk0] at this
      simp only [List.length_nil, if_true]
      exact List.Perm.eq_nil this
    · rw [if_neg (fun e => hnil (List.length_eq_zero.1 e))]
  have hperm : ((ro1.automata.order d.automata).map Prod.fst).Perm L :=
    ((ro1.automata.perm d.automata).map Prod.fst).trans hkp
  have hsel : (selected ro1 d []).Perm (selected ro2 d L) := by
    rw [hs1, hs2]
    exact hperm
  obtain ⟨x1, x2, x3, x4, x5, x6, x7⟩ := detect_rel post1 post2 hsel
  have hw1 := post1.words
  have hw2 := post2.words
  rw [hs1] at hw1
  rw [hs2] at hw2
  refine ⟨d, r1, r2, hd, hdet1, hdet2, x1, x2, x3, x4, x5, x6, x7,
    ⟨_, _, hw1, hw2, fun c => entryWords_orders ro1 ro2 d text _ c⟩, ?_⟩
  intro hagg
  constructor
  · intro c
    rw [post1.cats c, post2.cats c, hs1, hs2,
      catEntry_congr hagg d text (replaceAllEmpty d.reNoSymbol text) c]
    by_cases hc : c ∈ L
    · rw [if_pos hc, if_pos (hperm.mem_iff.2 hc)]
    · rw [if_neg hc, if_neg (fun h => hc (hperm.mem_iff.1 h))]
  · refine ⟨_, hw1, ?_⟩
    rw [hw2]
    congr 1
    funext c
    rw [catEntry_congr hagg d text (replaceAllEmpty d.reNoSymbol text) c]

/-- Witness for C7: two categories, listed in the other order, the second call
enumerating the aggregation maps in reverse. -/
theorem detect_empty_means_all_witness :
    ([("a_high".toList, ["xy".toList]), ("b_low".toList, ["yz".toList])].map
        Prod.fst).Nodup ∧
    ["b_low".toList, "a_high".toList].Perm
      ([("a_high".toList, ["xy".toList]), ("b_low".toList, ["yz".toList])].map Prod.fst) ∧
    ∃ d r1 r2, NewDetector ⟨Char.isAlpha, Char.isDigit⟩ RangeOrders.stored
        [("a_high".toList, ["xy".toList]), ("b_low".toList, ["yz".toList])] = some d ∧
      Detect RangeOrders.stored d "xyz".toList [] = some r1 ∧
      Detect reversedAggs d "xyz".toList ["b_low".toList, "a_high".toList] = some r2 ∧
      r1.HasSensitive = r2.HasSensitive ∧ r1.TotalCount = r2.TotalCount ∧
      r1.RiskLevel = r2.RiskLevel ∧
      (∀ c, c ∈ r1.Categories.map Prod.fst ↔ c ∈ r2.Categories.map Prod.fst) ∧
      (∀ c cr1 cr2, mapGet r1.Categories c = some cr1 → mapGet r2.Categories c = some cr2 →
        cr1.Count = cr2.Count ∧ cr1.Stats = cr2.Stats ∧ cr1.Words.Perm cr2.Words) ∧
      (∀ c, mapGet r1.CategorySummary c = mapGet r2.CategorySummary c) ∧
      r1.DetectedWords.Perm r2.DetectedWords :=
  ⟨by decide, by decide, by
    obtain ⟨d, r1, r2, hd, h1, h2, x1, x2, x3, x4, x5, x6, x7, _⟩ :=
      detect_empty_means_all ⟨Char.isAlpha, Char.isDigit⟩ RangeOrders.stored
        RangeOrders.stored reversedAggs
        [("a_high".toList, ["xy".toList]), ("b_low".toList, ["yz".toList])] "xyz".toList
        ["b_low".toList, "a_high".toList] (by decide) (by decide)
    exact ⟨d, r1, r2, hd, h1, h2, x1, x2, x3, x4, x5, x6, x7⟩⟩

/-- C15 (empty text): for every automaton, whether built from a word list or never
built, `Search` of the empty text returns an empty match sequence. -/
theorem search_empty (ac : ACAutomaton) :
    Search ac [] = some [] ∧ Search NewAC [] = some [] := by
  constructor
  · unfold Search
    cases ac.root <;> rfl
  · rfl

/-- C16 as stated fails for a word list holding the empty string: in the automaton built
from `["", "a"]` the state reached by `a` has `out = ["a"]`, although the empty string is
a word of the list and a suffix of `a`. -/
theorem out_closure_counterexample :
    (Build (MapOrder.stored _) NewAC [[], ['a']]).map
        (fun A => A.heap.map fun n => (n.next, n.fail, n.out))
      = some [([('a', 1)], none, []), ([], some 0, [['a']])] ∧
    ¬ (∀ w : Str, w ∈ [['a']] ↔ (w ∈ [[], ['a']] ∧ w <:+ ['a'])) := by
  refine ⟨by decide, ?_⟩
  intro h
  have := (h []).2 ⟨by decide, List.nil_suffix⟩
  exact absurd this (by decide)

/-- C16 (output invariant after `Build`), amended: in the automaton built from `W`, with
`path v` the word spelled from the root to `v`, the `out` of every non-root state `v` is
its own word (when `path v` is a non-empty word of `W`) followed by the `out` of
`v.fail`; the words of `v.out` are exactly the non-empty words of `W` that are suffixes
of `path v`, each listed once; the `out` of the root is empty. -/
theorem out_suffix_closure (mo : MapOrder (Char × Nat)) (W : List Str) :
    ∃ A path, Build mo NewAC W = some A ∧ A.root = some 0 ∧ TrieShape A.heap path ∧
      (∀ n : acNode, A.heap[0]? = some n → n.out = []) ∧
      ∀ (v : Nat) (n : acNode), A.heap[v]? = some n → v ≠ 0 →
        (∃ (t : Nat) (nt : acNode), n.fail = some t ∧ A.heap[t]? = some nt ∧
          n.out = (if path v ≠ [] ∧ path v ∈ W then [path v] else []) ++ nt.out) ∧
        n.out.Nodup ∧ ∀ w : Str, w ∈ n.out ↔ (w ∈ W ∧ w ≠ [] ∧ w <:+ path v) := by
  obtain ⟨A, path, hb, hroot, inv⟩ := build_spec mo W
  refine ⟨A, path, hb, hroot, inv.shape, fun n hn => (inv.rootNode n hn).2, ?_⟩
  intro v n hv hv0
  obtain ⟨t, ht, htl, hlps, hout⟩ := inv.resolved v n hv hv0
  obtain ⟨nt, hnt⟩ := get_of_lt htl
  refine ⟨⟨t, nt, ht, hnt, ?_⟩, ?_, ?_⟩
  · rw [hout, outOf_lps hlps, inv.out_eq hnt]
    rfl
  · rw [hout]
    exact nodup_outOf W _
  · intro w
    rw [hout, mem_outOf]
    tauto

/-- C17 (failure links after `Build`): in the automaton built from `W`, with `path v`
the word spelled from the root to `v` (distinct states have distinct paths), the failure
link of every non-root state `v` is the state whose path is the longest proper suffix of
`path v` that is a prefix of some word of `W`; it is the root when that suffix is
empty. -/
theorem fail_link_longest_suffix (mo : MapOrder (Char × Nat)) (W : List Str) :
    ∃ A path, Build mo NewAC W = some A ∧ A.root = some 0 ∧ TrieShape A.heap path ∧
      ∀ (v : Nat) (n : acNode), A.heap[v]? = some n → v ≠ 0 →
        ∃ t, n.fail = some t ∧ t < A.heap.length ∧
          path t <:+ path v ∧ (path t).length < (path v).length ∧
          (∃ w, w ∈ W ∧ path t <+: w) ∧
          (∀ s : Str, s <:+ path v → s.length < (path v).length → (∃ w, w ∈ W ∧ s <+: w) →
            s.length ≤ (path t).length) ∧
          (path t = [] → t = 0) := by
  obtain ⟨A, path, hb, hroot, inv⟩ := build_spec mo W
  refine ⟨A, path, hb, hroot, inv.shape, ?_⟩
  intro v n hv hv0
  obtain ⟨t, ht, htl, hlps, _⟩ := inv.resolved v n hv hv0
  obtain ⟨w0, hw0⟩ := inv.exists_word (lt_of_get hv) hv0
  refine ⟨t, ht, htl, hlps.1, hlps.2.1, (inTrie_iff_of_mem hw0 _).1 hlps.2.2.1, ?_, ?_⟩
  · intro s h1 h2 h3
    exact hlps.2.2.2 s h1 h2 ((inTrie_iff_of_mem hw0 s).2 h3)
  · intro e
    exact inv.shape.inj t 0 htl inv.shape.pos (by rw [e, inv.shape.root])

/-- C18 (failure links form a tree rooted at the root): in the automaton built from any
word list, every non-root state has a failure link to a state of strictly smaller depth,
the failure link of the root is nil, and following failure links never returns to the
state it started from; hence the inner loop of `Search` stops in every state without
dereferencing nil, `Search` returns for every text, and its result is one block of
matches per code point of the text, in order. -/
theorem fail_links_tree (mo : MapOrder (Char × Nat)) (W : List Str) :
    ∃ A path, Build mo NewAC W = some A ∧ A.root = some 0 ∧ TrieShape A.heap path ∧
      (∀ (v : Nat) (n : acNode), A.heap[v]? = some n → v ≠ 0 →
        ∃ t, n.fail = some t ∧ t < A.heap.length ∧ (path t).length < (path v).length) ∧
      (∀ n : acNode, A.heap[0]? = some n → n.fail = none) ∧
      (∀ v k : Nat, 0 < k → failIter A.heap k v ≠ some v) ∧
      (∀ (cur : Nat) (ch : Char), cur < A.heap.length →
        ∃ c1, searchWalk A.heap 0 ch (A.heap.length + 1) (some cur) = some c1 ∧
          c1 < A.heap.length) ∧
      ∀ T : Str, ∃ blocks : List (List Match), blocks.length = T.length ∧
        Search A T = some blocks.flatten ∧
        ∀ (i : Nat) (b : List Match), blocks[i]? = some b →
          ∀ m, m ∈ b → m.End = (i : Int) + 1 := by
  obtain ⟨A, path, hb, hroot, inv⟩ := build_spec mo W
  refine ⟨A, path, hb, hroot, inv.shape, ?_, fun n hn => (inv.rootNode n hn).1, ?_, ?_, ?_⟩
  · intro v n hv hv0
    obtain ⟨t, ht, htl, hlps, _⟩ := inv.resolved v n hv hv0
    exact ⟨t, ht, htl, hlps.2.1⟩
  · intro v k hk hcyc
    have := failIter_depth inv k v v hcyc
    omega
  · intro cur ch hcur
    exact searchWalk_total inv ch (A.heap.length + 1) cur hcur
      (by have := inv.shape.depth cur hcur; omega)
  · intro T
    have hls : IsLs W (path 0) [] := by
      rw [inv.shape.root]
      exact ⟨List.suffix_refl _, inTrie_nil W, fun s1 hs _ => by rw [List.suffix_nil.1 hs]⟩
    have hsearch : Search A T = some (specLoop W [] T) := by
      have := searchLoop_spec inv T [] 0 inv.shape.pos hls
      simp only [Search, hroot]
      exact this
    refine ⟨(List.range T.length).map fun i => emit i (outOf W (T.take (i + 1))), by simp,
      ?_, ?_⟩
    · rw [hsearch, specLoop_blocks]
      simp [List.flatMap, List.flatten]
    · intro i b hi m hm
      rw [List.getElem?_map] at hi
      cases hr : (List.range T.length)[i]? with
      | none => rw [hr] at hi; cases hi
      | some j =>
        rw [hr] at hi
        simp only [Option.map_some', Option.some.injEq] at hi
        have hj : j = i := by
          obtain ⟨hlt, e⟩ := List.getElem?_eq_some.1 hr
          rw [List.getElem_range] at e
          exact e.symm
        subst hj
        subst hi
        exact (mem_emit.1 hm).2.1

/-- C20 (emission order of `Search`): on the automaton built from a word list, the
matches of a text are ordered by `End` non-decreasing and, among matches with the same
`End`, by `Start` strictly increasing (longest word first); any automaton built from a
list with the same non-empty words, under any enumeration order of the node maps,
returns the same sequence. -/
theorem search_emission_order (mo : MapOrder (Char × Nat)) (W : List Str) (T : Str) :
    ∃ A ms, Build mo NewAC W = some A ∧ Search A T = some ms ∧
      ms.Pairwise (fun a b => a.End ≤ b.End ∧
        (a.End = b.End → a.Start < b.Start ∧ b.Word.length < a.Word.length)) ∧
      ∀ (mo2 : MapOrder (Char × Nat)) (W2 : List Str),
        (∀ w : Str, w ≠ [] → (w ∈ W ↔ w ∈ W2)) →
        ∃ A2, Build mo2 NewAC W2 = some A2 ∧ Search A2 T = some ms := by
  obtain ⟨A, hb, hs⟩ := search_build mo W
  refine ⟨A, specSearch W T, hb, hs T, ?_, ?_⟩
  · have hp : (specSearch W T).Pairwise fun a b =>
        a ∈ specSearch W T ∧ b ∈ specSearch W T ∧ emitBefore a b := by
      rw [List.pairwise_iff_forall_sublist]
      intro a b hab
      have h1 := (List.pairwise_iff_forall_sublist.1 (pairwise_specLoop W T [])) hab
      exact ⟨hab.subset (by simp), hab.subset (by simp), h1⟩
    apply List.Pairwise.imp _ hp
    intro a b hab
    obtain ⟨ha, hb1, h⟩ := hab
    have sa := specSearch_start_eq ha
    have sb := specSearch_start_eq hb1
    rcases h with h | ⟨h1, h2⟩
    · exact ⟨by omega, fun e => by omega⟩
    · exact ⟨by omega, fun _ => ⟨h2, by omega⟩⟩
  · intro mo2 W2 h
    obtain ⟨A2, hb2, hs2⟩ := search_build mo2 W2
    exact ⟨A2, hb2, by rw [hs2 T, specSearch_congr h]⟩

/-- C12 (per-category tallies and summary): in a registry built from any word sets, for
every text and category list, every entry `cr` of the `categories` map of the response
has `count` equal to the number of its `WordHit`s, whose words are pairwise distinct;
`stats["high"]` and `stats["low"]` are the numbers of those `WordHit`s with level `high`
and `low`, and they add up to `count`; `category_summary` has the same keys as
`categories` and maps `c` to `total`, `high`, `low` of `categories[c]`. -/
theorem category_tallies (uc : UnicodeTables) (ro : RangeOrders)
    (loaded : List (Str × List Str)) (text : Str) (cats : List Str) :
    ∃ d resp, NewDetector uc ro loaded = some d ∧ Detect ro d text cats = some resp ∧
      (∀ (c : Str) (cr : CategoryResult), mapGet resp.Categories c = some cr →
        cr.Count = cr.Words.length ∧ (cr.Words.map WordHit.Word).Nodup ∧
        statGet cr.Stats "high".toList =
          (cr.Words.filter fun h => decide (h.Level = "high".toList)).length ∧
        statGet cr.Stats "low".toList =
          (cr.Words.filter fun h => decide (h.Level = "low".toList)).length ∧
        statGet cr.Stats "high".toList + statGet cr.Stats "low".toList = cr.Count ∧
        mapGet resp.CategorySummary c =
          some [("total".toList, cr.Count), ("high".toList, statGet cr.Stats "high".toList),
            ("low".toList, statGet cr.Stats "low".toList)]) ∧
      (resp.Categories.map Prod.fst).Nodup ∧ (resp.CategorySummary.map Prod.fst).Nodup ∧
      ∀ c, c ∈ resp.CategorySummary.map Prod.fst ↔ c ∈ resp.Categories.map Prod.fst := by
  obtain ⟨d, hd, _, _, hg, _, _, _⟩ := newDetector_spec uc ro loaded
  obtain ⟨resp, hdet, post⟩ := detect_good ro d hg text cats
  obtain ⟨r, hloop, hcat, _, _, hsum⟩ := detect_inv hdet
  obtain ⟨r1, hloop1, _, _, _, hk1, _, _, hs1⟩ := categoryLoop_spec ro d text
    (replaceAllEmpty d.reNoSymbol text) (selected ro d cats) respInit
    (fun c _ => catEntry_ne_none hg text _ c) List.nodup_nil
  rw [hloop] at hloop1
  have := Option.some.inj hloop1
  subst this
  have hp := ro.results.perm r.Categories
  have hn : ((ro.results.order r.Categories).map Prod.fst).Nodup :=
    (hp.map Prod.fst).nodup_iff.2 hk1
  have hsumm : resp.CategorySummary =
      (ro.results.order r.Categories).map fun p => (p.1, summaryOf p.2) := by
    rw [hsum, hs1, summaryLoop_eq _ _ hn (fun _ _ hm => absurd hm (List.not_mem_nil _))]
    rfl
  have hkeys : resp.CategorySummary.map Prod.fst
      = (ro.results.order r.Categories).map Prod.fst := by
    rw [hsumm, List.map_map]
    rfl
  refine ⟨d, resp, hd, hdet, ?_, post.catKeys, by rw [hkeys]; exact hn, ?_⟩
  · intro c cr hc
    have hsc := post.summary c
    rw [hc] at hsc
    rw [post.cats c] at hc
    by_cases hsel : c ∈ selected ro d cats
    · rw [if_pos hsel] at hc
      have he : catEntry ro d text (replaceAllEmpty d.reNoSymbol text) c = some (some cr) := by
        cases hce : catEntry ro d text (replaceAllEmpty d.reNoSymbol text) c with
        | none => rw [hce] at hc; cases hc
        | some oe =>
          cases oe with
          | none => rw [hce] at hc; cases hc
          | some cr1 =>
            rw [hce] at hc
            simp only [pick, Option.some.injEq] at hc
            rw [hc]
      have hcount := catEntry_count he
      have hhigh := catEntry_stats he "high".toList
      have hlow := catEntry_stats he "low".toList
      have h0h : statGet crInit.Stats "high".toList = 0 := by decide
      have h0l : statGet crInit.Stats "low".toList = 0 := by decide
      rw [h0h, Nat.zero_add] at hhigh
      rw [h0l, Nat.zero_add] at hlow
      have hsplit := level_split c cr.Words (fun h hm => by
        have hm1 : h ∈ entryWords
            (catEntry ro d text (replaceAllEmpty d.reNoSymbol text) c) := by
          rw [he]; exact hm
        exact (entryWords_level hm1).1)
      refine ⟨hcount, catEntry_words_nodup he, hhigh, hlow, ?_, ?_⟩
      · rw [hhigh, hlow, hcount]
        exact hsplit
      · rw [hsc]
        rfl
    · rw [if_neg hsel] at hc
      cases hc
  · intro c
    rw [hkeys, hcat]
    exact (hp.map Prod.fst).mem_iff

/-- C13 (symbol-free text is counted in both passes): in a registry built from any word
sets, for every category list and every text all of whose code points are letters,
numbers, `_`, `，` or `。`, the symbol-stripped text is the text itself, and every
`WordHit` of the response (in `detected_words` and in the words of every category) has
`count_no_symbol = count_raw`, `positions_no_symbol = positions_raw` and
`total_count = 2 * count_raw`. -/
theorem symbol_free_counts (uc : UnicodeTables) (ro : RangeOrders)
    (loaded : List (Str × List Str)) (text : Str) (cats : List Str)
    (hfree : ∀ ch, ch ∈ text →
      (uc.isLetter ch || uc.isNumber ch || ch == '_' || ch == '，' || ch == '。') = true) :
    ∃ d resp, NewDetector uc ro loaded = some d ∧ Detect ro d text cats = some resp ∧
      replaceAllEmpty d.reNoSymbol text = text ∧
      (∀ h, h ∈ resp.DetectedWords →
        h.CountNoSymbol = h.CountRaw ∧ h.PositionsNoSymbol = h.PositionsRaw ∧
          h.TotalCount = 2 * h.CountRaw) ∧
      ∀ c h, h ∈ catWords resp c →
        h.CountNoSymbol = h.CountRaw ∧ h.PositionsNoSymbol = h.PositionsRaw ∧
          h.TotalCount = 2 * h.CountRaw := by
  obtain ⟨d, hd, _, hre, hg, _, _, _⟩ := newDetector_spec uc ro loaded
  obtain ⟨resp, hdet, post⟩ := detect_good ro d hg text cats
  have htns : replaceAllEmpty d.reNoSymbol text = text := by
    rw [hre, replaceAllEmpty_class, stripped_eq_self uc text hfree]
  refine ⟨d, resp, hd, hdet, htns, ?_, ?_⟩
  · intro h hm
    rw [post.words, List.mem_flatMap] at hm
    obtain ⟨c, _, hm1⟩ := hm
    rw [htns] at hm1
    exact entryWords_same hm1
  · intro c h hm
    have hm1 := (catWords_sub post hm).2
    rw [htns] at hm1
    exact entryWords_same hm1

/-- Witness for C13: the tier-high category `violent_high` with the word `暴恐` and a text
of letters holding it once: raw count 1, no-symbol count 1, total 2, level `high`, risk
level `high`. -/
theorem symbol_free_counts_witness :
    ((NewDetector ⟨fun c => c.isAlpha || decide (127 < c.toNat), Char.isDigit⟩
        RangeOrders.stored [(ViolentHigh, ["暴恐".toList])]).bind
      (fun d => (Detect RangeOrders.stored d "有暴恐内容".toList []).map
        (fun r => (r.RiskLevel, r.DetectedWords))))
      = some ("high".toList,
          [{ Word := "暴恐".toList, CountRaw := 1, CountNoSymbol := 1, TotalCount := 2,
             Level := "high".toList, OriginalLevel := "high".toList, PositionsRaw := [1],
             PositionsNoSymbol := [1] }]) ∧
    ∃ d resp, NewDetector ⟨fun c => c.isAlpha || decide (127 < c.toNat), Char.isDigit⟩
        RangeOrders.stored [(ViolentHigh, ["暴恐".toList])] = some d ∧
      Detect RangeOrders.stored d "有暴恐内容".toList [] = some resp ∧
      replaceAllEmpty d.reNoSymbol "有暴恐内容".toList = "有暴恐内容".toList ∧
      (∀ h, h ∈ resp.DetectedWords →
        h.CountNoSymbol = h.CountRaw ∧ h.PositionsNoSymbol = h.PositionsRaw ∧
          h.TotalCount = 2 * h.CountRaw) ∧
      ∀ c h, h ∈ catWords resp c →
        h.CountNoSymbol = h.CountRaw ∧ h.PositionsNoSymbol = h.PositionsRaw ∧
          h.TotalCount = 2 * h.CountRaw :=
  ⟨by decide,
    symbol_free_counts ⟨fun c => c.isAlpha || decide (127 < c.toNat), Char.isDigit⟩
      RangeOrders.stored [(ViolentHigh, ["暴恐".toList])] "有暴恐内容".toList []
      (by decide)⟩

/-- C14 (totals of `Statistics`): for a registry whose categories are exactly the
fourteen built-in identifiers, `Statistics` maps every category to the size of its word
set, maps `political`, `violent`, `pornographic`, `abusive` and `advertising` to the sum
of the sizes of their member categories, and maps `total` to the sum of all per-category
sizes, which is also the sum of the five group entries. -/
theorem statistics_totals (uc : UnicodeTables) (ro : RangeOrders)
    (loaded : List (Str × List Str))
    (hk : (loaded.map Prod.fst).Perm builtinCategories) :
    ∃ d, NewDetector uc ro loaded = some d ∧
      (∀ (c : Str) (set : List Str), mapGet loaded c = some set →
        mapGet (Statistics ro d) c = some set.length) ∧
      (∀ c, c ∈ builtinCategories →
        mapGet (Statistics ro d) c = some (setSize loaded c)) ∧
      mapGet (Statistics ro d) "political".toList =
        some (setSize loaded PoliticalHigh + setSize loaded PoliticalLow +
          setSize loaded PoliticalPerson + setSize loaded PoliticalBanned +
          setSize loaded PoliticalProhib) ∧
      mapGet (Statistics ro d) "violent".toList =
        some (setSize loaded ViolentHigh + setSize loaded ViolentLow +
          setSize loaded ViolentChemical) ∧
      mapGet (Statistics ro d) "pornographic".toList =
        some (setSize loaded PornHigh + setSize loaded PornLow) ∧
      mapGet (Statistics ro d) "abusive".toList =
        some (setSize loaded AbusiveHigh + setSize loaded AbusiveLow) ∧
      mapGet (Statistics ro d) "advertising".toList =
        some (setSize loaded AdvertisingHigh + setSize loaded AdvertisingLow) ∧
      mapGet (Statistics ro d) "total".toList = some (sizeSum loaded) ∧
      statGet (Statistics ro d) "total".toList =
        statGet (Statistics ro d) "political".toList +
        statGet (Statistics ro d) "violent".toList +
        statGet (Statistics ro d) "pornographic".toList +
        statGet (Statistics ro d) "abusive".toList +
        statGet (Statistics ro d) "advertising".toList := by
  obtain ⟨d, hd, hsw, _, _, _, _, _⟩ := newDetector_spec uc ro loaded
  have hn : (loaded.map Prod.fst).Nodup := hk.nodup_iff.2 nodup_builtinCategories
  have hp := ro.categories.perm loaded
  have hn1 : ((ro.categories.order loaded).map Prod.fst).Nodup :=
    (hp.map Prod.fst).nodup_iff.2 hn
  have hnot : ∀ g : Str, g ∉ builtinCategories → mapGet (ro.categories.order loaded) g = none := by
    intro g hg
    rw [mapGet_none_iff]
    intro hm
    exact hg (hk.mem_iff.1 ((hp.map Prod.fst).mem_iff.1 hm))
  have hcat : ∀ (c : Str) (set : List Str), mapGet loaded c = some set →
      mapGet (Statistics ro d) c = some set.length := by
    intro c set hc
    have hcb : c ∈ builtinCategories :=
      hk.mem_iff.1 (List.mem_map.2 ⟨(c, set), mem_of_mapGet _ _ _ hc, rfl⟩)
    have hne : ¬ "total".toList = c := by
      intro e
      rw [← e] at hcb
      exact absurd hcb (by decide)
    unfold Statistics
    simp only [hsw]
    rw [mapGet_mapSet, if_neg hne]
    exact (statisticsLoop_get _ _ _ c hn1).1 set (by rw [mapGet_perm hp hn1]; exact hc)
  have hgroup : ∀ g : Str, g ∉ builtinCategories → g ≠ "total".toList →
      mapGet (Statistics ro d) g =
        mapGet (mapSet (mapSet (mapSet (mapSet (mapSet ([] : List (Str × Nat))
          "political".toList
          (setSize loaded PoliticalHigh + setSize loaded PoliticalLow +
            setSize loaded PoliticalPerson + setSize loaded PoliticalBanned +
            setSize loaded PoliticalProhib))
          "violent".toList
          (setSize loaded ViolentHigh + setSize loaded ViolentLow +
            setSize loaded ViolentChemical))
          "pornographic".toList (setSize loaded PornHigh + setSize loaded PornLow))
          "abusive".toList (setSize loaded AbusiveHigh + setSize loaded AbusiveLow))
          "advertising".toList
          (setSize loaded AdvertisingHigh + setSize loaded AdvertisingLow)) g := by
    intro g hg hgt
    unfold Statistics
    simp only [hsw]
    rw [mapGet_mapSet, if_neg (fun e => hgt e.symm)]
    exact (statisticsLoop_get _ _ _ g hn1).2 (hnot g hg)
  have htotal : mapGet (Statistics ro d) "total".toList = some (sizeSum loaded) := by
    unfold Statistics
    simp only [hsw]
    rw [mapGet_mapSet, if_pos rfl, statisticsLoop_total, Nat.zero_add]
    exact congrArg some (hp.map _).sum_eq
  have g1 := (hgroup "political".toList (by decide) (by decide)).trans rfl
  have g2 := (hgroup "violent".toList (by decide) (by decide)).trans rfl
  have g3 := (hgroup "pornographic".toList (by decide) (by decide)).trans rfl
  have g4 := (hgroup "abusive".toList (by decide) (by decide)).trans rfl
  have g5 := (hgroup "advertising".toList (by decide) (by decide)).trans rfl
  refine ⟨d, hd, hcat, ?_, g1, g2, g3, g4, g5, htotal, ?_⟩
  · intro c hc
    have hmem : c ∈ loaded.map Prod.fst := hk.mem_iff.2 hc
    obtain ⟨p, hpm, e⟩ := List.mem_map.1 hmem
    obtain ⟨c1, set⟩ := p
    simp only at e
    subst e
    have hget := mapGet_of_mem loaded c1 set hn hpm
    rw [hcat c1 set hget]
    simp only [setSize, hget]
  · simp only [statGet, g1, g2, g3, g4, g5, htotal]
    exact sizeSum_builtin loaded hk

/-- Witness for C14: a registry with the fourteen built-in categories, two of them with
words. -/
theorem statistics_totals_witness :
    (([(PoliticalHigh, ["a".toList, "b".toList]), (PoliticalLow, []), (PoliticalPerson, []),
        (PoliticalBanned, []), (PoliticalProhib, []), (ViolentHigh, ["c".toList]),
        (ViolentLow, []), (ViolentChemical, []), (PornHigh, []), (PornLow, []),
        (AbusiveHigh, []), (AbusiveLow, []), (AdvertisingHigh, []),
        (AdvertisingLow, [])] : List (Str × List Str)).map Prod.fst).Perm builtinCategories ∧
    ∃ d, NewDetector ⟨Char.isAlpha, Char.isDigit⟩ RangeOrders.stored
        [(PoliticalHigh, ["a".toList, "b".toList]), (PoliticalLow, []), (PoliticalPerson, []),
          (PoliticalBanned, []), (PoliticalProhib, []), (ViolentHigh, ["c".toList]),
          (ViolentLow, []), (ViolentChemical, []), (PornHigh, []), (PornLow, []),
          (AbusiveHigh, []), (AbusiveLow, []), (AdvertisingHigh, []),
          (AdvertisingLow, [])] = some d ∧
      mapGet (Statistics RangeOrders.stored d) "political".toList = some 2 ∧
      mapGet (Statistics RangeOrders.stored d) "violent".toList = some 1 ∧
      mapGet (Statistics RangeOrders.stored d) "total".toList = some 3 :=
  ⟨List.Perm.refl _, by
    obtain ⟨d, hd, _, _, g1, g2, _, _, _, ht, _⟩ :=
      statistics_totals ⟨Char.isAlpha, Char.isDigit⟩ RangeOrders.stored
        [(PoliticalHigh, ["a".toList, "b".toList]), (PoliticalLow, []), (PoliticalPerson, []),
          (PoliticalBanned, []), (PoliticalProhib, []), (ViolentHigh, ["c".toList]),
          (ViolentLow, []), (ViolentChemical, []), (PornHigh, []), (PornLow, []),
          (AbusiveHigh, []), (AbusiveLow, []), (AdvertisingHigh, []),
          (AdvertisingLow, [])] (List.Perm.refl _)
    exact ⟨d, hd, g1, g2, ht⟩⟩

/-- C19 as stated fails for a category list naming a category twice: with the word `bad`
in `abusive_low`, the text `bad` and the list `[abusive_low, abusive_low]`, `total_count`
is 2 while the counts of the categories map and the totals of the summary add up to 1. -/
theorem total_count_counterexample :
    (NewDetector ⟨Char.isAlpha, Char.isDigit⟩ RangeOrders.stored
        [(AbusiveLow, ["bad".toList])]).bind
      (fun d => (Detect RangeOrders.stored d "bad".toList [AbusiveLow, AbusiveLow]).map
        (fun r => (r.TotalCount, countSum r.Categories, summaryTotal r.CategorySummary)))
      = some (2, 1, 1) := by
  decide

/-- C19 (total count agrees with the per-category counts), amended: in a registry built
from any word sets, for every text and every category list naming no category more than
once (the empty list, meaning all categories, included), `total_count` equals the sum of
the `count` fields of the entries of the `categories` map and the sum of the `total`
entries of `category_summary`. -/
theorem total_count_agrees (uc : UnicodeTables) (ro : RangeOrders)
    (loaded : List (Str × List Str)) (text : Str) (cats : List Str) (hn : cats.Nodup) :
    ∃ d resp, NewDetector uc ro loaded = some d ∧ Detect ro d text cats = some resp ∧
      resp.TotalCount = countSum resp.Categories ∧
      resp.TotalCount = summaryTotal resp.CategorySummary := by
  obtain ⟨d, hd, _, _, hg, hkn, _, _⟩ := newDetector_spec uc ro loaded
  obtain ⟨resp, hdet, post⟩ := detect_good ro d hg text cats
  obtain ⟨r, hloop, hcat, htot, _, hsum⟩ := detect_inv hdet
  obtain ⟨r1, hloop1, _, _, _, hk1, _, _, hs1⟩ := categoryLoop_spec ro d text
    (replaceAllEmpty d.reNoSymbol text) (selected ro d cats) respInit
    (fun c _ => catEntry_ne_none hg text _ c) List.nodup_nil
  rw [hloop] at hloop1
  have := Option.some.inj hloop1
  subst this
  have hsel : (selected ro d cats).Nodup := by
    unfold selected
    by_cases h0 : cats.length = 0
    · rw [if_pos h0]
      exact ((ro.automata.perm d.automata).map Prod.fst).nodup_iff.2 hkn
    · rw [if_neg h0]
      exact hn
  have hcount := categoryLoop_counts ro d text _ (selected ro d cats) respInit r hsel
    (fun _ _ hm => absurd hm (List.not_mem_nil _)) hloop
  have e1 : resp.TotalCount = countSum resp.Categories := by
    rw [hcat, htot]
    simp only [respInit, countSum, List.map_nil, List.sum_nil] at hcount
    simp only [countSum]
    omega
  have hp := ro.results.perm r.Categories
  have hnk : ((ro.results.order r.Categories).map Prod.fst).Nodup :=
    (hp.map Prod.fst).nodup_iff.2 hk1
  refine ⟨d, resp, hd, hdet, e1, ?_⟩
  rw [e1, hsum, hs1, summaryLoop_eq _ _ hnk (fun _ _ hm => absurd hm (List.not_mem_nil _))]
  simp only [respInit, List.nil_append]
  rw [summaryTotal_map, hcat]
  exact (countSum_perm hp).symm

/-- Witness for C19: two categories, each named once. -/
theorem total_count_agrees_witness :
    ([AbusiveLow, ViolentHigh] : List Str).Nodup ∧
    ∃ d resp, NewDetector ⟨Char.isAlpha, Char.isDigit⟩ RangeOrders.stored
        [(AbusiveLow, ["bad".toList]), (ViolentHigh, ["gun".toList, "un".toList])] = some d ∧
      Detect RangeOrders.stored d "bad gun".toList [AbusiveLow, ViolentHigh] = some resp ∧
      resp.TotalCount = countSum resp.Categories ∧
      resp.TotalCount = summaryTotal resp.CategorySummary :=
  ⟨by decide,
    total_count_agrees ⟨Char.isAlpha, Char.isDigit⟩ RangeOrders.stored
      [(AbusiveLow, ["bad".toList]), (ViolentHigh, ["gun".toList, "un".toList])]
      "bad gun".toList [AbusiveLow, ViolentHigh] (by decide)⟩

end SensitiveChecker
